import Mathlib

/-!
# Verification of the webagent workflow subsystem

A shallow embedding of the workflow templating, instantiation, replay and
AI-fallback services of the `webagent` repository
(`webagent/workflow_builder_service.py`, `webagent/workflow_replay_service.py`,
`webagent/workflow_ai_fallback_service.py`, `webagent/models.py`), together
with proofs and refutations of the specified properties.

Conventions used throughout:
* Python strings are modeled as `List Char`; the `String` wrapper is used at
  the API boundary.
* JSON-like Python values (the step/action dictionaries) are modeled by the
  mutually inductive type `JVal`/`JArr`/`JObj` below.  Python `dict`s are
  association lists with pairwise-distinct keys (Python guarantees key
  uniqueness); numeric literals are modeled as integers.
* `re.sub(re.escape(old), new, text)` — replacement of a literal pattern,
  scanning left to right and replacing non-overlapping occurrences — is
  modeled by `repl` below.  (The replacement strings that actually occur are
  free of `\`, so Python's template-escape handling in the replacement
  argument never fires.)
* Effectful operations (browser dispatch, the generative engine, LLM calls,
  screenshots) are modeled by explicit oracles passed in as functions, and
  `raise` is modeled with `Except`.
-/

set_option maxHeartbeats 1000000

namespace WebAgent

/-! ## Characters and strings -/

/-- A regex word character (`\w`), restricted to ASCII. -/
def wordChar (c : Char) : Bool := c.isAlphanum || c = '_'

/-- A character that is printable ASCII and serializes to itself inside a
JSON string literal under `json.dumps` defaults (not `"`, not `\`,
not a control character, ASCII). -/
def plainChar (c : Char) : Bool :=
  decide (0x20 ≤ c.toNat) && decide (c.toNat ≤ 0x7e) && !(c = '"') && !(c = '\\')

def Wordy (n : List Char) : Prop := n ≠ [] ∧ ∀ c ∈ n, wordChar c

def PlainStr (s : List Char) : Prop := ∀ c ∈ s, plainChar c

def BraceFree (s : List Char) : Prop := ∀ c ∈ s, c ≠ '{' ∧ c ≠ '}'

instance : DecidablePred Wordy := fun _ => by unfold Wordy; infer_instance
instance : DecidablePred PlainStr := fun _ => by unfold PlainStr; infer_instance
instance : DecidablePred BraceFree := fun _ => by unfold BraceFree; infer_instance

/-- The placeholder text `{{ name }}` produced by
`template_var = f"{{{{ {param.name} }}}}"` in `build_workflow_from_run` and by
`template_var = f"{{{{ {param_name} }}}}"` in `apply_parameters_to_workflow`. -/
def phOf (n : List Char) : List Char := '{' :: '{' :: ' ' :: (n ++ [' ', '}', '}'])

/-- Fuel-indexed scanner for `repl` (the fuel makes the definition
structurally recursive, so concrete runs evaluate inside the kernel;
`repl` always supplies enough fuel). -/
def replGo (p v : List Char) : Nat → List Char → List Char
  | _, [] => []
  | 0, s => s
  | Nat.succ f, c :: s =>
    if p ≠ [] ∧ p <+: (c :: s) then
      v ++ replGo p v f (List.drop (p.length - 1) s)
    else
      c :: replGo p v f s

/-- Literal-pattern substitution: the model of
`re.sub(re.escape(p), v, s)` — scan left to right, replace each
non-overlapping occurrence of `p` by `v`.  For the empty pattern the call
sites in the source guard (`if not old_value: return text`), and we return
the text unchanged. -/
def repl (p v s : List Char) : List Char := replGo p v s.length s

theorem replGo_nil {p v : List Char} : ∀ (f : Nat), replGo p v f [] = [] := by
  intro f
  cases f <;> rfl

theorem replGo_fuel {p v : List Char} : ∀ (f : Nat), ∀ {s : List Char}
    (f' : Nat), s.length ≤ f → s.length ≤ f' →
    replGo p v f s = replGo p v f' s := by
  intro f
  induction f with
  | zero =>
    intro s f' h1 _
    have : s = [] := List.eq_nil_of_length_eq_zero (by omega)
    subst this
    rw [replGo_nil, replGo_nil]
  | succ f ih =>
    intro s f' h1 h2
    match s, f' with
    | [], f' => rw [replGo_nil, replGo_nil]
    | c :: s', 0 => simp at h2
    | c :: s', Nat.succ f'' =>
      show (if p ≠ [] ∧ p <+: (c :: s') then _ else _) =
        (if p ≠ [] ∧ p <+: (c :: s') then _ else _)
      by_cases hc : p ≠ [] ∧ p <+: (c :: s')
      · rw [if_pos hc, if_pos hc]
        rw [List.length_cons] at h1 h2
        rw [ih f'' (by simp [List.length_drop]; omega)
          (by simp [List.length_drop]; omega)]
      · rw [if_neg hc, if_neg hc]
        rw [List.length_cons] at h1 h2
        rw [ih f'' (by omega) (by omega)]

/-- `p` does not occur as a contiguous substring of `s` (no match at any
start position). -/
def NoOcc (p s : List Char) : Prop := ∀ k, ¬ p <+: List.drop k s

/-- Executable check for `NoOcc`. -/
def noOccB (p s : List Char) : Bool :=
  (List.range (s.length + 1)).all fun k => !(List.isPrefixOf p (List.drop k s))

theorem noOcc_iff {p s : List Char} : NoOcc p s ↔ noOccB p s = true := by
  constructor
  · intro h
    simp only [noOccB, List.all_eq_true, List.mem_range, Bool.not_eq_true']
    intro k _
    rw [← Bool.not_eq_true, List.isPrefixOf_iff_prefix]
    exact h k
  · intro h k
    simp only [noOccB, List.all_eq_true, List.mem_range, Bool.not_eq_true'] at h
    by_cases hk : k < s.length + 1
    · have := h k hk
      rw [← List.isPrefixOf_iff_prefix]
      simp [this]
    · intro hp
      have hdrop : List.drop k s = [] := by
        apply List.drop_eq_nil_of_le; omega
      rw [hdrop] at hp
      have : p = [] := List.prefix_nil.mp hp
      subst this
      have := h 0 (by omega)
      simp [List.isPrefixOf] at this

instance : ∀ p s, Decidable (NoOcc p s) := fun p s =>
  decidable_of_iff _ noOcc_iff.symm

/-! Basic facts about `repl`. -/

theorem repl_nil {p v : List Char} : repl p v [] = [] := rfl

theorem repl_cons_unfold (p v : List Char) (c : Char) (s : List Char) :
    repl p v (c :: s) =
      if p ≠ [] ∧ p <+: (c :: s) then
        v ++ replGo p v s.length (List.drop (p.length - 1) s)
      else
        c :: repl p v s := rfl

theorem repl_cons_pos {p v : List Char} {c : Char} {s : List Char}
    (hne : p ≠ []) (hp : p <+: c :: s) :
    repl p v (c :: s) = v ++ repl p v (List.drop (p.length - 1) s) := by
  rw [repl_cons_unfold, if_pos ⟨hne, hp⟩]
  unfold repl
  rw [replGo_fuel s.length (List.drop (p.length - 1) s).length
    (by simp) le_rfl]

theorem repl_cons_neg' {p v : List Char} {c : Char} {s : List Char}
    (hp : ¬ (p ≠ [] ∧ p <+: (c :: s))) :
    repl p v (c :: s) = c :: repl p v s := by
  rw [repl_cons_unfold, if_neg hp]

theorem repl_cons_neg {p v : List Char} {c : Char} {s : List Char}
    (hp : ¬ p <+: c :: s) :
    repl p v (c :: s) = c :: repl p v s :=
  repl_cons_neg' (fun h => hp h.2)

theorem repl_empty_pat {v : List Char} (s : List Char) :
    repl [] v s = [] ++ s := by
  induction s with
  | nil => rfl
  | cons c t ih =>
    rw [repl_cons_neg' (by simp)]
    simpa using ih

/-- A match at the head of the text is taken. -/
theorem repl_match {p v : List Char} (hne : p ≠ []) (t : List Char) :
    repl p v (p ++ t) = v ++ repl p v t := by
  obtain ⟨c, p', rfl⟩ := List.exists_cons_of_ne_nil hne
  rw [List.cons_append, repl_cons_pos hne (by simp)]
  congr 2
  simp only [List.length_cons, Nat.add_sub_cancel]
  exact List.drop_left p' t

/-- If `p` is a prefix of `X ++ Y` and fits inside `X`, it is a prefix of
`X`. -/
theorem prefix_of_short {p X Y : List Char} (h : p <+: X ++ Y)
    (hl : p.length ≤ X.length) : p <+: X := by
  obtain ⟨r, hr⟩ := h
  have h1 : List.take p.length (p ++ r) = p := List.take_left p r
  rw [hr, List.take_append_of_le_length hl] at h1
  have h2 := List.take_prefix p.length X
  rwa [h1] at h2

/-- If `p` is a prefix of `X ++ Y` and extends past `X`, then `X` is a
prefix of `p` and the remainder of `p` is a prefix of `Y`. -/
theorem prefix_append_split {p X Y : List Char} (h : p <+: X ++ Y)
    (hl : X.length ≤ p.length) : X <+: p ∧ List.drop X.length p <+: Y := by
  obtain ⟨r, hr⟩ := h
  constructor
  · have h1 : List.take X.length (X ++ Y) = X := List.take_left X Y
    rw [← hr] at h1
    rw [List.take_append_of_le_length hl] at h1
    rw [← h1]
    exact List.take_prefix _ _
  · have h2 : List.drop X.length (X ++ Y) = Y := List.drop_left X Y
    rw [← hr, List.drop_append_of_le_length hl] at h2
    exact ⟨r, h2⟩

theorem not_prefix_head {a b : Char} {l₁ l₂ : List Char} (h : a ≠ b) :
    ¬ a :: l₁ <+: b :: l₂ := by
  rw [List.cons_prefix_cons]
  exact fun ⟨h1, _⟩ => h h1

/-- Characters classified as word characters are not delimiters. -/
theorem wordChar_spec {c : Char} (h : wordChar c = true) :
    c ≠ ' ' ∧ c ≠ '{' ∧ c ≠ '}' ∧ c ≠ '"' := by
  refine ⟨?_, ?_, ?_, ?_⟩ <;> rintro rfl <;> exact absurd h (by decide)

theorem ph_ne_nil {n : List Char} : phOf n ≠ [] := by simp [phOf]

theorem ph_length {n : List Char} : (phOf n).length = n.length + 6 := by
  simp [phOf]

/-- Shape of the nonempty suffixes of a placeholder other than the
placeholder itself: either they start `'{' :: ' ' :: _` (drop 1), or they
start with a character other than `'{'`. -/
theorem drop_ph {m : List Char} (hm : ∀ c ∈ m, wordChar c) (j : Nat)
    (h1 : 1 ≤ j) (h2 : j < (phOf m).length) :
    (∃ s', List.drop j (phOf m) = '{' :: ' ' :: s') ∨
    (∃ c s', List.drop j (phOf m) = c :: s' ∧ c ≠ '{') := by
  have haux : ∀ (w : List Char), (∀ c ∈ w, wordChar c) → ∀ i, i < w.length + 3 →
      ∃ c s', List.drop i (w ++ [' ', '}', '}']) = c :: s' ∧ c ≠ '{' := by
    intro w
    induction w with
    | nil =>
      intro _ i hi
      simp only [List.length_nil] at hi
      interval_cases i
      · exact ⟨' ', ['}', '}'], rfl, by decide⟩
      · exact ⟨'}', ['}'], rfl, by decide⟩
      · exact ⟨'}', [], rfl, by decide⟩
    | cons a w' ih =>
      intro hw i hi
      match i with
      | 0 =>
        refine ⟨a, w' ++ [' ', '}', '}'], rfl, ?_⟩
        exact (wordChar_spec (hw a (by simp))).2.1
      | Nat.succ i' =>
        simp only [List.cons_append, List.drop_succ_cons]
        exact ih (fun c hc => hw c (by simp [hc])) i'
          (by simp only [List.length_cons] at hi; omega)
  rw [ph_length] at h2
  match j, h1 with
  | 1, _ => exact Or.inl ⟨m ++ [' ', '}', '}'], rfl⟩
  | 2, _ => exact Or.inr ⟨' ', m ++ [' ', '}', '}'], rfl, by decide⟩
  | Nat.succ (Nat.succ (Nat.succ j')), _ =>
    refine Or.inr ?_
    have := haux m hm j' (by omega)
    obtain ⟨c, s', hcs, hc⟩ := this
    exact ⟨c, s', by simpa [phOf] using hcs, hc⟩

/-- A placeholder never matches strictly inside another placeholder
(at any start offset `1 ≤ j < length`), whatever text follows. -/
theorem ph_not_prefix_mid {n m : List Char} (hm : ∀ c ∈ m, wordChar c)
    {j : Nat} (h1 : 1 ≤ j) (h2 : j < (phOf m).length) (R : List Char) :
    ¬ phOf n <+: List.drop j (phOf m) ++ R := by
  rcases drop_ph hm j h1 h2 with ⟨s', hs⟩ | ⟨c, s', hs, hc⟩
  · rw [hs]
    intro h
    rw [phOf, List.cons_append, List.cons_append, List.cons_prefix_cons] at h
    obtain ⟨-, h⟩ := h
    rw [List.cons_prefix_cons] at h
    exact absurd h.1 (by decide)
  · rw [hs]
    intro h
    rw [phOf, List.cons_append, List.cons_prefix_cons] at h
    exact hc h.1.symm

/-- Distinct parameter names give placeholders neither of which is a prefix
of (any extension of) the other. -/
theorem ph_not_prefix_of_ne {n m : List Char} (hn : ∀ c ∈ n, wordChar c)
    (hm : ∀ c ∈ m, wordChar c) (hne : n ≠ m) (R : List Char) :
    ¬ phOf n <+: phOf m ++ R := by
  intro h
  apply hne
  rw [phOf, phOf] at h
  simp only [List.cons_append, List.cons_prefix_cons, true_and] at h
  -- reduced to the word-tail comparison
  have key : ∀ (n m : List Char), (∀ c ∈ n, wordChar c) → (∀ c ∈ m, wordChar c) →
      (n ++ [' ', '}', '}'] <+: (m ++ [' ', '}', '}']) ++ R) → n = m := by
    intro n
    induction n with
    | nil =>
      intro m _ hm h
      match m with
      | [] => rfl
      | b :: m' =>
        exfalso
        simp only [List.nil_append, List.cons_append] at h
        rw [List.cons_prefix_cons] at h
        exact (wordChar_spec (hm b (by simp))).1 h.1.symm
    | cons a n' ih =>
      intro m hn hm h
      match m with
      | [] =>
        exfalso
        simp only [List.cons_append, List.nil_append] at h
        rw [List.cons_prefix_cons] at h
        exact (wordChar_spec (hn a (by simp))).1 h.1
      | b :: m' =>
        simp only [List.cons_append] at h
        rw [List.cons_prefix_cons] at h
        obtain ⟨rfl, h⟩ := h
        rw [ih m' (fun c hc => hn c (by simp [hc])) (fun c hc => hm c (by simp [hc]))
          (by simpa using h)]
  exact key n m hn hm h

/-- No placeholder (for any name) matches starting anywhere inside a
placeholder of a different name. -/
theorem no_ph_match_in_ph {n m : List Char} (hn : ∀ c ∈ n, wordChar c)
    (hm : ∀ c ∈ m, wordChar c) (hne : n ≠ m) {j : Nat}
    (hj : j < (phOf m).length) (R : List Char) :
    ¬ phOf n <+: List.drop j (phOf m) ++ R := by
  match j with
  | 0 => exact ph_not_prefix_of_ne hn hm hne R
  | Nat.succ j' => exact ph_not_prefix_mid hm (by omega) hj R

/-- A proper nonempty suffix of a placeholder is never a prefix of
(an extension of) a placeholder: placeholders do not overlap themselves or
each other. -/
theorem ph_suffix_no_match {n m : List Char} (hn : ∀ c ∈ n, wordChar c)
    {d : Nat} (h1 : 1 ≤ d) (h2 : d < (phOf n).length) (Y : List Char) :
    ¬ List.drop d (phOf n) <+: phOf m ++ Y := by
  rcases drop_ph hn d h1 h2 with ⟨s', hs⟩ | ⟨c, s', hs, hc⟩
  · rw [hs]
    intro h
    rw [phOf, List.cons_append, List.cons_prefix_cons] at h
    obtain ⟨-, h⟩ := h
    rw [List.cons_append, List.cons_prefix_cons] at h
    exact absurd h.1.symm (by decide)
  · rw [hs]
    intro h
    rw [phOf, List.cons_append, List.cons_prefix_cons] at h
    exact hc h.1

/-! ## Occurrence toolkit -/

theorem noOcc_head {p : List Char} {c : Char} {s : List Char}
    (h : NoOcc p (c :: s)) : ¬ p <+: c :: s := by
  have := h 0
  simpa using this

theorem noOcc_cons {p : List Char} {c : Char} {s : List Char}
    (h : NoOcc p (c :: s)) : NoOcc p s := by
  intro k
  have := h (k + 1)
  simpa using this

theorem noOcc_nil {p : List Char} (hne : p ≠ []) : NoOcc p [] := by
  intro k h
  rw [List.drop_nil] at h
  exact hne (List.prefix_nil.mp h)

theorem noOcc_cons_intro {p : List Char} {c : Char} {s : List Char}
    (h0 : ¬ p <+: c :: s) (h1 : NoOcc p s) : NoOcc p (c :: s) := by
  intro k
  match k with
  | 0 => simpa using h0
  | Nat.succ k' => simpa using h1 k'

theorem occ_sub {p s : List Char} {k : Nat} (h : p <+: List.drop k s) :
    p <:+: s := by
  obtain ⟨r, hr⟩ := h
  exact ⟨List.take k s, r,
    by rw [List.append_assoc, hr]; exact List.take_append_drop k s⟩

theorem infix_occ {p s : List Char} (h : p <:+: s) :
    ∃ k, p <+: List.drop k s := by
  obtain ⟨a, b, hab⟩ := h
  refine ⟨a.length, ?_⟩
  rw [← hab, List.append_assoc, List.drop_left]
  exact List.prefix_append p b

/-- Occurrences restrict along infixes. -/
theorem noOcc_of_infix {p t s : List Char} (h : NoOcc p s) (ht : t <:+: s) :
    NoOcc p t := by
  intro k hk
  obtain ⟨k', hk'⟩ := infix_occ ((occ_sub hk).trans ht)
  exact h k' hk'

/-- Text that never matches passes through `repl` unchanged. -/
theorem repl_noOcc {p v s : List Char} (h : NoOcc p s) : repl p v s = s := by
  induction s with
  | nil => exact repl_nil
  | cons c s' ih =>
    rw [repl_cons_neg (noOcc_head h), ih (noOcc_cons h)]

/-- Pass-through: if no match starts inside `X` (even looking into the
continuation `Y`), replacement distributes over the concatenation. -/
theorem repl_pass {p v : List Char} : ∀ {X Y : List Char},
    (∀ j, j < X.length → ¬ p <+: List.drop j X ++ Y) →
    repl p v (X ++ Y) = X ++ repl p v Y := by
  intro X
  induction X with
  | nil => intro Y _; simp
  | cons c X' ih =>
    intro Y h
    rw [List.cons_append, repl_cons_neg (by simpa using h 0 (by simp))]
    rw [ih fun j hj => by simpa using h (j + 1) (by simp; omega)]
    rfl

/-- First-occurrence decomposition of a replacement run. -/
theorem repl_decomp (p v : List Char) (hne : p ≠ []) : ∀ (s : List Char),
    (NoOcc p s ∧ repl p v s = s) ∨
    ∃ pre suf, s = pre ++ p ++ suf ∧
      (∀ j, j < pre.length → ¬ p <+: List.drop j s) ∧
      repl p v s = pre ++ v ++ repl p v suf := by
  intro s
  induction s with
  | nil => exact Or.inl ⟨noOcc_nil hne, repl_nil⟩
  | cons c s' ih =>
    by_cases hp : p <+: c :: s'
    · obtain ⟨suf, hsuf⟩ := hp
      refine Or.inr ⟨[], suf, by simp [← hsuf], by simp, ?_⟩
      rw [← hsuf, repl_match hne]
      simp
    · rcases ih with ⟨hno, heq⟩ | ⟨pre, suf, hs, hj, heq⟩
      · exact Or.inl ⟨noOcc_cons_intro hp hno, by rw [repl_cons_neg hp, heq]⟩
      · refine Or.inr ⟨c :: pre, suf, by simp [hs], ?_, ?_⟩
        · intro j hj'
          match j with
          | 0 => simpa using hp
          | Nat.succ j' =>
            simp only [List.drop_succ_cons]
            exact hj j' (by simpa using hj')
        · rw [repl_cons_neg hp, heq]
          simp

theorem drop_append_ge {X Y : List Char} {k : Nat} (h : X.length ≤ k) :
    List.drop k (X ++ Y) = List.drop (k - X.length) Y := by
  have h1 : List.drop (k - X.length) (List.drop X.length (X ++ Y)) =
      List.drop k (X ++ Y) := by
    rw [List.drop_drop]; congr 1; omega
  rw [← h1, List.drop_left]

theorem noOcc_append {p X Y : List Char}
    (hX : ∀ j, j < X.length → ¬ p <+: List.drop j X ++ Y)
    (hY : NoOcc p Y) : NoOcc p (X ++ Y) := by
  intro k hk
  by_cases hkl : k < X.length
  · rw [List.drop_append_of_le_length (le_of_lt hkl)] at hk
    exact hX k hkl hk
  · rw [drop_append_ge (by omega)] at hk
    exact hY _ hk

/-! ## String overlap -/

/-- Two strings overlap if a nonempty suffix of one is a prefix of the
other, or if one occurs inside the other (value collision). -/
def SOverlap (u w : List Char) : Prop :=
  (∃ t, t ≠ [] ∧ t <:+ u ∧ t <+: w) ∨ (∃ t, t ≠ [] ∧ t <:+ w ∧ t <+: u) ∨
  u <:+: w ∨ w <:+: u

theorem soverlap_symm {u w : List Char} (h : SOverlap u w) : SOverlap w u := by
  rcases h with h | h | h | h
  · exact Or.inr (Or.inl h)
  · exact Or.inl h
  · exact Or.inr (Or.inr (Or.inr h))
  · exact Or.inr (Or.inr (Or.inl h))

instance instDecSOverlap (u w : List Char) : Decidable (SOverlap u w) := by
  have d1 : ∀ (a b : List Char), Decidable (∃ t, t ≠ [] ∧ t <:+ a ∧ t <+: b) :=
    fun a b =>
    decidable_of_iff (∃ t ∈ a.tails, t ≠ [] ∧ t <+: b) (by
      constructor
      · rintro ⟨t, ht, h1, h2⟩
        exact ⟨t, h1, (List.mem_tails _ _).mp ht, h2⟩
      · rintro ⟨t, h1, h2, h3⟩
        exact ⟨t, (List.mem_tails _ _).mpr h2, h1, h3⟩)
  unfold SOverlap
  have i1 := d1 u w
  have i2 := d1 w u
  infer_instance

/-- For non-overlapping values, no match of `w` can start inside (an
occurrence of) `v`, whatever follows. -/
theorem no_cross_value {v w : List Char} (hno : ¬ SOverlap v w)
    {j : Nat} (hj : j < v.length) (R : List Char) :
    ¬ w <+: List.drop j v ++ R := by
  intro hw
  by_cases hl : w.length ≤ (List.drop j v).length
  · have h1 : w <+: List.drop j v := prefix_of_short hw hl
    exact hno (Or.inr (Or.inr (Or.inr
      (h1.isInfix.trans (List.drop_suffix j v).isInfix))))
  · have h1 := (prefix_append_split hw (by omega)).1
    refine hno (Or.inl ⟨List.drop j v, ?_, List.drop_suffix j v, h1⟩)
    intro hnil
    have := congrArg List.length hnil
    simp only [List.length_drop, List.length_nil] at this
    omega

/-- The right brace occurs in every nonempty suffix of a placeholder. -/
theorem rbrace_mem_drop_ph {n : List Char} {j : Nat} (hj : j < (phOf n).length) :
    '}' ∈ List.drop j (phOf n) := by
  have hsplit : phOf n = ('{' :: '{' :: ' ' :: (n ++ [' ', '}'])) ++ ['}'] := by
    simp [phOf]
  rw [hsplit, List.drop_append_of_le_length (by
    rw [hsplit, List.length_append] at hj
    simpa using Nat.lt_succ_iff.mp (by simpa using hj))]
  simp

/-- A nonempty brace-free string that is not an infix of a placeholder
cannot match starting inside that placeholder. -/
theorem bracefree_no_match_in_ph {w n : List Char} (hbw : BraceFree w)
    (hinf : ¬ w <:+: phOf n) {j : Nat} (hj : j < (phOf n).length)
    (R : List Char) : ¬ w <+: List.drop j (phOf n) ++ R := by
  intro h
  by_cases hl : w.length ≤ (List.drop j (phOf n)).length
  · exact hinf ((prefix_of_short h hl).isInfix.trans
      (List.drop_suffix j (phOf n)).isInfix)
  · have h1 := (prefix_append_split h (by omega)).1
    have hmem : '}' ∈ w := h1.subset (rbrace_mem_drop_ph hj)
    exact (hbw '}' hmem).2 rfl

/-- No placeholder match can begin strictly inside a stretch of text known
to contain no full placeholder occurrence, when that stretch is followed by
a placeholder. -/
theorem ph_pass_condition {n m : List Char} (hn : ∀ c ∈ n, wordChar c)
    {pre : List Char} (hno : NoOcc (phOf n) pre) (R : List Char) :
    ∀ j, j < pre.length → ¬ phOf n <+: List.drop j pre ++ (phOf m ++ R) := by
  intro j hj h
  by_cases hl : (phOf n).length ≤ (List.drop j pre).length
  · exact hno j (prefix_of_short h hl)
  · obtain ⟨-, h2⟩ := prefix_append_split h (by omega)
    have hlen : (List.drop j pre).length = pre.length - j := by simp
    refine ph_suffix_no_match hn (d := (List.drop j pre).length) ?_ ?_ R h2
    · rw [hlen]; omega
    · omega

/-- K1: single-parameter round trip on one string.  Replacing a nonempty
value by its placeholder and then the placeholder by the value restores a
string that contained no occurrence of the placeholder. -/
theorem repl_roundtrip_single {n v : List Char} (hn : Wordy n) (hv : v ≠ []) :
    ∀ s, NoOcc (phOf n) s →
      repl (phOf n) v (repl v (phOf n) s) = s := by
  suffices main : ∀ N s, s.length ≤ N → NoOcc (phOf n) s →
      repl (phOf n) v (repl v (phOf n) s) = s by
    intro s hno
    exact main s.length s le_rfl hno
  intro N
  induction N with
  | zero =>
    intro s hlen hno
    have : s = [] := List.eq_nil_of_length_eq_zero (by omega)
    subst this
    simp [repl_nil]
  | succ N ih =>
    intro s hlen hno
    rcases repl_decomp v (phOf n) hv s with ⟨-, heq⟩ | ⟨pre, suf, hs, -, heq⟩
    · rw [heq]
      exact repl_noOcc hno
    · rw [heq, List.append_assoc]
      have hnopre : NoOcc (phOf n) pre := by
        refine noOcc_of_infix hno ?_
        rw [hs, List.append_assoc]
        exact (List.prefix_append pre (v ++ suf)).isInfix
      rw [repl_pass (ph_pass_condition hn.2 hnopre _)]
      rw [repl_match ph_ne_nil]
      have hnosuf : NoOcc (phOf n) suf := by
        refine noOcc_of_infix hno ?_
        rw [hs]
        exact ⟨pre ++ v, [], by simp⟩
      have hsuflen : suf.length ≤ N := by
        have := congrArg List.length hs
        simp only [List.length_append] at this
        have hvpos : 0 < v.length := List.length_pos.mpr hv
        omega
      rw [ih suf hsuflen hnosuf, hs, List.append_assoc]

/-- K2: occurrences of a placeholder are not created by templating a value
for a parameter with a different name. -/
theorem noOcc_preserved {n m w : List Char} (hn : ∀ c ∈ n, wordChar c)
    (hm : ∀ c ∈ m, wordChar c) (hne : n ≠ m) (hw : w ≠ []) :
    ∀ s, NoOcc (phOf n) s → NoOcc (phOf n) (repl w (phOf m) s) := by
  suffices main : ∀ N s, s.length ≤ N → NoOcc (phOf n) s →
      NoOcc (phOf n) (repl w (phOf m) s) by
    intro s hno
    exact main s.length s le_rfl hno
  intro N
  induction N with
  | zero =>
    intro s hlen hno
    have : s = [] := List.eq_nil_of_length_eq_zero (by omega)
    subst this
    rw [repl_nil]
    exact noOcc_nil ph_ne_nil
  | succ N ih =>
    intro s hlen hno
    rcases repl_decomp w (phOf m) hw s with ⟨-, heq⟩ | ⟨pre, suf, hs, -, heq⟩
    · rw [heq]; exact hno
    · rw [heq, List.append_assoc]
      have hnopre : NoOcc (phOf n) pre := by
        refine noOcc_of_infix hno ?_
        rw [hs, List.append_assoc]
        exact (List.prefix_append pre (w ++ suf)).isInfix
      have hnosuf : NoOcc (phOf n) suf := by
        refine noOcc_of_infix hno ?_
        rw [hs]
        exact ⟨pre ++ w, [], by simp⟩
      have hsuflen : suf.length ≤ N := by
        have := congrArg List.length hs
        simp only [List.length_append] at this
        have hwpos : 0 < w.length := List.length_pos.mpr hw
        omega
      refine noOcc_append (ph_pass_condition hn hnopre _) ?_
      refine noOcc_append (fun j hj => no_ph_match_in_ph hn hm hne hj _) ?_
      exact ih suf hsuflen hnosuf

/-- A brace-free string that is not a prefix of `s` is not a prefix of the
result of templating `s` (placeholder insertions start with a brace). -/
theorem no_prefix_repl {w v n : List Char} (hbw : BraceFree w)
    (hv : v ≠ []) {s : List Char} (hns : ¬ w <+: s) :
    ¬ w <+: repl v (phOf n) s := by
  rcases repl_decomp v (phOf n) hv s with ⟨-, heq⟩ | ⟨pre, suf, hs, -, heq⟩
  · rw [heq]; exact hns
  · rw [heq, List.append_assoc]
    intro h
    by_cases hl : w.length ≤ pre.length
    · apply hns
      refine (prefix_of_short h hl).trans ?_
      rw [hs, List.append_assoc]
      exact List.prefix_append _ _
    · obtain ⟨-, h2⟩ := prefix_append_split h (by omega)
      have hne2 : List.drop pre.length w ≠ [] := by
        intro hnil
        have := congrArg List.length hnil
        simp at this
        omega
      obtain ⟨c, rest, hcr⟩ := List.exists_cons_of_ne_nil hne2
      rw [hcr, phOf, List.cons_append, List.cons_prefix_cons] at h2
      have hcmem : c ∈ w := by
        have : c ∈ List.drop pre.length w := by rw [hcr]; simp
        exact List.drop_subset _ _ this
      exact (hbw c hcmem).1 h2.1

/-- K3: templating steps for two distinct, non-colliding parameters
commute. -/
theorem repl_comm {n m v w : List Char} (hn : Wordy n) (hm : Wordy m)
    (hnm : n ≠ m) (hv : v ≠ []) (hw : w ≠ [])
    (hbv : BraceFree v) (hbw : BraceFree w) (hvw : ¬ SOverlap v w)
    (hvm : ¬ v <:+: phOf m) (hwn : ¬ w <:+: phOf n) :
    ∀ s, repl w (phOf m) (repl v (phOf n) s) =
      repl v (phOf n) (repl w (phOf m) s) := by
  suffices main : ∀ N s, s.length ≤ N →
      repl w (phOf m) (repl v (phOf n) s) =
      repl v (phOf n) (repl w (phOf m) s) by
    intro s
    exact main s.length s le_rfl
  intro N
  induction N with
  | zero =>
    intro s hlen
    have : s = [] := List.eq_nil_of_length_eq_zero (by omega)
    subst this
    simp [repl_nil]
  | succ N ih =>
    intro s hlen
    by_cases hv1 : v <+: s
    · -- a `v` match at the head; `w` cannot match at the head
      obtain ⟨t, ht⟩ := hv1
      subst ht
      rw [repl_match hv]
      rw [repl_pass (X := phOf n) (fun j hj =>
        bracefree_no_match_in_ph hbw hwn hj _)]
      rw [repl_pass (X := v) (fun j hj => no_cross_value hvw hj _)]
      rw [repl_match hv]
      have htlen : t.length ≤ N := by
        have hvpos : 0 < v.length := List.length_pos.mpr hv
        rw [List.length_append] at hlen
        omega
      rw [ih t htlen]
    · by_cases hw1 : w <+: s
      · obtain ⟨t, ht⟩ := hw1
        subst ht
        rw [repl_pass (X := w) (fun j hj =>
          no_cross_value (fun h => hvw (soverlap_symm h)) hj _)]
        rw [repl_match hw]
        rw [repl_match hw]
        rw [repl_pass (X := phOf m) (fun j hj =>
          bracefree_no_match_in_ph hbv hvm hj _)]
        have htlen : t.length ≤ N := by
          have hwpos : 0 < w.length := List.length_pos.mpr hw
          rw [List.length_append] at hlen
          omega
        rw [ih t htlen]
      · match s with
        | [] => simp [repl_nil]
        | c :: s' =>
          rw [repl_cons_neg hv1, repl_cons_neg hw1]
          have hwr : ¬ w <+: c :: repl v (phOf n) s' := by
            have := no_prefix_repl (n := n) hbw hv hw1
            rwa [repl_cons_neg hv1] at this
          have hvr : ¬ v <+: c :: repl w (phOf m) s' := by
            have := no_prefix_repl (n := m) hbv hw hv1
            rwa [repl_cons_neg hw1] at this
          rw [repl_cons_neg hwr, repl_cons_neg hvr]
          have hslen : s'.length ≤ N := by
            rw [List.length_cons] at hlen
            omega
          rw [ih s' hslen]

/-! ## Parameter lists and the two templating phases on strings

A parameter is a `(name, exampleValue)` pair; `phase1` is the builder's
sequential value→placeholder substitution
(`build_workflow_from_run`'s loop over `parameters`), `phase2` is the
instantiator's sequential placeholder→value substitution
(`apply_parameters_to_workflow`'s loop over `parameter_values`). -/

def phase1 (ps : List (List Char × List Char)) (s : List Char) : List Char :=
  ps.foldl (fun s p => repl p.2 (phOf p.1) s) s

def phase2 (ps : List (List Char × List Char)) (s : List Char) : List Char :=
  ps.foldl (fun s p => repl (phOf p.1) p.2 s) s

/-- The conditions under which the round trip holds: well-formed names,
nonempty brace-free values, distinct names, values not hiding inside other
parameters' placeholder syntax, and pairwise non-overlapping values. -/
def GoodParams (ps : List (List Char × List Char)) : Prop :=
  (∀ p ∈ ps, Wordy p.1) ∧
  (∀ p ∈ ps, p.2 ≠ []) ∧
  (∀ p ∈ ps, BraceFree p.2) ∧
  List.Pairwise (fun p q => p.1 ≠ q.1) ps ∧
  (∀ p ∈ ps, ∀ q ∈ ps, p.1 ≠ q.1 → ¬ p.2 <:+: phOf q.1) ∧
  List.Pairwise (fun p q => ¬ SOverlap p.2 q.2) ps

instance : DecidablePred GoodParams := fun ps => by
  unfold GoodParams
  infer_instance

theorem goodParams_tail {p : List Char × List Char}
    {ps : List (List Char × List Char)} (h : GoodParams (p :: ps)) :
    GoodParams ps := by
  obtain ⟨h1, h2, h3, h4, h5, h6⟩ := h
  exact ⟨fun q hq => h1 q (by simp [hq]), fun q hq => h2 q (by simp [hq]),
    fun q hq => h3 q (by simp [hq]), (List.pairwise_cons.mp h4).2,
    fun q hq r hr => h5 q (by simp [hq]) r (by simp [hr]),
    (List.pairwise_cons.mp h6).2⟩

/-- Undoing the head parameter's substitution after the remaining
parameters have been templated recovers templating by the remaining
parameters alone. -/
theorem cancel_through {n v : List Char} (hn : Wordy n) (hv : v ≠ [])
    (hbv : BraceFree v) :
    ∀ (ps : List (List Char × List Char)),
      (∀ p ∈ ps, Wordy p.1) → (∀ p ∈ ps, p.2 ≠ []) →
      (∀ p ∈ ps, BraceFree p.2) → (∀ p ∈ ps, n ≠ p.1) →
      (∀ p ∈ ps, ¬ v <:+: phOf p.1) → (∀ p ∈ ps, ¬ p.2 <:+: phOf n) →
      (∀ p ∈ ps, ¬ SOverlap v p.2) →
      ∀ s, NoOcc (phOf n) s →
        repl (phOf n) v (phase1 ps (repl v (phOf n) s)) = phase1 ps s := by
  intro ps
  induction ps with
  | nil =>
    intro _ _ _ _ _ _ _ s hno
    exact repl_roundtrip_single hn hv s hno
  | cons q ps' ih =>
    intro h1 h2 h3 h4 h5 h6 h7 s hno
    have hq1 : Wordy q.1 := h1 q (by simp)
    have hq2 : q.2 ≠ [] := h2 q (by simp)
    have hq3 : BraceFree q.2 := h3 q (by simp)
    have hq4 : n ≠ q.1 := h4 q (by simp)
    have hcomm := repl_comm hn hq1 hq4 hv hq2 hbv hq3
      (h7 q (by simp)) (h5 q (by simp)) (h6 q (by simp)) s
    show repl (phOf n) v (phase1 ps' (repl q.2 (phOf q.1) (repl v (phOf n) s)))
      = phase1 ps' (repl q.2 (phOf q.1) s)
    rw [hcomm]
    exact ih (fun p hp => h1 p (by simp [hp])) (fun p hp => h2 p (by simp [hp]))
      (fun p hp => h3 p (by simp [hp])) (fun p hp => h4 p (by simp [hp]))
      (fun p hp => h5 p (by simp [hp])) (fun p hp => h6 p (by simp [hp]))
      (fun p hp => h7 p (by simp [hp]))
      (repl q.2 (phOf q.1) s)
      (noOcc_preserved hn.2 hq1.2 hq4 hq2 s hno)

/-- Round trip at the string level: sequentially templating all parameter
values and then sequentially substituting all placeholders back restores
the original string, provided the parameters are collision-free and the
string contains no pre-existing placeholder occurrence of a declared
name. -/
theorem phase_roundtrip {ps : List (List Char × List Char)}
    (good : GoodParams ps) :
    ∀ s, (∀ p ∈ ps, NoOcc (phOf p.1) s) → phase2 ps (phase1 ps s) = s := by
  induction ps with
  | nil => intro s _; rfl
  | cons q ps' ih =>
    intro s hno
    obtain ⟨h1, h2, h3, h4, h5, h6⟩ := good
    have hq1 : Wordy q.1 := h1 q (by simp)
    have hq2 : q.2 ≠ [] := h2 q (by simp)
    have hq3 : BraceFree q.2 := h3 q (by simp)
    show phase2 ps' (repl (phOf q.1) q.2 (phase1 ps' (repl q.2 (phOf q.1) s))) = s
    rw [cancel_through hq1 hq2 hq3 ps'
      (fun p hp => h1 p (by simp [hp])) (fun p hp => h2 p (by simp [hp]))
      (fun p hp => h3 p (by simp [hp]))
      (fun p hp => (List.pairwise_cons.mp h4).1 p hp)
      (fun p hp => h5 q (by simp) p (by simp [hp])
        ((List.pairwise_cons.mp h4).1 p hp))
      (fun p hp => h5 p (by simp [hp]) q (by simp)
        (fun hne => (List.pairwise_cons.mp h4).1 p hp hne.symm))
      (fun p hp => (List.pairwise_cons.mp h6).1 p hp)
      s (hno q (by simp))]
    exact ih (goodParams_tail ⟨h1, h2, h3, h4, h5, h6⟩) s
      (fun p hp => hno p (by simp [hp]))

/-! ## JSON-like values

Python dictionaries/lists as found in the workflow documents.  Dictionaries
are association lists; Python guarantees key uniqueness, captured by the
`nodup` predicates below.  Numbers are modeled as integers. -/

mutual
inductive JVal where
  | str (s : String)
  | num (n : Int)
  | bool (b : Bool)
  | null
  | arr (a : JArr)
  | obj (o : JObj)
  deriving DecidableEq

inductive JArr where
  | nil
  | cons (hd : JVal) (tl : JArr)
  deriving DecidableEq

inductive JObj where
  | nil
  | cons (k : String) (v : JVal) (tl : JObj)
  deriving DecidableEq
end

/-- `d.get(key)` (`None` when absent). -/
def JObj.find : JObj → String → Option JVal
  | .nil, _ => none
  | .cons k v t, key => if k = key then some v else JObj.find t key

/-- `d.pop(key, None)`: remove the entry for `key` (keys are unique). -/
def JObj.erase : JObj → String → JObj
  | .nil, _ => .nil
  | .cons k v t, key => if k = key then t else .cons k v (JObj.erase t key)

/-- `d[key] = v`: replace in place when present (dicts keep the original
insertion position), append otherwise. -/
def JObj.set : JObj → String → JVal → JObj
  | .nil, key, v => .cons key v .nil
  | .cons k v0 t, key, v =>
    if k = key then .cons k v t else .cons k v0 (JObj.set t key v)

def JObj.hasKey : JObj → String → Bool
  | .nil, _ => false
  | .cons k _ t, key => k = key || JObj.hasKey t key

def mapJArr (f : JVal → JVal) : JArr → JArr
  | .nil => .nil
  | .cons h t => .cons (f h) (mapJArr f t)

def listToJArr : List JVal → JArr
  | [] => .nil
  | v :: t => .cons v (listToJArr t)

def jarrToList : JArr → List JVal
  | .nil => []
  | .cons v t => v :: jarrToList t

/-- Python truthiness of a JSON-like value (`if step.get("actions"):`,
`if action.get("params"):` …). -/
def truthy : JVal → Bool
  | .str s => !(s = "")
  | .num n => !(n = 0)
  | .bool b => b
  | .null => false
  | .arr .nil => false
  | .arr _ => true
  | .obj .nil => false
  | .obj _ => true

/-! ## Builder service (`workflow_builder_service.py`) -/

/-- `ParameterDefinition` (name/description/type/exampleValue). -/
structure ParameterDefinition where
  name : String
  description : String
  type : String
  example_value : String
  deriving DecidableEq

def ParameterDefinition.to_dict (p : ParameterDefinition) : JVal :=
  .obj (.cons "name" (.str p.name)
    (.cons "description" (.str p.description)
      (.cons "type" (.str p.type)
        (.cons "exampleValue" (.str p.example_value) .nil))))

/-- `WorkflowTemplate`. -/
structure WorkflowTemplate where
  parameters : List ParameterDefinition
  templated_steps : JArr
  deriving DecidableEq

def WorkflowTemplate.to_dict (w : WorkflowTemplate) : JVal :=
  .obj (.cons "parameters" (.arr (listToJArr
      (w.parameters.map ParameterDefinition.to_dict)))
    (.cons "steps" (.arr w.templated_steps) .nil))

/-- `_safe_replace(text, old_value, new_value)`:
`re.sub(re.escape(old_value), new_value, text)` guarded on an empty
pattern. -/
def safe_replace (text old_value new_value : String) : String :=
  if old_value = "" then text
  else ⟨repl old_value.data new_value.data text.data⟩

mutual
/-- `_replace_in_dict(obj, old_value, new_value)`: recursive traversal of
mappings and sequences replacing strings that are *equal* to
`old_value`. -/
def replace_in_dict (obj : JVal) (old_value new_value : String) : JVal :=
  match obj with
  | .obj o => .obj (replace_in_dict_obj o old_value new_value)
  | .arr a => .arr (replace_in_dict_arr a old_value new_value)
  | .str s => if s = old_value then .str new_value else .str s
  | x => x

def replace_in_dict_arr (a : JArr) (old_value new_value : String) : JArr :=
  match a with
  | .nil => .nil
  | .cons h t =>
    .cons (replace_in_dict h old_value new_value)
      (replace_in_dict_arr t old_value new_value)

def replace_in_dict_obj (o : JObj) (old_value new_value : String) : JObj :=
  match o with
  | .nil => .nil
  | .cons k v t =>
    .cons k (replace_in_dict v old_value new_value)
      (replace_in_dict_obj t old_value new_value)
end

/-- Cleanup of a single recorded action: `action.pop("id", None)`,
`action.pop("task_run_id", None)`.  (Recorded actions are dictionaries.) -/
def clean_action (a : JVal) : JVal :=
  match a with
  | .obj o => .obj ((o.erase "id").erase "task_run_id")
  | x => x

/-- Cleanup of a single recorded step: `step.pop("task_run_id", None)`,
`step.pop("screenshot", None)`, then per-action cleanup under the
`if step.get("actions"):` guard.  (Recorded steps are dictionaries and
their `actions` field, when present, is a list.) -/
def clean_step (s : JVal) : JVal :=
  match s with
  | .obj o =>
    let o1 := (o.erase "task_run_id").erase "screenshot"
    match o1.find "actions" with
    | some (.arr a) => .obj (o1.set "actions" (.arr (mapJArr clean_action a)))
    | _ => .obj o1
  | x => x

/-- Substring templating of one optional string field, with the source's
`if d.get(key) and value_to_replace:` truthiness guard.  (A present
non-string field would make `re.sub` raise in Python; the theorems assume
string-shaped fields.) -/
def upd_str_field (o : JObj) (key : String) (value_to_replace template_var : String) :
    JObj :=
  match o.find key with
  | some (.str s) =>
    if s ≠ "" ∧ value_to_replace ≠ "" then
      o.set key (.str (safe_replace s value_to_replace template_var))
    else o
  | _ => o

/-- Templating of the `params` mapping of one action, guarded by
`if action.get("params"):`. -/
def upd_params_field (o : JObj) (value_to_replace template_var : String) : JObj :=
  match o.find "params" with
  | some p =>
    if truthy p then
      o.set "params" (replace_in_dict p value_to_replace template_var)
    else o
  | none => o

/-- One parameter's templating pass over one action: `name`, then
`params`, then `extracted_content`. -/
def template_action (value_to_replace template_var : String) (a : JVal) : JVal :=
  match a with
  | .obj o =>
    .obj (upd_str_field
      (upd_params_field (upd_str_field o "name" value_to_replace template_var)
        value_to_replace template_var)
      "extracted_content" value_to_replace template_var)
  | x => x

/-- One parameter's templating pass over one step: `description`, then the
actions under the `if step.get("actions"):` guard. -/
def template_step (value_to_replace template_var : String) (s : JVal) : JVal :=
  match s with
  | .obj o =>
    let o1 := upd_str_field o "description" value_to_replace template_var
    match o1.find "actions" with
    | some (.arr a) =>
      .obj (o1.set "actions"
        (.arr (mapJArr (template_action value_to_replace template_var) a)))
    | _ => .obj o1
  | x => x

/-- The template variable `f"{{{{ {param.name} }}}}"`. -/
def template_var_of (name : String) : String :=
  "\x7b\x7b " ++ name ++ " \x7d\x7d"

/-- Steps 2–3 of `build_workflow_from_run`: deep-clone (identity on pure
values), strip runtime fields, then apply each parameter's templating pass
in list order.  The parameter list itself comes from the LLM extraction
(step 1), an external oracle, so it is an argument here. -/
def build_templated_steps (parameters : List ParameterDefinition)
    (steps : JArr) : JArr :=
  parameters.foldl
    (fun acc param =>
      mapJArr (template_step param.example_value (template_var_of param.name)) acc)
    (mapJArr clean_step steps)

/-- `build_workflow_from_run` minus the LLM round trip: package the
extracted parameters with the templated steps. -/
def build_workflow_from_run (parameters : List ParameterDefinition)
    (steps : JArr) : WorkflowTemplate :=
  ⟨parameters, build_templated_steps parameters steps⟩

/-! ## JSON serialization (`json.dumps` with default settings)

Default separators are `", "` and `": "`; `ensure_ascii=True` escapes
`"`, `\`, control characters and non-ASCII characters inside string
literals. -/

/-- Fuel-indexed digit emitter (structural so concrete values evaluate in
the kernel; `natChars` always supplies enough fuel). -/
def natCharsGo : Nat → Nat → List Char
  | 0, _ => []
  | Nat.succ f, n =>
    if n < 10 then [Char.ofNat (48 + n)]
    else natCharsGo f (n / 10) ++ [Char.ofNat (48 + n % 10)]

def natChars (n : Nat) : List Char := natCharsGo (n + 1) n

theorem natCharsGo_fuel : ∀ (f : Nat), ∀ {n : Nat} (f' : Nat), n < f →
    n < f' → natCharsGo f n = natCharsGo f' n := by
  intro f
  induction f with
  | zero => intro n f' h1; omega
  | succ f ih =>
    intro n f' h1 h2
    match f' with
    | 0 => omega
    | Nat.succ f'' =>
      show (if n < 10 then _ else _) = (if n < 10 then _ else _)
      by_cases hn : n < 10
      · rw [if_pos hn, if_pos hn]
      · rw [if_neg hn, if_neg hn]
        rw [ih f'' (by omega) (by omega)]

theorem natChars_eq (n : Nat) :
    natChars n =
      if n < 10 then [Char.ofNat (48 + n)]
      else natChars (n / 10) ++ [Char.ofNat (48 + n % 10)] := by
  show (if n < 10 then _ else _) = _
  by_cases hn : n < 10
  · rw [if_pos hn, if_pos hn]
  · rw [if_neg hn, if_neg hn]
    unfold natChars
    rw [natCharsGo_fuel n (n / 10 + 1) (by omega) (by omega)]

/-- `str(int)` / the JSON integer literal. -/
def intChars : Int → List Char
  | .ofNat n => natChars n
  | .negSucc n => '-' :: natChars (n + 1)

def hexDigit (n : Nat) : Char :=
  if n < 10 then Char.ofNat (48 + n) else Char.ofNat (87 + n)

def uEsc (n : Nat) : List Char :=
  ['\\', 'u', hexDigit (n / 4096 % 16), hexDigit (n / 256 % 16),
   hexDigit (n / 16 % 16), hexDigit (n % 16)]

/-- Escape of one character inside a JSON string literal
(`ensure_ascii=True`; astral characters become surrogate pairs). -/
def escChar (c : Char) : List Char :=
  if c = '"' then ['\\', '"']
  else if c = '\\' then ['\\', '\\']
  else if c = '\n' then ['\\', 'n']
  else if c = '\t' then ['\\', 't']
  else if c = '\r' then ['\\', 'r']
  else if c.toNat = 8 then ['\\', 'b']
  else if c.toNat = 12 then ['\\', 'f']
  else if c.toNat < 0x20 ∨ c.toNat > 0x7e then
    if c.toNat ≤ 0xffff then uEsc c.toNat
    else uEsc (0xd800 + (c.toNat - 0x10000) / 1024) ++
      uEsc (0xdc00 + (c.toNat - 0x10000) % 1024)
  else [c]

def escapeStr : List Char → List Char
  | [] => []
  | c :: t => escChar c ++ escapeStr t

mutual
/-- `json.dumps` of a value. -/
def jser : JVal → List Char
  | .str s => '"' :: (escapeStr s.data ++ ['"'])
  | .num i => intChars i
  | .bool true => ['t', 'r', 'u', 'e']
  | .bool false => ['f', 'a', 'l', 's', 'e']
  | .null => ['n', 'u', 'l', 'l']
  | .arr a => '[' :: (jserArr a ++ [']'])
  | .obj o => '{' :: (jserObj o ++ ['}'])

/-- Comma-separated serialization of array elements. -/
def jserArr : JArr → List Char
  | .nil => []
  | .cons v .nil => jser v
  | .cons v (.cons w t) => jser v ++ ',' :: ' ' :: jserArr (.cons w t)

/-- Comma-separated serialization of object entries. -/
def jserObj : JObj → List Char
  | .nil => []
  | .cons k v .nil => '"' :: (escapeStr k.data ++ ['"', ':', ' ']) ++ jser v
  | .cons k v (.cons k2 v2 t) =>
    ('"' :: (escapeStr k.data ++ ['"', ':', ' ']) ++ jser v) ++
      ',' :: ' ' :: jserObj (.cons k2 v2 t)
end

/-! ## JSON parsing (`json.loads`)

A recursive-descent parser with explicit fuel.  Modeling notes: numeric
literals are parsed as integers (the workflow model has no floats);
surrogate-pair recombination for `\u` escapes is not modeled (the
serialized texts in all theorems are printable ASCII). -/

def isWs (c : Char) : Bool := c = ' ' || c = '\t' || c = '\n' || c = '\r'

def skipWs : List Char → List Char
  | [] => []
  | c :: t => if isWs c then skipWs t else c :: t

def hexVal (c : Char) : Nat :=
  if c.isDigit then c.toNat - 48
  else if 97 ≤ c.toNat then c.toNat - 87
  else c.toNat - 55

def isHexDig (c : Char) : Bool :=
  c.isDigit || ('a' ≤ c && c ≤ 'f') || ('A' ≤ c && c ≤ 'F')

/-- Fuel-indexed string-body scanner (structural; `pStrBody` supplies
enough fuel). -/
def pStrBodyGo : Nat → List Char → Option (List Char × List Char)
  | 0, _ => none
  | Nat.succ f, s =>
    match s with
    | [] => none
    | c :: t =>
      if c = '"' then some ([], t)
      else if c = '\\' then
        match t with
        | [] => none
        | e :: t2 =>
          if e = 'u' then
            match t2 with
            | h1 :: h2 :: h3 :: h4 :: t3 =>
              if isHexDig h1 ∧ isHexDig h2 ∧ isHexDig h3 ∧ isHexDig h4 then
                match pStrBodyGo f t3 with
                | some (s, r) =>
                  some (Char.ofNat
                    (hexVal h1 * 4096 + hexVal h2 * 256 + hexVal h3 * 16 +
                      hexVal h4) :: s, r)
                | none => none
              else none
            | _ => none
          else
            match
              (if e = '"' then some '"'
               else if e = '\\' then some '\\'
               else if e = '/' then some '/'
               else if e = 'n' then some '\n'
               else if e = 't' then some '\t'
               else if e = 'r' then some '\r'
               else if e = 'b' then some (Char.ofNat 8)
               else if e = 'f' then some (Char.ofNat 12)
               else none) with
            | some x =>
              match pStrBodyGo f t2 with
              | some (s, r) => some (x :: s, r)
              | none => none
            | none => none
      else if c.toNat < 0x20 then none
      else
        match pStrBodyGo f t with
        | some (s, r) => some (c :: s, r)
        | none => none

/-- Parse the body of a string literal after the opening quote (returns the
decoded characters and the input after the closing quote); rejects raw
control characters and malformed escapes, as `json.loads` does. -/
def pStrBody (s : List Char) : Option (List Char × List Char) :=
  pStrBodyGo s.length s

def digitVal (c : Char) : Nat := c.toNat - 48

/-- Consume a run of digits, accumulating the value. -/
def pDigits (acc : Nat) : List Char → Nat × List Char
  | [] => (acc, [])
  | c :: t => if c.isDigit then pDigits (acc * 10 + digitVal c) t else (acc, c :: t)

def pairsToObj (ps : List (String × JVal)) : JObj :=
  ps.foldl (fun o kv => o.set kv.1 kv.2) .nil

mutual
/-- Parse one JSON value (leading whitespace allowed), returning the value
and the remaining input. -/
def pVal : Nat → List Char → Option (JVal × List Char)
  | 0, _ => none
  | Nat.succ fuel, input =>
    match skipWs input with
    | [] => none
    | c :: t =>
      if c = '"' then
        match pStrBody t with
        | some (b, r) => some (.str ⟨b⟩, r)
        | none => none
      else if c = '[' then
        match skipWs t with
        | ']' :: r => some (.arr .nil, r)
        | t2 =>
          match pArrElems fuel t2 with
          | some (a, r) => some (.arr a, r)
          | none => none
      else if c = '{' then
        match skipWs t with
        | '}' :: r => some (.obj .nil, r)
        | t2 =>
          match pObjItems fuel t2 with
          | some (ps, r) => some (.obj (pairsToObj ps), r)
          | none => none
      else if c = 't' then
        match t with
        | 'r' :: 'u' :: 'e' :: r => some (.bool true, r)
        | _ => none
      else if c = 'f' then
        match t with
        | 'a' :: 'l' :: 's' :: 'e' :: r => some (.bool false, r)
        | _ => none
      else if c = 'n' then
        match t with
        | 'u' :: 'l' :: 'l' :: r => some (.null, r)
        | _ => none
      else if c = '-' then
        match t with
        | d :: t2 =>
          if d.isDigit then
            let m := pDigits (digitVal d) t2
            some (.num (-(m.1 : Int)), m.2)
          else none
        | [] => none
      else if c.isDigit then
        let m := pDigits (digitVal c) t
        some (.num (m.1 : Int), m.2)
      else none

/-- Parse the elements of a nonempty array after `[`. -/
def pArrElems : Nat → List Char → Option (JArr × List Char)
  | 0, _ => none
  | Nat.succ fuel, input =>
    match pVal fuel input with
    | some (v, r) =>
      match skipWs r with
      | ',' :: r2 =>
        match pArrElems fuel r2 with
        | some (a, r3) => some (.cons v a, r3)
        | none => none
      | ']' :: r2 => some (.cons v .nil, r2)
      | _ => none
    | none => none

/-- Parse the entries of a nonempty object after `{`, as an ordered pair
list (`json.loads` builds the dict from the pairs, so a duplicated key
keeps its first position with its last value). -/
def pObjItems : Nat → List Char → Option (List (String × JVal) × List Char)
  | 0, _ => none
  | Nat.succ fuel, input =>
    match skipWs input with
    | '"' :: t =>
      match pStrBody t with
      | some (k, r) =>
        match skipWs r with
        | ':' :: r2 =>
          match pVal fuel r2 with
          | some (v, r3) =>
            match skipWs r3 with
            | ',' :: r4 =>
              match pObjItems fuel r4 with
              | some (ps, r5) => some ((⟨k⟩, v) :: ps, r5)
              | none => none
            | '}' :: r4 => some ([(⟨k⟩, v)], r4)
            | _ => none
          | none => none
        | _ => none
      | none => none
    | _ => none
end

/-- `json.loads`: parse one value and require only whitespace to follow
(`Extra data` otherwise); `none` models a raised `JSONDecodeError`. -/
def jparse (s : List Char) : Option JVal :=
  match pVal (s.length + 1) s with
  | some (v, rest) => if skipWs rest = [] then some v else none
  | none => none

mutual
/-- Fuel sufficient for `pVal` on the serialization of a value. -/
def fuelV : JVal → Nat
  | .arr a => 1 + fuelA a
  | .obj o => 1 + fuelO o
  | _ => 1

def fuelA : JArr → Nat
  | .nil => 1
  | .cons v t => 1 + max (fuelV v) (fuelA t)

def fuelO : JObj → Nat
  | .nil => 1
  | .cons _ v t => 1 + max (fuelV v) (fuelO t)
end

/-- Digit-run value accumulator (the value computed by `pDigits`). -/
def natVal (acc : Nat) (A : List Char) : Nat :=
  A.foldl (fun a c => a * 10 + digitVal c) acc

/-! ## Instantiation (`workflow_replay_service.apply_parameters_to_workflow`) -/

/-- `apply_parameters_to_workflow(workflow, parameter_values)`: deep-clone
(the identity on pure values), serialize the whole workflow document,
then for each `(name, value)` in iteration order substitute the escaped
literal pattern `{{ name }}` by the value in the JSON text
(`re.sub(re.escape(template_var), param_value, workflow_json)`), and
re-parse.  `none` models the `json.loads` exception on broken output. -/
def apply_parameters_to_workflow (workflow : JVal)
    (parameter_values : List (String × String)) : Option JVal :=
  jparse (parameter_values.foldl
    (fun s pv => repl (phOf pv.1.data) pv.2.data s) (jser workflow))

mutual
/-- Map a string transformation over every string leaf and key of a
value. -/
def strMapV (f : String → String) : JVal → JVal
  | .str s => .str (f s)
  | .arr a => .arr (strMapA f a)
  | .obj o => .obj (strMapO f o)
  | x => x

def strMapA (f : String → String) : JArr → JArr
  | .nil => .nil
  | .cons v t => .cons (strMapV f v) (strMapA f t)

def strMapO (f : String → String) : JObj → JObj
  | .nil => .nil
  | .cons k v t => .cons (f k) (strMapV f v) (strMapO f t)
end

/-- String-level placeholder substitution (the per-string-field action of
the tree walk). -/
def replStr (p v : List Char) (s : String) : String := ⟨repl p v s.data⟩

/-- Modelled from the spec (§4.4): the structural tree walk alternative of
the instantiator — "performs a global substitution of every placeholder
with its resolved literal … via a structural tree walk", substituting
sequentially for each resolved parameter in every string field of the
document.  This definition follows the spec's words (the source only
contains the serialize→replace→deserialize form) and is the comparison
point for the refinement claim. -/
def apply_parameters_tree (workflow : JVal)
    (parameter_values : List (String × String)) : JVal :=
  parameter_values.foldl
    (fun w pv => strMapV (replStr (phOf pv.1.data) pv.2.data) w)
    workflow

/-! ## Shape predicates -/

mutual
/-- All strings and keys consist of plain (printable-ASCII, unescaped)
characters. -/
def plainV : JVal → Bool
  | .str s => s.data.all plainChar
  | .num _ => true
  | .bool _ => true
  | .null => true
  | .arr a => plainA a
  | .obj o => plainO o

def plainA : JArr → Bool
  | .nil => true
  | .cons v t => plainV v && plainA t

def plainO : JObj → Bool
  | .nil => true
  | .cons k v t => k.data.all plainChar && plainV v && plainO t
end

mutual
/-- Every object has pairwise-distinct keys (Python dict invariant). -/
def nodupV : JVal → Bool
  | .str _ => true
  | .num _ => true
  | .bool _ => true
  | .null => true
  | .arr a => nodupA a
  | .obj o => nodupO o

def nodupA : JArr → Bool
  | .nil => true
  | .cons v t => nodupV v && nodupA t

def nodupO : JObj → Bool
  | .nil => true
  | .cons k v t => !(JObj.hasKey t k) && nodupV v && nodupO t
end

/-! ## Parameter resolution (`workflow_replay_service.extract_parameters_from_task`) -/

def isPyWs (c : Char) : Bool :=
  c = ' ' || c = '\t' || c = '\n' || c = '\r' || c.toNat = 11 || c.toNat = 12

/-- One match of the template-variable pattern `\{\{\s*(\w+)\s*\}\}`
anchored at the start of the text (the character classes are disjoint, so
the regex is deterministic here). -/
def matchTemplateVar (s : List Char) : Bool :=
  match s with
  | '{' :: '{' :: t =>
    let t1 := t.dropWhile isPyWs
    let sp := t1.span wordChar
    if sp.1 ≠ [] then
      match sp.2.dropWhile isPyWs with
      | '}' :: '}' :: _ => true
      | _ => false
    else false
  | _ => false

/-- `re.findall(r'\{\{\s*(\w+)\s*\}\}', s) ≠ []`. -/
def hasTemplateVar : List Char → Bool
  | [] => false
  | c :: t => matchTemplateVar (c :: t) || hasTemplateVar t

/-- First index at which `pat` occurs. -/
def findSub (pat : List Char) : List Char → Option Nat
  | [] => if pat = [] then some 0 else none
  | c :: t =>
    if pat.isPrefixOf (c :: t) then some 0
    else (findSub pat t).map (· + 1)

/-- Strip surrounding whitespace (models `.strip()` and the `\s*` group
boundaries of the fence regex). -/
def trimWs (s : List Char) : List Char :=
  ((s.dropWhile isPyWs).reverse.dropWhile isPyWs).reverse

/-- Extract the first fenced block opened by `tag` and closed by three
backticks (the `re.search(r'```json\s*([\s\S]*?)\s*```')` chain, up to
whitespace trimming). -/
def extractFenced (tag : List Char) (s : List Char) : Option (List Char) :=
  match findSub tag s with
  | none => none
  | some i =>
    let after := List.drop (i + tag.length) s
    match findSub ('`' :: '`' :: '`' :: []) after with
    | none => none
    | some j => some (trimWs (List.take j after))

def objPairs : JObj → List (String × JVal)
  | .nil => []
  | .cons k v t => (k, v) :: objPairs t

/-- `[p["name"] for p in parameters]` (name fields of the declared
parameter dictionaries). -/
def paramNamesOf (parameters : JVal) : List String :=
  match parameters with
  | .arr a =>
    (jarrToList a).filterMap fun x =>
      match x with
      | .obj o =>
        match o.find "name" with
        | some (.str s) => some s
        | _ => none
      | _ => none
  | _ => []

/-- The extraction prompt built by `extract_parameters_from_task`. -/
def extraction_prompt_replay (task_prompt : String)
    (param_names : List String) : String :=
  "You are a workflow automation expert. Extract the parameter values " ++
  "from this task instruction.\n\nTask: \"" ++ task_prompt ++
  "\"\n\nTemplate variables to extract: " ++
  String.intercalate ", " param_names ++
  "\n\nAnalyze the task and provide the values for each template " ++
  "variable. Return ONLY a valid JSON object with this structure:\n" ++
  "\x7b\n  \"parameterValues\": \x7b\n    \"parameterName\": " ++
  "\"extracted value from the task\"\n  \x7d\n\x7d\n\nExample:\n" ++
  "If task is \"Search for laptop on Google\" and template variable is " ++
  "\"searchQuery\", return:\n\x7b\n  \"parameterValues\": \x7b\n    " ++
  "\"searchQuery\": \"laptop\"\n  \x7d\n\x7d"

/-- `extract_parameters_from_task`, with the LLM invocation as an oracle
(`llm prompt` yields the response text).  The boolean records whether the
LLM was invoked; a raised `ValueError` is `.error`.  The result is the
`parameterValues` object of the parsed response (fenced-block extraction
first, then raw parse). -/
def extract_parameters_from_task (llm : String → String)
    (task_prompt : String) (workflow : JVal) :
    Except String (List (String × JVal)) × Bool :=
  let parameters : JVal :=
    match workflow with
    | .obj o =>
      match o.find "parameters" with
      | some p => p
      | none => .arr .nil
    | _ => .arr .nil
  if !(truthy parameters) then (.ok [], false)
  else
    let workflow_str := jser workflow
    if !(hasTemplateVar workflow_str) then (.ok [], false)
    else
      let prompt := extraction_prompt_replay task_prompt
        (paramNamesOf parameters)
      let extraction_text := (llm prompt).data
      let json_str :=
        match extractFenced ("```json".data) extraction_text with
        | some b => b
        | none =>
          match extractFenced ("```".data) extraction_text with
          | some b => b
          | none => trimWs extraction_text
      match jparse json_str with
      | none => (.error "Failed to extract parameters from task", true)
      | some data =>
        let pv :=
          match data with
          | .obj o =>
            match o.find "parameterValues" with
            | some (.obj m) => objPairs m
            | _ => []
          | _ => []
        (.ok pv, true)

/-! ## `models.py`: `Action` and `HistoryItem` -/

/-- `models.Action` (pydantic): `executed_by_ai` defaults to `False`, all
other optional fields to `None`. -/
structure Action where
  name : String
  params : Option JVal := none
  is_done : Option Bool := none
  success : Option Bool := none
  extracted_content : Option String := none
  error : Option String := none
  include_in_memory : Option Bool := none
  executed_by_ai : Option Bool := some false
  fallback_reason : Option String := none
  fallback_attempt : Option Int := none
  deriving DecidableEq

/-- `models.HistoryItem`. -/
structure HistoryItem where
  description : Option String := none
  actions : Option (List Action) := none
  deriving DecidableEq

/-- Python `str()` of an optional value (`None` prints as `"None"` inside
f-strings). -/
def pyStrOpt : Option String → String
  | some s => s
  | none => "None"

/-! ## `workflow_ai_fallback_service.py` -/

def MAX_AI_FALLBACK_RETRIES : Nat := 3

/-- The engine contract consumed by the fallback: a success flag and a
history (`engine_result.is_successful`, `engine_result.history`). -/
structure EngineResult where
  is_successful : Bool
  history : List HistoryItem
  deriving DecidableEq

/-- Outcome of one engine invocation: an exception or a completed run. -/
inductive AttemptOutcome where
  | raise (e : String)
  | result (r : EngineResult)
  deriving DecidableEq

/-- The marking applied to one agent action in
`_extract_and_mark_ai_actions`: copy the execution fields, set
`executed_by_ai`, the fallback reason naming the failed cached action and
its error, and the (1-based) succeeding attempt index. -/
def mark_ai_action (failed_action : Action) (attempt : Nat) (a : Action) :
    Action :=
  { name := a.name
    params := a.params
    is_done := a.is_done
    success := a.success
    extracted_content := a.extracted_content
    error := a.error
    include_in_memory := none
    executed_by_ai := some true
    fallback_reason := some ("Cached action '" ++ failed_action.name ++
      "' failed: " ++ pyStrOpt failed_action.error)
    fallback_attempt := some (attempt : Int) }

/-- `_extract_and_mark_ai_actions(history, failed_action, attempt)`:
flatten all actions of all history items (skipping items with no actions)
and mark each. -/
def extract_and_mark_ai_actions (history : List HistoryItem)
    (failed_action : Action) (attempt : Nat) : List Action :=
  match history with
  | [] => []
  | hi :: rest =>
    (match hi.actions with
     | some acts => acts.map (mark_ai_action failed_action attempt)
     | none => []) ++ extract_and_mark_ai_actions rest failed_action attempt

/-- The retry loop of `execute_step_with_ai_fallback`
(`for attempt in range(1, MAX_AI_FALLBACK_RETRIES + 1)`): each engine
invocation either raises (caught, counted, loop continues), completes
unsuccessfully (loop continues), or succeeds (extract-and-mark and return
immediately).  Exhaustion returns `([], False)`.  The engine is an oracle
from the 1-based attempt number; the third component counts the
invocations made. -/
def fallback_loop (engine : Nat → AttemptOutcome) (failed_action : Action) :
    Nat → Nat → List Action × Bool × Nat
  | _, 0 => ([], false, 0)
  | attempt, Nat.succ remaining =>
    match engine attempt with
    | .raise _ =>
      let r := fallback_loop engine failed_action (attempt + 1) remaining
      (r.1, r.2.1, r.2.2 + 1)
    | .result res =>
      if res.is_successful then
        (extract_and_mark_ai_actions res.history failed_action attempt, true, 1)
      else
        let r := fallback_loop engine failed_action (attempt + 1) remaining
        (r.1, r.2.1, r.2.2 + 1)

/-- `execute_step_with_ai_fallback`, abstracted over the engine run. -/
def execute_step_with_ai_fallback (engine : Nat → AttemptOutcome)
    (failed_action : Action) : List Action × Bool × Nat :=
  fallback_loop engine failed_action 1 MAX_AI_FALLBACK_RETRIES

/-! ## `workflow_replay_service.replay_workflow`

Browser effects are oracles: `exec step action` is the outcome of
`execute_action` (an exception text, or success), `engine step attempt`
the AI-fallback engine outcome, `shot k` the `k`-th screenshot taken, and
`pageText`/`pageUrl` the final page state. -/

structure ReplayEnv where
  exec : Nat → Nat → Option String
  engine : Nat → Nat → AttemptOutcome
  shot : Nat → String
  pageText : String
  pageUrl : String

/-- `action_data.get("name", "")` (recorded action names are strings). -/
def action_name_of (action_data : JVal) : String :=
  match action_data with
  | .obj o =>
    match o.find "name" with
    | some (.str s) => s
    | _ => ""
  | _ => ""

/-- `action_data.get("params", {})`; a present `None` value stays `None`. -/
def action_params_of (action_data : JVal) : Option JVal :=
  match action_data with
  | .obj o =>
    match o.find "params" with
    | some .null => none
    | some p => some p
    | none => some (.obj .nil)
  | _ => some (.obj .nil)

/-- The successful record
`Action(name=action_name, params=action_params, is_done=True, success=True)`. -/
def cached_ok_record (action_data : JVal) : Action :=
  { name := action_name_of action_data
    params := action_params_of action_data
    is_done := some true
    success := some true }

/-- The failure record `Action(name=…, params=…, is_done=True,
success=False, error=str(e))`. -/
def cached_fail_record (action_data : JVal) (e : String) : Action :=
  { name := action_name_of action_data
    params := action_params_of action_data
    is_done := some true
    success := some false
    error := some e }

/-- The cached-action loop of one step: dispatch in declared order,
appending a successful record per success; on the first exception record
the failed action (with its error text) and stop.  Returns the recorded
actions, the failed action when one occurred, and the number of dispatch
attempts made. -/
def run_cached_actions (env : ReplayEnv) (stepIdx : Nat) :
    Nat → List JVal → List Action × Option Action × Nat
  | _, [] => ([], none, 0)
  | actionIdx, action_data :: rest =>
    match env.exec stepIdx actionIdx with
    | none =>
      let r := run_cached_actions env stepIdx (actionIdx + 1) rest
      (cached_ok_record action_data :: r.1, r.2.1, r.2.2 + 1)
    | some e =>
      ([cached_fail_record action_data e],
       some (cached_fail_record action_data e), 1)

/-- `step.get("description", "")`. -/
def step_description_of (step : JVal) : String :=
  match step with
  | .obj o =>
    match o.find "description" with
    | some (.str s) => s
    | _ => ""
  | _ => ""

/-- `step.get("actions", [])`. -/
def step_actions_of (step : JVal) : List JVal :=
  match step with
  | .obj o =>
    match o.find "actions" with
    | some (.arr a) => jarrToList a
    | _ => []
  | _ => []

/-- The step loop of `replay_workflow`.  On a failed cached action, the
fallback orchestrator runs; on its success the agent's marked actions
replace the step's action list; on exhaustion a screenshot is taken, the
step (with its attempted cached actions) is appended to history, and the
fatal error is raised.  The error payload carries the history and
screenshot lists as they stood at the raise, making the abandoned local
state observable in the model.  After the last step the final result is
the page text, or the page address when the text is empty
(`await page.evaluate("document.body.innerText") or page.url`). -/
def replay_steps (env : ReplayEnv) :
    Nat → List JVal → List HistoryItem → List String →
    Except (String × List HistoryItem × List String)
      (List HistoryItem × List String × String)
  | _, [], history, screenshots =>
    .ok (history, screenshots,
      if env.pageText = "" then env.pageUrl else env.pageText)
  | stepIdx, step :: rest, history, screenshots =>
    let step_description := step_description_of step
    let r := run_cached_actions env stepIdx 0 (step_actions_of step)
    match r.2.1 with
    | some failed_action =>
      let fb := execute_step_with_ai_fallback (env.engine stepIdx) failed_action
      if fb.2.1 then
        replay_steps env (stepIdx + 1) rest
          (history ++ [⟨some step_description, some fb.1⟩])
          (screenshots ++ [env.shot screenshots.length])
      else
        .error ("AI fallback failed for step '" ++ step_description ++
            "' after all retries",
          history ++ [⟨some step_description, some r.1⟩],
          screenshots ++ [env.shot screenshots.length])
    | none =>
      replay_steps env (stepIdx + 1) rest
        (history ++ [⟨some step_description, some r.1⟩])
        (screenshots ++ [env.shot screenshots.length])

/-- `replay_workflow(session, workflow, …)` over the oracle environment:
iterate `workflow.get("steps", [])` from an empty history. -/
def replay_workflow (env : ReplayEnv) (workflow : JVal) :
    Except (String × List HistoryItem × List String)
      (List HistoryItem × List String × String) :=
  let steps := match workflow with
    | .obj o =>
      match o.find "steps" with
      | some (.arr a) => jarrToList a
      | _ => []
    | _ => []
  replay_steps env 0 steps [] []

/-! ## Character-class facts -/

theorem uint32_le_iff {a b : UInt32} : a ≤ b ↔ a.toNat ≤ b.toNat :=
  Iff.trans UInt32.le_def BitVec.le_def

theorem plainChar_extract {c : Char} (h : plainChar c = true) :
    0x20 ≤ c.toNat ∧ c.toNat ≤ 0x7e ∧ c ≠ '"' ∧ c ≠ '\\' := by
  simp only [plainChar, Bool.and_eq_true, decide_eq_true_eq,
    Bool.not_eq_true', decide_eq_false_iff_not] at h
  exact ⟨h.1.1.1, h.1.1.2, h.1.2, h.2⟩

theorem plainChar_intro {c : Char} (h1 : 0x20 ≤ c.toNat)
    (h2 : c.toNat ≤ 0x7e) (h3 : c ≠ '"') (h4 : c ≠ '\\') :
    plainChar c = true := by
  simp only [plainChar, Bool.and_eq_true, decide_eq_true_eq,
    Bool.not_eq_true', decide_eq_false_iff_not]
  exact ⟨⟨⟨h1, h2⟩, h3⟩, h4⟩

/-- Word characters lie in the alphanumeric/underscore code ranges. -/
theorem wordChar_toNat {c : Char} (h : wordChar c = true) :
    (48 ≤ c.toNat ∧ c.toNat ≤ 57) ∨ (65 ≤ c.toNat ∧ c.toNat ≤ 90) ∨
    (97 ≤ c.toNat ∧ c.toNat ≤ 122) ∨ c.toNat = 95 := by
  simp only [wordChar, Bool.or_eq_true, decide_eq_true_eq] at h
  rcases h with h | h
  · simp only [Char.isAlphanum, Char.isAlpha, Char.isUpper, Char.isLower,
      Char.isDigit, Bool.or_eq_true, Bool.and_eq_true, decide_eq_true_eq] at h
    rcases h with (h | h) | h
    · refine Or.inr (Or.inl ⟨?_, ?_⟩)
      · have := uint32_le_iff.mp h.1
        simpa using this
      · have := uint32_le_iff.mp h.2
        simpa using this
    · refine Or.inr (Or.inr (Or.inl ⟨?_, ?_⟩))
      · have := uint32_le_iff.mp h.1
        simpa using this
      · have := uint32_le_iff.mp h.2
        simpa using this
    · refine Or.inl ⟨?_, ?_⟩
      · have := uint32_le_iff.mp h.1
        simpa using this
      · have := uint32_le_iff.mp h.2
        simpa using this
  · subst h
    exact Or.inr (Or.inr (Or.inr rfl))

theorem wordChar_plain {c : Char} (h : wordChar c = true) :
    plainChar c = true := by
  have hb := wordChar_toNat h
  refine plainChar_intro ?_ ?_ ?_ ?_
  · rcases hb with h | h | h | h <;> omega
  · rcases hb with h | h | h | h <;> omega
  · rintro rfl
    exact absurd hb (by decide)
  · rintro rfl
    exact absurd hb (by decide)

theorem isDigit_toNat {c : Char} (h : c.isDigit = true) :
    48 ≤ c.toNat ∧ c.toNat ≤ 57 := by
  simp only [Char.isDigit, Bool.and_eq_true, decide_eq_true_eq] at h
  constructor
  · have := uint32_le_iff.mp h.1
    simpa using this
  · have := uint32_le_iff.mp h.2
    simpa using this

theorem isDigit_not_lbrace {c : Char} (h : c.isDigit = true) : c ≠ '{' := by
  rintro rfl
  exact absurd (isDigit_toNat h) (by decide)

theorem isDigit_plain {c : Char} (h : c.isDigit = true) :
    plainChar c = true := by
  have hb := isDigit_toNat h
  refine plainChar_intro (by omega) (by omega) ?_ ?_
  · rintro rfl
    exact absurd hb (by decide)
  · rintro rfl
    exact absurd hb (by decide)

theorem escChar_plain {c : Char} (h : plainChar c = true) : escChar c = [c] := by
  obtain ⟨h1, h2, h3, h4⟩ := plainChar_extract h
  unfold escChar
  rw [if_neg h3, if_neg h4]
  rw [if_neg (by rintro rfl; exact absurd h (by decide))]
  rw [if_neg (by rintro rfl; exact absurd h (by decide))]
  rw [if_neg (by rintro rfl; exact absurd h (by decide))]
  rw [if_neg (by omega), if_neg (by omega), if_neg (by omega)]

theorem escapeStr_plain {s : List Char} (h : PlainStr s) :
    escapeStr s = s := by
  induction s with
  | nil => rfl
  | cons c t ih =>
    show escChar c ++ escapeStr t = c :: t
    rw [escChar_plain (h c (by simp)), ih (fun x hx => h x (by simp [hx]))]
    rfl

/-- Every character of `natChars n` is a digit. -/
theorem natChars_digits : ∀ (n : Nat), ∀ c ∈ natChars n, c.isDigit = true := by
  intro n
  induction n using Nat.strong_induction_on with
  | _ n ih =>
    intro c hc
    rw [natChars_eq] at hc
    by_cases hn : n < 10
    · rw [if_pos hn] at hc
      simp only [List.mem_singleton] at hc
      subst hc
      interval_cases n <;> decide
    · rw [if_neg hn] at hc
      rw [List.mem_append] at hc
      rcases hc with hc | hc
      · exact ih (n / 10) (Nat.div_lt_self (by omega) (by omega)) c hc
      · simp only [List.mem_singleton] at hc
        subst hc
        have hlt : n % 10 < 10 := Nat.mod_lt _ (by omega)
        interval_cases h : n % 10 <;> decide

/-- `natChars` is never empty. -/
theorem natChars_ne_nil (n : Nat) : natChars n ≠ [] := by
  rw [natChars_eq]
  by_cases hn : n < 10
  · rw [if_pos hn]; simp
  · rw [if_neg hn]; simp

theorem intChars_not_lbrace (i : Int) : ∀ c ∈ intChars i, c ≠ '{' := by
  intro c hc
  cases i with
  | ofNat n => exact isDigit_not_lbrace (natChars_digits n c hc)
  | negSucc n =>
    simp only [intChars, List.mem_cons] at hc
    rcases hc with rfl | hc
    · decide
    · exact isDigit_not_lbrace (natChars_digits _ c hc)

/-! ## Parser stepping lemmas -/

theorem skipWs_not_ws {c : Char} (h : isWs c = false) (t : List Char) :
    skipWs (c :: t) = c :: t := by
  simp [skipWs, h]

theorem skipWs_space (t : List Char) : skipWs (' ' :: t) = skipWs t := by
  simp [skipWs, isWs]

theorem isWs_of_digit {c : Char} (h : c.isDigit = true) : isWs c = false := by
  have hb := isDigit_toNat h
  simp only [isWs, Bool.or_eq_false_iff, decide_eq_false_iff_not]
  refine ⟨⟨⟨?_, ?_⟩, ?_⟩, ?_⟩ <;> rintro rfl <;> exact absurd hb (by decide)

/-- `pVal` only looks at its input through `skipWs`. -/
theorem pVal_congr : ∀ (f : Nat) {i1 i2 : List Char}, skipWs i1 = skipWs i2 →
    pVal f i1 = pVal f i2
  | 0, _, _, _ => rfl
  | Nat.succ f, i1, i2, h => by
    simp only [pVal]
    rw [h]

theorem pArrElems_congr (f : Nat) {i1 i2 : List Char}
    (h : skipWs i1 = skipWs i2) : pArrElems (f + 1) i1 = pArrElems (f + 1) i2 := by
  simp only [pArrElems]
  rw [pVal_congr f h]

theorem pObjItems_congr (f : Nat) {i1 i2 : List Char}
    (h : skipWs i1 = skipWs i2) : pObjItems (f + 1) i1 = pObjItems (f + 1) i2 := by
  simp only [pObjItems]
  rw [h]

theorem pVal_quote (f : Nat) (X : List Char) :
    pVal (f + 1) ('"' :: X) =
      match pStrBody X with
      | some (b, r) => some (.str ⟨b⟩, r)
      | none => none := by
  simp [pVal, skipWs, isWs]

theorem pVal_lbracket (f : Nat) (X : List Char) :
    pVal (f + 1) ('[' :: X) =
      match skipWs X with
      | ']' :: r => some (.arr .nil, r)
      | t2 =>
        match pArrElems f t2 with
        | some (a, r) => some (.arr a, r)
        | none => none := by
  simp [pVal, skipWs, isWs]

theorem pVal_lbrace (f : Nat) (X : List Char) :
    pVal (f + 1) ('{' :: X) =
      match skipWs X with
      | '}' :: r => some (.obj .nil, r)
      | t2 =>
        match pObjItems f t2 with
        | some (ps, r) => some (.obj (pairsToObj ps), r)
        | none => none := by
  simp [pVal, skipWs, isWs]

theorem pVal_true_lit (f : Nat) (X : List Char) :
    pVal (f + 1) ('t' :: 'r' :: 'u' :: 'e' :: X) = some (.bool true, X) := by
  simp [pVal, skipWs, isWs]

theorem pVal_false_lit (f : Nat) (X : List Char) :
    pVal (f + 1) ('f' :: 'a' :: 'l' :: 's' :: 'e' :: X) =
      some (.bool false, X) := by
  simp [pVal, skipWs, isWs]

theorem pVal_null_lit (f : Nat) (X : List Char) :
    pVal (f + 1) ('n' :: 'u' :: 'l' :: 'l' :: X) = some (.null, X) := by
  simp [pVal, skipWs, isWs]

theorem pVal_digit {c : Char} (hc : c.isDigit = true) (f : Nat) (X : List Char) :
    pVal (f + 1) (c :: X) =
      some (.num ((pDigits (digitVal c) X).1 : Int),
        (pDigits (digitVal c) X).2) := by
  have hb := isDigit_toNat hc
  have h1 : c ≠ '"' := by rintro rfl; exact absurd hb (by decide)
  have h2 : c ≠ '[' := by rintro rfl; exact absurd hb (by decide)
  have h3 : c ≠ '{' := by rintro rfl; exact absurd hb (by decide)
  have h4 : c ≠ 't' := by rintro rfl; exact absurd hb (by decide)
  have h5 : c ≠ 'f' := by rintro rfl; exact absurd hb (by decide)
  have h6 : c ≠ 'n' := by rintro rfl; exact absurd hb (by decide)
  have h7 : c ≠ '-' := by rintro rfl; exact absurd hb (by decide)
  simp [pVal, skipWs_not_ws (isWs_of_digit hc), h1, h2, h3, h4, h5, h6, h7, hc]

theorem pVal_neg {d : Char} (hd : d.isDigit = true) (f : Nat) (X : List Char) :
    pVal (f + 1) ('-' :: d :: X) =
      some (.num (-((pDigits (digitVal d) X).1 : Int)),
        (pDigits (digitVal d) X).2) := by
  simp [pVal, skipWs, isWs, hd]

/-! ## Digit runs -/

/-- Inputs after a serialized value never continue with a digit (so
`pDigits` stops exactly at the end of a numeral). -/
def restOk (r : List Char) : Prop := ∀ d u, r = d :: u → d.isDigit = false

theorem restOk_nil : restOk [] := fun _ _ h => by cases h

theorem restOk_cons {d : Char} (h : d.isDigit = false) (u : List Char) :
    restOk (d :: u) := by
  intro d' u' h'
  injection h' with e1 _
  rw [← e1]
  exact h

theorem pDigits_run : ∀ (A : List Char), (∀ c ∈ A, c.isDigit = true) →
    ∀ (acc : Nat) (rest : List Char), restOk rest →
    pDigits acc (A ++ rest) = (natVal acc A, rest)
  | [], _, acc, rest, hrest => by
    cases rest with
    | nil => rfl
    | cons d t =>
      show (if d.isDigit then _ else _) = _
      rw [hrest d t rfl]
      rfl
  | a :: A, hA, acc, rest, hrest => by
    show (if a.isDigit then _ else _) = _
    rw [if_pos (hA a (by simp))]
    exact pDigits_run A (fun c hc => hA c (by simp [hc])) _ rest hrest

theorem natVal_append (acc : Nat) (A B : List Char) :
    natVal acc (A ++ B) = natVal (natVal acc A) B := by
  unfold natVal
  rw [List.foldl_append]

theorem natVal_natChars : ∀ (n : Nat), natVal 0 (natChars n) = n := by
  intro n
  induction n using Nat.strong_induction_on with
  | _ n ih =>
    rw [natChars_eq]
    by_cases hn : n < 10
    · rw [if_pos hn]
      have hd : digitVal (Char.ofNat (48 + n)) = n := by
        interval_cases n <;> decide
      simp [natVal, hd]
    · rw [if_neg hn]
      rw [natVal_append, ih (n / 10) (Nat.div_lt_self (by omega) (by omega))]
      have hd : digitVal (Char.ofNat (48 + n % 10)) = n % 10 := by
        have hlt : n % 10 < 10 := Nat.mod_lt _ (by omega)
        interval_cases h : n % 10 <;> decide
      simp [natVal, hd]
      omega

/-! ## String-literal bodies -/

theorem pStrBodyGo_plain : ∀ (b : List Char), PlainStr b → ∀ (f : Nat),
    b.length < f → ∀ (rest : List Char),
    pStrBodyGo f (b ++ '"' :: rest) = some (b, rest)
  | [], _, f, hf, rest => by
    match f, hf with
    | Nat.succ f, _ => simp [pStrBodyGo]
  | c :: b, hp, f, hf, rest => by
    match f, hf with
    | Nat.succ f, hf =>
      obtain ⟨h1, _, h3, h4⟩ := plainChar_extract (hp c (by simp))
      have hg : pStrBodyGo f (b ++ '"' :: rest) = some (b, rest) :=
        pStrBodyGo_plain b (fun x hx => hp x (by simp [hx])) f
          (by simpa using Nat.lt_of_succ_lt_succ hf) rest
      simp [pStrBodyGo, h3, h4, (show ¬ (c.toNat < 0x20) by omega), hg]

theorem pStrBody_plain {b : List Char} (hp : PlainStr b) (rest : List Char) :
    pStrBody (b ++ '"' :: rest) = some (b, rest) := by
  unfold pStrBody
  apply pStrBodyGo_plain b hp
  simp only [List.length_append, List.length_cons]
  omega

/-! ## Rebuilding an object from its pair list -/

theorem JObj.set_cons_ne {k k' : String} (h : k ≠ k') (v v' : JVal)
    (o : JObj) :
    JObj.set (.cons k v o) k' v' = .cons k v (JObj.set o k' v') := by
  show (if k = k' then _ else _) = _
  rw [if_neg h]

theorem foldl_set_cons : ∀ (ps : List (String × JVal)) (k : String) (v : JVal)
    (o : JObj), (∀ p ∈ ps, p.1 ≠ k) →
    ps.foldl (fun o kv => JObj.set o kv.1 kv.2) (.cons k v o) =
      .cons k v (ps.foldl (fun o kv => JObj.set o kv.1 kv.2) o)
  | [], _, _, _, _ => rfl
  | p :: ps, k, v, o, hps => by
    simp only [List.foldl_cons]
    rw [JObj.set_cons_ne (fun e => hps p (by simp) e.symm)]
    exact foldl_set_cons ps k v _ (fun q hq => hps q (by simp [hq]))

theorem hasKey_objPairs : ∀ (o : JObj) (k : String),
    JObj.hasKey o k = true ↔ ∃ p ∈ objPairs o, p.1 = k
  | .nil, k => by simp [JObj.hasKey, objPairs]
  | .cons k' v t, k => by
    have ih := hasKey_objPairs t k
    simp [JObj.hasKey, objPairs, ih]

/-- Rebuilding the dict from the parsed pair list of a duplicate-free
object returns the object. -/
theorem pairsToObj_objPairs : ∀ (o : JObj), nodupO o = true →
    pairsToObj (objPairs o) = o
  | .nil, _ => rfl
  | .cons k v t, h => by
    have hs : (!(JObj.hasKey t k) && nodupV v && nodupO t) = true := h
    simp only [Bool.and_eq_true, Bool.not_eq_true'] at hs
    have hnk : ∀ p ∈ objPairs t, p.1 ≠ k := by
      intro p hp e
      have : JObj.hasKey t k = true := (hasKey_objPairs t k).mpr ⟨p, hp, e⟩
      rw [hs.1.1] at this
      cases this
    show List.foldl _ (JObj.set .nil k v) (objPairs t) = _
    have hset : JObj.set .nil k v = JObj.cons k v .nil := rfl
    rw [hset, foldl_set_cons (objPairs t) k v .nil hnk]
    exact congrArg (fun x => JObj.cons k v x) (pairsToObj_objPairs t hs.2)

/-- Every serialized value begins with a non-whitespace character that is
not a closing bracket, closing brace, comma or digit-run continuation. -/
theorem jser_head_spec : ∀ (v : JVal), ∃ c s, jser v = c :: s ∧
    isWs c = false ∧ c ≠ ']' ∧ c ≠ '}'
  | .str s => ⟨_, _, rfl, by decide, by decide, by decide⟩
  | .num (.ofNat n) => by
    cases hdt : natChars n with
    | nil => exact absurd hdt (natChars_ne_nil n)
    | cons d t =>
      have hd : d.isDigit = true := natChars_digits n d (by rw [hdt]; simp)
      have hb := isDigit_toNat hd
      refine ⟨d, t, hdt, isWs_of_digit hd, ?_, ?_⟩
      · rintro rfl; exact absurd hb (by decide)
      · rintro rfl; exact absurd hb (by decide)
  | .num (.negSucc n) => ⟨_, _, rfl, by decide, by decide, by decide⟩
  | .bool true => ⟨_, _, rfl, by decide, by decide, by decide⟩
  | .bool false => ⟨_, _, rfl, by decide, by decide, by decide⟩
  | .null => ⟨_, _, rfl, by decide, by decide, by decide⟩
  | .arr a => ⟨_, _, rfl, by decide, by decide, by decide⟩
  | .obj o => ⟨_, _, rfl, by decide, by decide, by decide⟩

/-! ## Fuel bounds for the parser -/

theorem fuelV_pos (v : JVal) : 1 ≤ fuelV v := by
  cases v <;> simp [fuelV]

theorem fuelA_pos (a : JArr) : 1 ≤ fuelA a := by
  cases a <;> simp [fuelA]

theorem fuelO_pos (o : JObj) : 1 ≤ fuelO o := by
  cases o <;> simp [fuelO]

mutual
/-- The fuel needed to parse `jser v` is at most the input length plus one
(the fuel `jparse` supplies). -/
theorem fuelV_le : ∀ (v : JVal), fuelV v ≤ (jser v).length + 1
  | .str s => by
    have h : fuelV (.str s) = 1 := rfl
    omega
  | .num i => by
    have h : fuelV (.num i) = 1 := rfl
    omega
  | .bool b => by
    have h : fuelV (.bool b) = 1 := rfl
    omega
  | .null => by
    have h : fuelV .null = 1 := rfl
    omega
  | .arr a => by
    have h := fuelA_le a
    have hv : fuelV (.arr a) = 1 + fuelA a := rfl
    have e : jser (.arr a) = '[' :: (jserArr a ++ [']']) := rfl
    rw [hv, e]
    simp only [List.length_append, List.length_cons]
    omega
  | .obj o => by
    have h := fuelO_le o
    have hv : fuelV (.obj o) = 1 + fuelO o := rfl
    have e : jser (.obj o) = '{' :: (jserObj o ++ ['}']) := rfl
    rw [hv, e]
    simp only [List.length_append, List.length_cons]
    omega

theorem fuelA_le : ∀ (a : JArr), fuelA a ≤ (jserArr a).length + 2
  | .nil => by
    have h : fuelA .nil = 1 := rfl
    omega
  | .cons v .nil => by
    have h := fuelV_le v
    have hf : fuelA (.cons v .nil) = 1 + max (fuelV v) (fuelA .nil) := rfl
    have h0 : fuelA .nil = 1 := rfl
    have e : jserArr (.cons v .nil) = jser v := rfl
    rw [hf, h0, e]
    omega
  | .cons v (.cons w u) => by
    have h1 := fuelV_le v
    have h2 := fuelA_le (.cons w u)
    have hf : fuelA (.cons v (.cons w u)) =
        1 + max (fuelV v) (fuelA (.cons w u)) := rfl
    have e : jserArr (.cons v (.cons w u)) =
        jser v ++ ',' :: ' ' :: jserArr (.cons w u) := rfl
    rw [hf, e]
    simp only [List.length_append, List.length_cons]
    omega

theorem fuelO_le : ∀ (o : JObj), fuelO o ≤ (jserObj o).length + 2
  | .nil => by
    have h : fuelO .nil = 1 := rfl
    omega
  | .cons k v .nil => by
    have h := fuelV_le v
    have hf : fuelO (.cons k v .nil) = 1 + max (fuelV v) (fuelO .nil) := rfl
    have h0 : fuelO .nil = 1 := rfl
    have e : jserObj (.cons k v .nil) =
        '"' :: (escapeStr k.data ++ ['"', ':', ' ']) ++ jser v := rfl
    rw [hf, h0, e]
    simp only [List.length_append, List.length_cons]
    omega
  | .cons k v (.cons k2 v2 t) => by
    have h1 := fuelV_le v
    have h2 := fuelO_le (.cons k2 v2 t)
    have hf : fuelO (.cons k v (.cons k2 v2 t)) =
        1 + max (fuelV v) (fuelO (.cons k2 v2 t)) := rfl
    have e : jserObj (.cons k v (.cons k2 v2 t)) =
        ('"' :: (escapeStr k.data ++ ['"', ':', ' ']) ++ jser v) ++
          ',' :: ' ' :: jserObj (.cons k2 v2 t) := rfl
    rw [hf, e]
    simp only [List.length_append, List.length_cons]
    omega
end

/-! ## Parser round trip over `jser` -/

mutual
/-- Parsing the serialization of a plain, duplicate-free value returns the
value, for any continuation that does not extend a digit run. -/
theorem pVal_jser : ∀ (v : JVal), plainV v = true → nodupV v = true →
    ∀ (f : Nat), fuelV v ≤ f → ∀ (rest : List Char), restOk rest →
    pVal f (jser v ++ rest) = some (v, rest)
  | .str s, hp, _, f, hf, rest, _ => by
    obtain ⟨g, rfl⟩ : ∃ g, f = g + 1 :=
      ⟨f - 1, by have := fuelV_pos (.str s); omega⟩
    have hps : PlainStr s.data := by
      intro c hc
      have hp' : s.data.all plainChar = true := hp
      exact List.all_eq_true.mp hp' c hc
    have hstep : jser (.str s) ++ rest = '"' :: (s.data ++ '"' :: rest) := by
      show ('"' :: (escapeStr s.data ++ ['"'])) ++ rest = _
      rw [escapeStr_plain hps]
      simp
    rw [hstep, pVal_quote, pStrBody_plain hps rest]
  | .num (.ofNat n), _, _, f, hf, rest, hrest => by
    obtain ⟨g, rfl⟩ : ∃ g, f = g + 1 :=
      ⟨f - 1, by have := fuelV_pos (.num (.ofNat n)); omega⟩
    cases hdt : natChars n with
    | nil => exact absurd hdt (natChars_ne_nil n)
    | cons d t =>
      have hall := natChars_digits n
      have hd : d.isDigit = true := hall d (by rw [hdt]; simp)
      have ht : ∀ c ∈ t, c.isDigit = true := fun c hc =>
        hall c (by rw [hdt]; simp [hc])
      have hstep : jser (.num (.ofNat n)) ++ rest = d :: (t ++ rest) := by
        show natChars n ++ rest = _
        rw [hdt]
        rfl
      rw [hstep, pVal_digit hd, pDigits_run t ht (digitVal d) rest hrest]
      have hval : natVal (digitVal d) t = n := by
        have h0 := natVal_natChars n
        rw [hdt] at h0
        simpa [natVal] using h0
      rw [hval]
      rfl
  | .num (.negSucc n), _, _, f, hf, rest, hrest => by
    obtain ⟨g, rfl⟩ : ∃ g, f = g + 1 :=
      ⟨f - 1, by have := fuelV_pos (.num (.negSucc n)); omega⟩
    cases hdt : natChars (n + 1) with
    | nil => exact absurd hdt (natChars_ne_nil _)
    | cons d t =>
      have hall := natChars_digits (n + 1)
      have hd : d.isDigit = true := hall d (by rw [hdt]; simp)
      have ht : ∀ c ∈ t, c.isDigit = true := fun c hc =>
        hall c (by rw [hdt]; simp [hc])
      have hstep : jser (.num (.negSucc n)) ++ rest = '-' :: d :: (t ++ rest) := by
        show ('-' :: natChars (n + 1)) ++ rest = _
        rw [hdt]
        rfl
      rw [hstep, pVal_neg hd, pDigits_run t ht (digitVal d) rest hrest]
      have hval : natVal (digitVal d) t = n + 1 := by
        have h0 := natVal_natChars (n + 1)
        rw [hdt] at h0
        simpa [natVal] using h0
      rw [hval]
      have hneg : -((n + 1 : Nat) : Int) = Int.negSucc n := by
        rw [Int.negSucc_eq]
        push_cast
        ring
      rw [hneg]
  | .bool true, _, _, f, hf, rest, _ => by
    obtain ⟨g, rfl⟩ : ∃ g, f = g + 1 :=
      ⟨f - 1, by have := fuelV_pos (.bool true); omega⟩
    exact pVal_true_lit g rest
  | .bool false, _, _, f, hf, rest, _ => by
    obtain ⟨g, rfl⟩ : ∃ g, f = g + 1 :=
      ⟨f - 1, by have := fuelV_pos (.bool false); omega⟩
    exact pVal_false_lit g rest
  | .null, _, _, f, hf, rest, _ => by
    obtain ⟨g, rfl⟩ : ∃ g, f = g + 1 :=
      ⟨f - 1, by have := fuelV_pos .null; omega⟩
    exact pVal_null_lit g rest
  | .arr .nil, _, _, f, hf, rest, _ => by
    obtain ⟨g, rfl⟩ : ∃ g, f = g + 1 :=
      ⟨f - 1, by have := fuelV_pos (.arr .nil); omega⟩
    have hstep : jser (.arr .nil) ++ rest = '[' :: ']' :: rest := rfl
    rw [hstep, pVal_lbracket]
    rw [skipWs_not_ws (by decide)]
    rfl
  | .arr (.cons v t), hp, hn, f, hf, rest, hrest => by
    obtain ⟨g, rfl⟩ : ∃ g, f = g + 1 :=
      ⟨f - 1, by have := fuelV_pos (.arr (.cons v t)); omega⟩
    have hfa : fuelA (.cons v t) ≤ g := by
      have hv : fuelV (.arr (.cons v t)) = 1 + fuelA (.cons v t) := rfl
      omega
    have hstep : jser (.arr (.cons v t)) ++ rest =
        '[' :: (jserArr (.cons v t) ++ ']' :: rest) := by
      show ('[' :: (jserArr (.cons v t) ++ [']'])) ++ rest = _
      simp
    obtain ⟨c, s, hcs, hws, hne, _⟩ := jser_head_spec v
    obtain ⟨Z, hZeq, hZok⟩ : ∃ Z, jserArr (.cons v t) ++ ']' :: rest =
        jser v ++ Z ∧ jser v ++ Z = c :: (s ++ Z) := by
      cases t with
      | nil => exact ⟨']' :: rest, rfl, by rw [hcs]; rfl⟩
      | cons w u =>
        refine ⟨',' :: ' ' :: (jserArr (.cons w u) ++ ']' :: rest), ?_, ?_⟩
        · show (jser v ++ ',' :: ' ' :: jserArr (.cons w u)) ++ ']' :: rest = _
          simp
        · rw [hcs]
          rfl
    rw [hstep, pVal_lbracket, hZeq, hZok, skipWs_not_ws hws]
    split
    · next r heq =>
      injection heq with e1 _
      exact absurd e1 hne
    · next _ =>
      rw [← hZok, ← hZeq,
        pArrElems_jser v t hp hn g hfa rest hrest]
  | .obj .nil, _, _, f, hf, rest, _ => by
    obtain ⟨g, rfl⟩ : ∃ g, f = g + 1 :=
      ⟨f - 1, by have := fuelV_pos (.obj .nil); omega⟩
    have hstep : jser (.obj .nil) ++ rest = '{' :: '}' :: rest := rfl
    rw [hstep, pVal_lbrace]
    rw [skipWs_not_ws (by decide)]
    rfl
  | .obj (.cons k v t), hp, hn, f, hf, rest, hrest => by
    obtain ⟨g, rfl⟩ : ∃ g, f = g + 1 :=
      ⟨f - 1, by have := fuelV_pos (.obj (.cons k v t)); omega⟩
    have hfo : fuelO (.cons k v t) ≤ g := by
      have hv : fuelV (.obj (.cons k v t)) = 1 + fuelO (.cons k v t) := rfl
      omega
    have hstep : jser (.obj (.cons k v t)) ++ rest =
        '{' :: (jserObj (.cons k v t) ++ '}' :: rest) := by
      show ('{' :: (jserObj (.cons k v t) ++ ['}'])) ++ rest = _
      simp
    obtain ⟨X, hX⟩ : ∃ X, jserObj (.cons k v t) ++ '}' :: rest = '"' :: X := by
      cases t with
      | nil => exact ⟨_, rfl⟩
      | cons k2 v2 u => exact ⟨_, rfl⟩
    rw [hstep, pVal_lbrace, hX, skipWs_not_ws (by decide)]
    split
    · next r heq =>
      injection heq with e1 _
      exact absurd e1 (by decide)
    · next _ =>
      rw [← hX, pObjItems_jser k v t hp hn g hfo rest hrest]
      simp only [pairsToObj_objPairs (.cons k v t) hn]
termination_by v _ _ _ _ _ _ => sizeOf v

theorem pArrElems_jser : ∀ (v : JVal) (t : JArr), plainA (.cons v t) = true →
    nodupA (.cons v t) = true → ∀ (f : Nat), fuelA (.cons v t) ≤ f →
    ∀ (rest : List Char), restOk rest →
    pArrElems f (jserArr (.cons v t) ++ ']' :: rest) = some (.cons v t, rest)
  | v, t, hp, hn, f, hf, rest, hrest => by
    obtain ⟨g, rfl⟩ : ∃ g, f = g + 1 :=
      ⟨f - 1, by have := fuelA_pos (.cons v t); omega⟩
    have hp' : (plainV v && plainA t) = true := hp
    have hn' : (nodupV v && nodupA t) = true := hn
    simp only [Bool.and_eq_true] at hp' hn'
    have hm : 1 + max (fuelV v) (fuelA t) ≤ g + 1 := hf
    simp only [pArrElems]
    cases t with
    | nil =>
      have hin : jserArr (.cons v .nil) ++ ']' :: rest =
          jser v ++ ']' :: rest := rfl
      rw [hin, pVal_jser v hp'.1 hn'.1 g (by omega) (']' :: rest)
        (restOk_cons (by decide) rest)]
      simp [skipWs_not_ws (show isWs ']' = false by decide)]
    | cons w u =>
      have hin : jserArr (.cons v (.cons w u)) ++ ']' :: rest =
          jser v ++ ',' :: ' ' :: (jserArr (.cons w u) ++ ']' :: rest) := by
        show (jser v ++ ',' :: ' ' :: jserArr (.cons w u)) ++ ']' :: rest = _
        simp
      rw [hin, pVal_jser v hp'.1 hn'.1 g (by omega) _
        (restOk_cons (by decide) _)]
      obtain ⟨g', rfl⟩ : ∃ g', g = g' + 1 :=
        ⟨g - 1, by have := fuelA_pos (.cons w u); omega⟩
      simp only [skipWs_not_ws (show isWs ',' = false by decide)]
      rw [pArrElems_congr g' (skipWs_space (jserArr (.cons w u) ++ ']' :: rest)),
        pArrElems_jser w u hp'.2 hn'.2 (g' + 1) (by omega) rest hrest]
termination_by v t _ _ _ _ _ _ => 1 + sizeOf v + sizeOf t

theorem pObjItems_jser : ∀ (k : String) (v : JVal) (t : JObj),
    plainO (.cons k v t) = true → nodupO (.cons k v t) = true →
    ∀ (f : Nat), fuelO (.cons k v t) ≤ f → ∀ (rest : List Char), restOk rest →
    pObjItems f (jserObj (.cons k v t) ++ '}' :: rest) =
      some (objPairs (.cons k v t), rest)
  | k, v, t, hp, hn, f, hf, rest, hrest => by
    obtain ⟨g, rfl⟩ : ∃ g, f = g + 1 :=
      ⟨f - 1, by have := fuelO_pos (.cons k v t); omega⟩
    have hp' : (k.data.all plainChar && plainV v && plainO t) = true := hp
    have hn' : (!(JObj.hasKey t k) && nodupV v && nodupO t) = true := hn
    simp only [Bool.and_eq_true] at hp' hn'
    have hpk : PlainStr k.data := fun c hc =>
      List.all_eq_true.mp hp'.1.1 c hc
    have hm : 1 + max (fuelV v) (fuelO t) ≤ g + 1 := hf
    simp only [pObjItems]
    cases t with
    | nil =>
      have hin : jserObj (.cons k v .nil) ++ '}' :: rest =
          '"' :: (k.data ++ '"' :: (':' :: ' ' :: (jser v ++ '}' :: rest))) := by
        show ('"' :: (escapeStr k.data ++ ['"', ':', ' ']) ++ jser v) ++
          '}' :: rest = _
        rw [escapeStr_plain hpk]
        simp
      rw [hin, skipWs_not_ws (show isWs '"' = false by decide)]
      simp only [pStrBody_plain hpk]
      rw [skipWs_not_ws (show isWs ':' = false by decide)]
      simp only [pVal_congr g (skipWs_space (jser v ++ '}' :: rest))]
      rw [pVal_jser v hp'.1.2 hn'.1.2 g (by omega) ('}' :: rest)
        (restOk_cons (by decide) rest)]
      simp [skipWs_not_ws (show isWs '}' = false by decide), objPairs]
    | cons k2 v2 u =>
      have hin : jserObj (.cons k v (.cons k2 v2 u)) ++ '}' :: rest =
          '"' :: (k.data ++ '"' :: (':' :: ' ' ::
            (jser v ++ ',' :: ' ' ::
              (jserObj (.cons k2 v2 u) ++ '}' :: rest)))) := by
        show (('"' :: (escapeStr k.data ++ ['"', ':', ' ']) ++ jser v) ++
          ',' :: ' ' :: jserObj (.cons k2 v2 u)) ++ '}' :: rest = _
        rw [escapeStr_plain hpk]
        simp
      rw [hin, skipWs_not_ws (show isWs '"' = false by decide)]
      simp only [pStrBody_plain hpk]
      rw [skipWs_not_ws (show isWs ':' = false by decide)]
      simp only [pVal_congr g (skipWs_space _)]
      rw [pVal_jser v hp'.1.2 hn'.1.2 g (by omega) _
        (restOk_cons (by decide) _)]
      obtain ⟨g', rfl⟩ : ∃ g', g = g' + 1 :=
        ⟨g - 1, by have := fuelO_pos (.cons k2 v2 u); omega⟩
      simp only [skipWs_not_ws (show isWs ',' = false by decide)]
      rw [pObjItems_congr g'
        (skipWs_space (jserObj (.cons k2 v2 u) ++ '}' :: rest)),
        pObjItems_jser k2 v2 u hp'.2 hn'.2 (g' + 1) (by omega) rest hrest]
      simp [objPairs]
termination_by _ v t _ _ _ _ _ _ => 1 + sizeOf v + sizeOf t
end

/-- `json.loads(json.dumps(v)) = v` for plain values with duplicate-free
object keys. -/
theorem jparse_jser {v : JVal} (hp : plainV v = true) (hn : nodupV v = true) :
    jparse (jser v) = some v := by
  unfold jparse
  have h := pVal_jser v hp hn ((jser v).length + 1) (fuelV_le v) [] restOk_nil
  rw [show jser v ++ ([] : List Char) = jser v from by simp] at h
  rw [h]
  rfl


/-! ## Boundary lemmas for replacement over serialized text -/

/-- Replacement distributes over a concatenation whose boundary character
does not occur in the pattern. -/
theorem repl_append_boundary {p v : List Char} {c : Char} (hp : p ≠ [])
    (hc : c ∉ p) : ∀ (X Y : List Char),
    repl p v (X ++ c :: Y) = repl p v X ++ repl p v (c :: Y) := by
  suffices main : ∀ N X Y, X.length ≤ N →
      repl p v (X ++ c :: Y) = repl p v X ++ repl p v (c :: Y) by
    intro X Y
    exact main X.length X Y le_rfl
  intro N
  induction N with
  | zero =>
    intro X Y h
    have : X = [] := List.eq_nil_of_length_eq_zero (by omega)
    subst this
    simp [repl_nil]
  | succ N ih =>
    intro X Y hlen
    match X with
    | [] => simp [repl_nil]
    | x :: X' =>
      rw [List.cons_append]
      by_cases hm : p <+: x :: (X' ++ c :: Y)
      · have hm' : p <+: (x :: X') ++ (c :: Y) := by
          rwa [List.cons_append]
        by_cases hl : p.length ≤ X'.length + 1
        · have hpx : p <+: x :: X' :=
            prefix_of_short hm' (by simpa using hl)
          rw [repl_cons_pos hp hm, repl_cons_pos hp hpx]
          rw [List.drop_append_of_le_length (by omega)]
          rw [List.length_cons] at hlen
          rw [ih (List.drop (p.length - 1) X') Y (by simp; omega)]
          simp
        · exfalso
          have hsplit := prefix_append_split hm' (by simp; omega)
          obtain ⟨-, h2⟩ := hsplit
          have hne : List.drop (x :: X').length p ≠ [] := by
            intro hnil
            have := congrArg List.length hnil
            simp only [List.length_drop, List.length_nil, List.length_cons]
              at this
            omega
          obtain ⟨d, ds, hds⟩ := List.exists_cons_of_ne_nil hne
          rw [hds, List.cons_prefix_cons] at h2
          apply hc
          rw [← h2.1]
          exact List.drop_subset _ _ (by rw [hds]; simp)
      · have hmx : ¬ p <+: x :: X' := fun hh =>
          hm (by
            have := hh.trans (List.prefix_append (x :: X') (c :: Y))
            rwa [List.cons_append] at this)
        rw [repl_cons_neg hm, repl_cons_neg hmx]
        rw [List.length_cons] at hlen
        rw [ih X' Y (by omega)]
        rfl

/-- A placeholder never matches at a character other than `{`. -/
theorem ph_not_prefix_cons {n : List Char} {c : Char} {Y : List Char}
    (hc : c ≠ '{') : ¬ phOf n <+: c :: Y := by
  rw [phOf]
  exact not_prefix_head (fun h => hc h.symm)

theorem repl_cons_pass {n w : List Char} {c : Char} {Y : List Char}
    (hc : c ≠ '{') :
    repl (phOf n) w (c :: Y) = c :: repl (phOf n) w Y :=
  repl_cons_neg (ph_not_prefix_cons hc)

/-- Brace-free text passes through placeholder replacement. -/
theorem repl_pass_nb {n w X : List Char} (hX : ∀ c ∈ X, c ≠ '{')
    (Y : List Char) :
    repl (phOf n) w (X ++ Y) = X ++ repl (phOf n) w Y := by
  apply repl_pass
  intro j hj h
  have hne : List.drop j X ≠ [] := by
    intro hnil
    have := congrArg List.length hnil
    simp only [List.length_drop, List.length_nil] at this
    omega
  obtain ⟨d, ds, hds⟩ := List.exists_cons_of_ne_nil hne
  rw [hds, List.cons_append, phOf, List.cons_prefix_cons] at h
  exact hX d (List.drop_subset _ _ (by rw [hds]; simp)) h.1.symm

/-- The double quote does not occur in a placeholder. -/
theorem quote_notin_ph {n : List Char} (hn : ∀ c ∈ n, wordChar c) :
    '"' ∉ phOf n := by
  intro hmem
  simp only [phOf, List.mem_cons, List.mem_append] at hmem
  rcases hmem with h | h | h | h | h
  · exact absurd h (by decide)
  · exact absurd h (by decide)
  · exact absurd h (by decide)
  · exact (wordChar_spec (hn _ h)).2.2.2 rfl
  · rcases h with h | h | h
    · exact absurd h (by decide)
    · exact absurd h (by decide)
    · simp at h

/-- Characters of a replacement result come from the text or the
replacement string. -/
theorem repl_mem {p v : List Char} : ∀ (s : List Char),
    ∀ c ∈ repl p v s, c ∈ s ∨ c ∈ v := by
  suffices main : ∀ N s, s.length ≤ N → ∀ c ∈ repl p v s, c ∈ s ∨ c ∈ v by
    intro s
    exact main s.length s le_rfl
  intro N
  induction N with
  | zero =>
    intro s hlen
    have : s = [] := List.eq_nil_of_length_eq_zero (by omega)
    subst this
    simp [repl_nil]
  | succ N ih =>
    intro s hlen c hc
    match s with
    | [] => simp [repl_nil] at hc
    | x :: s' =>
      by_cases hm : p ≠ [] ∧ p <+: x :: s'
      · rw [repl_cons_pos hm.1 hm.2] at hc
        rw [List.mem_append] at hc
        rcases hc with hc | hc
        · exact Or.inr hc
        · rw [List.length_cons] at hlen
          rcases ih (List.drop (p.length - 1) s') (by simp; omega) c hc with
            h | h
          · exact Or.inl (by simp [List.drop_subset _ _ h])
          · exact Or.inr h
      · rw [repl_cons_neg' hm] at hc
        rw [List.mem_cons] at hc
        rcases hc with rfl | hc
        · exact Or.inl (by simp)
        · rw [List.length_cons] at hlen
          rcases ih s' (by omega) c hc with h | h
          · exact Or.inl (by simp [h])
          · exact Or.inr h

theorem repl_plainStr {p v s : List Char} (hs : PlainStr s) (hv : PlainStr v) :
    PlainStr (repl p v s) := by
  intro c hc
  rcases repl_mem s c hc with h | h
  · exact hs c h
  · exact hv c h

/-- Head shape of a nonempty serialized object. -/
theorem jserObj_head (k : String) (v : JVal) (t : JObj) :
    ∃ rest, jserObj (.cons k v t) = '"' :: rest := by
  cases t with
  | nil => exact ⟨_, rfl⟩
  | cons k2 v2 t2 => exact ⟨_, rfl⟩

/-! ## Replacement in serialized text is string-field-wise replacement -/

theorem plainStr_of_all {s : List Char} (h : s.all plainChar = true) :
    PlainStr s := fun c hc => List.all_eq_true.mp h c hc

theorem plainA_cons {v : JVal} {t : JArr} (h : plainA (.cons v t) = true) :
    plainV v = true ∧ plainA t = true := by
  simp only [plainA, Bool.and_eq_true] at h
  exact h

theorem plainO_cons {k : String} {v : JVal} {t : JObj}
    (h : plainO (.cons k v t) = true) :
    PlainStr k.data ∧ plainV v = true ∧ plainO t = true := by
  simp only [plainO, Bool.and_eq_true] at h
  exact ⟨plainStr_of_all h.1.1, h.1.2, h.2⟩

mutual
/-- Substituting a placeholder in the serialization of a plain value (with
a plain replacement string) is the serialization of the value with each
string field and key substituted — matches never cross string-literal
boundaries or arise inside structural characters. -/
theorem repl_jser_val {n w : List Char} (hn : ∀ c ∈ n, wordChar c)
    (hw : PlainStr w) :
    ∀ (v : JVal), plainV v = true → ∀ (Y : List Char),
    repl (phOf n) w (jser v ++ Y) =
      jser (strMapV (replStr (phOf n) w) v) ++ repl (phOf n) w Y
  | .str s, hv, Y => by
    have hps : PlainStr s.data := plainStr_of_all hv
    show repl (phOf n) w (('"' :: (escapeStr s.data ++ ['"'])) ++ Y) =
      ('"' :: (escapeStr (repl (phOf n) w s.data) ++ ['"'])) ++
        repl (phOf n) w Y
    rw [escapeStr_plain hps, escapeStr_plain (repl_plainStr hps hw)]
    have hstep : ('"' :: (s.data ++ ['"'])) ++ Y =
        '"' :: (s.data ++ '"' :: Y) := by simp
    rw [hstep, repl_cons_pass (by decide),
      repl_append_boundary ph_ne_nil (quote_notin_ph hn) s.data Y,
      repl_cons_pass (by decide)]
    simp
  | .num i, _, Y => repl_pass_nb (intChars_not_lbrace i) Y
  | .bool true, _, Y => repl_pass_nb (by decide) Y
  | .bool false, _, Y => repl_pass_nb (by decide) Y
  | .null, _, Y => repl_pass_nb (by decide) Y
  | .arr a, hv, Y => by
    show repl (phOf n) w (('[' :: (jserArr a ++ [']'])) ++ Y) =
      ('[' :: (jserArr (strMapA (replStr (phOf n) w) a) ++ [']'])) ++
        repl (phOf n) w Y
    have hstep : ('[' :: (jserArr a ++ [']'])) ++ Y =
        '[' :: (jserArr a ++ ']' :: Y) := by simp
    rw [hstep, repl_cons_pass (by decide),
      repl_jser_arr hn hw a hv (']' :: Y), repl_cons_pass (by decide)]
    simp
  | .obj o, hv, Y => by
    show repl (phOf n) w (('{' :: (jserObj o ++ ['}'])) ++ Y) =
      ('{' :: (jserObj (strMapO (replStr (phOf n) w) o) ++ ['}'])) ++
        repl (phOf n) w Y
    have hstep : ('{' :: (jserObj o ++ ['}'])) ++ Y =
        '{' :: (jserObj o ++ '}' :: Y) := by simp
    rw [hstep]
    have hhead : ¬ phOf n <+: '{' :: (jserObj o ++ '}' :: Y) := by
      cases o with
      | nil =>
        intro hcontra
        rw [phOf, List.cons_prefix_cons] at hcontra
        obtain ⟨-, hcontra⟩ := hcontra
        rw [show jserObj .nil ++ '}' :: Y = '}' :: Y from rfl,
          List.cons_prefix_cons] at hcontra
        exact absurd hcontra.1 (by decide)
      | cons k v t =>
        obtain ⟨rest, hrest⟩ := jserObj_head k v t
        intro hcontra
        rw [hrest, phOf, List.cons_prefix_cons] at hcontra
        obtain ⟨-, hcontra⟩ := hcontra
        rw [List.cons_append, List.cons_prefix_cons] at hcontra
        exact absurd hcontra.1 (by decide)
    rw [repl_cons_neg hhead, repl_jser_obj hn hw o hv ('}' :: Y),
      repl_cons_pass (by decide)]
    simp

theorem repl_jser_arr {n w : List Char} (hn : ∀ c ∈ n, wordChar c)
    (hw : PlainStr w) :
    ∀ (a : JArr), plainA a = true → ∀ (Y : List Char),
    repl (phOf n) w (jserArr a ++ Y) =
      jserArr (strMapA (replStr (phOf n) w) a) ++ repl (phOf n) w Y
  | .nil, _, Y => by simp [jserArr, strMapA]
  | .cons v .nil, hv, Y => by
    have h := plainA_cons hv
    show repl (phOf n) w (jser v ++ Y) =
      jser (strMapV (replStr (phOf n) w) v) ++ repl (phOf n) w Y
    exact repl_jser_val hn hw v h.1 Y
  | .cons v (.cons u t), hv, Y => by
    have h := plainA_cons hv
    show repl (phOf n) w ((jser v ++ ',' :: ' ' :: jserArr (.cons u t)) ++ Y) =
      (jser (strMapV (replStr (phOf n) w) v) ++
        ',' :: ' ' :: jserArr (strMapA (replStr (phOf n) w) (.cons u t))) ++
        repl (phOf n) w Y
    have hstep : (jser v ++ ',' :: ' ' :: jserArr (.cons u t)) ++ Y =
        jser v ++ ',' :: ' ' :: (jserArr (.cons u t) ++ Y) := by simp
    rw [hstep, repl_jser_val hn hw v h.1, repl_cons_pass (by decide),
      repl_cons_pass (by decide), repl_jser_arr hn hw (.cons u t) h.2 Y]
    simp

theorem repl_jser_obj {n w : List Char} (hn : ∀ c ∈ n, wordChar c)
    (hw : PlainStr w) :
    ∀ (o : JObj), plainO o = true → ∀ (Y : List Char),
    repl (phOf n) w (jserObj o ++ Y) =
      jserObj (strMapO (replStr (phOf n) w) o) ++ repl (phOf n) w Y
  | .nil, _, Y => by simp [jserObj, strMapO]
  | .cons k v .nil, hv, Y => by
    obtain ⟨hk, hv1, -⟩ := plainO_cons hv
    show repl (phOf n) w
        ((('"' :: (escapeStr k.data ++ ['"', ':', ' '])) ++ jser v) ++ Y) =
      (('"' :: (escapeStr (repl (phOf n) w k.data) ++ ['"', ':', ' '])) ++
        jser (strMapV (replStr (phOf n) w) v)) ++ repl (phOf n) w Y
    rw [escapeStr_plain hk, escapeStr_plain (repl_plainStr hk hw)]
    have hstep : (('"' :: (k.data ++ ['"', ':', ' '])) ++ jser v) ++ Y =
        '"' :: (k.data ++ '"' :: ':' :: ' ' :: (jser v ++ Y)) := by simp
    rw [hstep, repl_cons_pass (by decide),
      repl_append_boundary ph_ne_nil (quote_notin_ph hn) k.data,
      repl_cons_pass (by decide), repl_cons_pass (by decide),
      repl_cons_pass (by decide), repl_jser_val hn hw v hv1 Y]
    simp
  | .cons k v (.cons k2 v2 t), hv, Y => by
    obtain ⟨hk, hv1, hrest⟩ := plainO_cons hv
    show repl (phOf n) w
        (((('"' :: (escapeStr k.data ++ ['"', ':', ' '])) ++ jser v) ++
          ',' :: ' ' :: jserObj (.cons k2 v2 t)) ++ Y) =
      ((('"' :: (escapeStr (repl (phOf n) w k.data) ++ ['"', ':', ' '])) ++
          jser (strMapV (replStr (phOf n) w) v)) ++
        ',' :: ' ' ::
          jserObj (strMapO (replStr (phOf n) w) (.cons k2 v2 t))) ++
        repl (phOf n) w Y
    rw [escapeStr_plain hk, escapeStr_plain (repl_plainStr hk hw)]
    have hstep : ((('"' :: (k.data ++ ['"', ':', ' '])) ++ jser v) ++
          ',' :: ' ' :: jserObj (.cons k2 v2 t)) ++ Y =
        '"' :: (k.data ++ '"' :: ':' :: ' ' ::
          (jser v ++ ',' :: ' ' :: (jserObj (.cons k2 v2 t) ++ Y))) := by
      simp
    rw [hstep, repl_cons_pass (by decide),
      repl_append_boundary ph_ne_nil (quote_notin_ph hn) k.data,
      repl_cons_pass (by decide), repl_cons_pass (by decide),
      repl_cons_pass (by decide), repl_jser_val hn hw v hv1,
      repl_cons_pass (by decide), repl_cons_pass (by decide),
      repl_jser_obj hn hw (.cons k2 v2 t) hrest Y]
    simp
end

/-! ## Key-freedom and preservation under the tree walk -/

mutual
/-- No occurrence of the pattern inside any (possibly nested) object key. -/
def keysFreeV (p : List Char) : JVal → Bool
  | .arr a => keysFreeA p a
  | .obj o => keysFreeO p o
  | _ => true

def keysFreeA (p : List Char) : JArr → Bool
  | .nil => true
  | .cons v t => keysFreeV p v && keysFreeA p t

def keysFreeO (p : List Char) : JObj → Bool
  | .nil => true
  | .cons k v t => noOccB p k.data && keysFreeV p v && keysFreeO p t
end

/-- Replacement is the identity on a string without an occurrence. -/
theorem replStr_noOcc {p v : List Char} {k : String}
    (h : noOccB p k.data = true) : replStr p v k = k := by
  unfold replStr
  rw [repl_noOcc (noOcc_iff.mpr h)]

theorem hasKey_strMapO (p v : List Char) : ∀ (o : JObj) (key : String),
    keysFreeO p o = true →
    JObj.hasKey (strMapO (replStr p v) o) key = JObj.hasKey o key
  | .nil, _, _ => rfl
  | .cons k x t, key, h => by
    have h' : (noOccB p k.data && keysFreeV p x && keysFreeO p t) = true := h
    simp only [Bool.and_eq_true] at h'
    show (decide (replStr p v k = key) ||
      JObj.hasKey (strMapO (replStr p v) t) key) = _
    rw [replStr_noOcc h'.1.1, hasKey_strMapO p v t key h'.2]
    rfl

mutual
/-- The tree walk preserves duplicate-freedom of object keys when no key
contains an occurrence of the placeholder. -/
theorem nodup_strMapV (p v : List Char) : ∀ (x : JVal),
    keysFreeV p x = true → nodupV x = true →
    nodupV (strMapV (replStr p v) x) = true
  | .str _, _, _ => rfl
  | .num _, _, _ => rfl
  | .bool _, _, _ => rfl
  | .null, _, _ => rfl
  | .arr a, hk, hn => nodup_strMapA p v a hk hn
  | .obj o, hk, hn => nodup_strMapO p v o hk hn

theorem nodup_strMapA (p v : List Char) : ∀ (a : JArr),
    keysFreeA p a = true → nodupA a = true →
    nodupA (strMapA (replStr p v) a) = true
  | .nil, _, _ => rfl
  | .cons x t, hk, hn => by
    have hk' : (keysFreeV p x && keysFreeA p t) = true := hk
    have hn' : (nodupV x && nodupA t) = true := hn
    simp only [Bool.and_eq_true] at hk' hn'
    show (nodupV (strMapV (replStr p v) x) &&
      nodupA (strMapA (replStr p v) t)) = true
    simp only [Bool.and_eq_true]
    exact ⟨nodup_strMapV p v x hk'.1 hn'.1, nodup_strMapA p v t hk'.2 hn'.2⟩

theorem nodup_strMapO (p v : List Char) : ∀ (o : JObj),
    keysFreeO p o = true → nodupO o = true →
    nodupO (strMapO (replStr p v) o) = true
  | .nil, _, _ => rfl
  | .cons k x t, hk, hn => by
    have hk' : (noOccB p k.data && keysFreeV p x && keysFreeO p t) = true := hk
    have hn' : (!(JObj.hasKey t k) && nodupV x && nodupO t) = true := hn
    simp only [Bool.and_eq_true] at hk' hn'
    show (!(JObj.hasKey (strMapO (replStr p v) t) (replStr p v k)) &&
      nodupV (strMapV (replStr p v) x) &&
      nodupO (strMapO (replStr p v) t)) = true
    simp only [Bool.and_eq_true]
    refine ⟨⟨?_, nodup_strMapV p v x hk'.1.2 hn'.1.2⟩,
      nodup_strMapO p v t hk'.2 hn'.2⟩
    rw [replStr_noOcc hk'.1.1, hasKey_strMapO p v t k hk'.2]
    exact hn'.1.1
end

mutual
/-- The tree walk with a plain replacement string preserves plainness. -/
theorem plain_strMapV (p : List Char) {v : List Char} (hv : PlainStr v) :
    ∀ (x : JVal), plainV x = true → plainV (strMapV (replStr p v) x) = true
  | .str s, hx => by
    have hs : PlainStr s.data := fun c hc => List.all_eq_true.mp hx c hc
    show (repl p v s.data).all plainChar = true
    exact List.all_eq_true.mpr (fun c hc => repl_plainStr hs hv c hc)
  | .num _, _ => rfl
  | .bool _, _ => rfl
  | .null, _ => rfl
  | .arr a, hx => plain_strMapA p hv a hx
  | .obj o, hx => plain_strMapO p hv o hx

theorem plain_strMapA (p : List Char) {v : List Char} (hv : PlainStr v) :
    ∀ (a : JArr), plainA a = true → plainA (strMapA (replStr p v) a) = true
  | .nil, _ => rfl
  | .cons x t, hx => by
    have hx' : (plainV x && plainA t) = true := hx
    simp only [Bool.and_eq_true] at hx'
    show (plainV (strMapV (replStr p v) x) &&
      plainA (strMapA (replStr p v) t)) = true
    simp only [Bool.and_eq_true]
    exact ⟨plain_strMapV p hv x hx'.1, plain_strMapA p hv t hx'.2⟩

theorem plain_strMapO (p : List Char) {v : List Char} (hv : PlainStr v) :
    ∀ (o : JObj), plainO o = true → plainO (strMapO (replStr p v) o) = true
  | .nil, _ => rfl
  | .cons k x t, hx => by
    have hx' : (k.data.all plainChar && plainV x && plainO t) = true := hx
    simp only [Bool.and_eq_true] at hx'
    have hpk : PlainStr k.data := fun c hc => List.all_eq_true.mp hx'.1.1 c hc
    show ((repl p v k.data).all plainChar &&
      plainV (strMapV (replStr p v) x) &&
      plainO (strMapO (replStr p v) t)) = true
    simp only [Bool.and_eq_true]
    exact ⟨⟨List.all_eq_true.mpr (fun c hc => repl_plainStr hpk hv c hc),
      plain_strMapV p hv x hx'.1.2⟩, plain_strMapO p hv t hx'.2⟩
end

mutual
/-- Keys are unchanged by the tree walk, so key-freedom for any other
pattern is preserved. -/
theorem keysFree_strMapV (p q v : List Char) : ∀ (x : JVal),
    keysFreeV p x = true → keysFreeV q x = true →
    keysFreeV q (strMapV (replStr p v) x) = true
  | .str _, _, _ => rfl
  | .num _, _, _ => rfl
  | .bool _, _, _ => rfl
  | .null, _, _ => rfl
  | .arr a, hp, hq => keysFree_strMapA p q v a hp hq
  | .obj o, hp, hq => keysFree_strMapO p q v o hp hq

theorem keysFree_strMapA (p q v : List Char) : ∀ (a : JArr),
    keysFreeA p a = true → keysFreeA q a = true →
    keysFreeA q (strMapA (replStr p v) a) = true
  | .nil, _, _ => rfl
  | .cons x t, hp, hq => by
    have hp' : (keysFreeV p x && keysFreeA p t) = true := hp
    have hq' : (keysFreeV q x && keysFreeA q t) = true := hq
    simp only [Bool.and_eq_true] at hp' hq'
    show (keysFreeV q (strMapV (replStr p v) x) &&
      keysFreeA q (strMapA (replStr p v) t)) = true
    simp only [Bool.and_eq_true]
    exact ⟨keysFree_strMapV p q v x hp'.1 hq'.1,
      keysFree_strMapA p q v t hp'.2 hq'.2⟩

theorem keysFree_strMapO (p q v : List Char) : ∀ (o : JObj),
    keysFreeO p o = true → keysFreeO q o = true →
    keysFreeO q (strMapO (replStr p v) o) = true
  | .nil, _, _ => rfl
  | .cons k x t, hp, hq => by
    have hp' : (noOccB p k.data && keysFreeV p x && keysFreeO p t) = true := hp
    have hq' : (noOccB q k.data && keysFreeV q x && keysFreeO q t) = true := hq
    simp only [Bool.and_eq_true] at hp' hq'
    show (noOccB q (replStr p v k).data &&
      keysFreeV q (strMapV (replStr p v) x) &&
      keysFreeO q (strMapO (replStr p v) t)) = true
    simp only [Bool.and_eq_true]
    rw [replStr_noOcc hp'.1.1]
    exact ⟨⟨hq'.1.1, keysFree_strMapV p q v x hp'.1.2 hq'.1.2⟩,
      keysFree_strMapO p q v t hp'.2 hq'.2⟩
end

/-! ## Refinement: text substitution equals the tree walk -/

/-- The folded text substitutions over the serialized document equal the
serialization of the tree walk. -/
theorem subst_chain : ∀ (M : List (String × String)) (w : JVal),
    plainV w = true →
    (∀ pv ∈ M, (∀ c ∈ pv.1.data, wordChar c = true) ∧ PlainStr pv.2.data) →
    M.foldl (fun s pv => repl (phOf pv.1.data) pv.2.data s) (jser w) =
      jser (apply_parameters_tree w M)
  | [], _, _, _ => rfl
  | pv :: M, w, hw, hM => by
    have h1 := (hM pv (by simp)).1
    have h2 := (hM pv (by simp)).2
    have hstep : repl (phOf pv.1.data) pv.2.data (jser w) =
        jser (strMapV (replStr (phOf pv.1.data) pv.2.data) w) := by
      have h := repl_jser_val h1 h2 w hw []
      simpa [repl_nil] using h
    show List.foldl _ (repl (phOf pv.1.data) pv.2.data (jser w)) M = _
    rw [hstep]
    exact subst_chain M (strMapV (replStr (phOf pv.1.data) pv.2.data) w)
      (plain_strMapV _ h2 w hw) (fun q hq => hM q (by simp [hq]))

theorem plain_chain : ∀ (M : List (String × String)) (w : JVal),
    plainV w = true → (∀ pv ∈ M, PlainStr pv.2.data) →
    plainV (apply_parameters_tree w M) = true
  | [], _, hw, _ => hw
  | pv :: M, w, hw, hM => by
    show plainV (apply_parameters_tree
      (strMapV (replStr (phOf pv.1.data) pv.2.data) w) M) = true
    exact plain_chain M _ (plain_strMapV _ (hM pv (by simp)) w hw)
      (fun q hq => hM q (by simp [hq]))

theorem nodup_chain : ∀ (M : List (String × String)) (w : JVal),
    nodupV w = true →
    (∀ pv ∈ M, keysFreeV (phOf pv.1.data) w = true) →
    nodupV (apply_parameters_tree w M) = true
  | [], _, hn, _ => hn
  | pv :: M, w, hn, hK => by
    show nodupV (apply_parameters_tree
      (strMapV (replStr (phOf pv.1.data) pv.2.data) w) M) = true
    exact nodup_chain M _
      (nodup_strMapV _ _ w (hK pv (by simp)) hn)
      (fun q hq => keysFree_strMapV _ _ _ w (hK pv (by simp))
        (hK q (by simp [hq])))

/-- `apply_parameters_to_workflow` computes exactly the tree walk whenever
the document is plain with duplicate-free keys, the parameter names are
word characters, the values are plain, and no key contains a placeholder
occurrence. -/
theorem applyParams_eq_tree {w : JVal} {M : List (String × String)}
    (hw : plainV w = true) (hn : nodupV w = true)
    (hM : ∀ pv ∈ M, (∀ c ∈ pv.1.data, wordChar c = true) ∧ PlainStr pv.2.data)
    (hK : ∀ pv ∈ M, keysFreeV (phOf pv.1.data) w = true) :
    apply_parameters_to_workflow w M = some (apply_parameters_tree w M) := by
  unfold apply_parameters_to_workflow
  rw [subst_chain M w hw hM]
  exact jparse_jser (plain_chain M w hw (fun q hq => (hM q hq).2))
    (nodup_chain M w hn hK)

/-! ## Lemmas about the replay and fallback loops -/

/-- One engine outcome that does not succeed: an exception or an
unsuccessful result. -/
def notSuccessful : AttemptOutcome → Prop
  | .raise _ => True
  | .result r => r.is_successful = false

instance : DecidablePred notSuccessful := fun o => by
  cases o <;> simp only [notSuccessful] <;> infer_instance

theorem fallback_loop_fail_step {engine : Nat → AttemptOutcome}
    {failed : Action} {a rem : Nat} (h : notSuccessful (engine a)) :
    fallback_loop engine failed a (rem + 1) =
      ((fallback_loop engine failed (a + 1) rem).1,
       (fallback_loop engine failed (a + 1) rem).2.1,
       (fallback_loop engine failed (a + 1) rem).2.2 + 1) := by
  cases he : engine a with
  | raise e => simp [fallback_loop, he]
  | result r =>
    have hr : r.is_successful = false := by
      rw [he] at h
      exact h
    simp [fallback_loop, he, hr]

theorem fallback_loop_exhaust {engine : Nat → AttemptOutcome}
    {failed : Action} : ∀ (rem a : Nat),
    (∀ k, a ≤ k → k < a + rem → notSuccessful (engine k)) →
    fallback_loop engine failed a rem = ([], false, rem) := by
  intro rem
  induction rem with
  | zero => intro a _; rfl
  | succ r ih =>
    intro a h
    rw [fallback_loop_fail_step (h a (by omega) (by omega))]
    rw [ih (a + 1) (fun k h1 h2 => h k (by omega) (by omega))]

theorem fallback_loop_succeed {engine : Nat → AttemptOutcome}
    {failed : Action} {r : EngineResult} : ∀ (rem a k : Nat), a ≤ k → k < a + rem →
    (∀ j, a ≤ j → j < k → notSuccessful (engine j)) →
    engine k = .result r → r.is_successful = true →
    fallback_loop engine failed a rem =
      (extract_and_mark_ai_actions r.history failed k, true, k - a + 1) := by
  intro rem
  induction rem with
  | zero => intro a k h1 h2; omega
  | succ rem ih =>
    intro a k h1 h2 hfail hk hr
    by_cases hak : a = k
    · subst hak
      show (match engine a with
        | .raise _ => _
        | .result res => _) = _
      rw [hk]
      simp only [hr, if_pos]
      simp
    · rw [fallback_loop_fail_step (by
        have := hfail a (by omega) (by omega)
        exact this)]
      rw [ih (a + 1) k (by omega) (by omega)
        (fun j hj1 hj2 => hfail j (by omega) hj2) hk hr]
      have : k - (a + 1) + 1 + 1 = k - a + 1 := by omega
      simp [this]

/-- Records and attempt count through a successful prefix of cached
actions. -/
theorem run_cached_ok_segment (env : ReplayEnv) (stepIdx : Nat) :
    ∀ (pre : List JVal) (startIdx : Nat) (rest : List JVal),
    (∀ j, j < pre.length → env.exec stepIdx (startIdx + j) = none) →
    run_cached_actions env stepIdx startIdx (pre ++ rest) =
      ((pre.map cached_ok_record) ++
        (run_cached_actions env stepIdx (startIdx + pre.length) rest).1,
       (run_cached_actions env stepIdx (startIdx + pre.length) rest).2.1,
       (run_cached_actions env stepIdx (startIdx + pre.length) rest).2.2
         + pre.length) := by
  intro pre
  induction pre with
  | nil => intro startIdx rest _; simp
  | cons a pre' ih =>
    intro startIdx rest h
    have h0 : env.exec stepIdx startIdx = none := by
      have := h 0 (by simp)
      simpa using this
    show (match env.exec stepIdx startIdx with
      | none => _
      | some e => _) = _
    rw [h0]
    have := ih (startIdx + 1) rest
      (fun j hj => by
        have := h (j + 1) (by simp; omega)
        rwa [show startIdx + (j + 1) = startIdx + 1 + j by omega] at this)
    simp only [List.cons_append, List.append_eq] at this ⊢
    rw [this]
    simp only [List.map_cons, List.cons_append, List.length_cons]
    have harith : startIdx + 1 + pre'.length = startIdx + (pre'.length + 1) := by
      omega
    rw [harith]
    simp [Nat.add_assoc]

/-- The failure step of the cached-action loop. -/
theorem run_cached_fail_head (env : ReplayEnv) (stepIdx actionIdx : Nat)
    (failData : JVal) (post : List JVal) (e : String)
    (herr : env.exec stepIdx actionIdx = some e) :
    run_cached_actions env stepIdx actionIdx (failData :: post) =
      ([cached_fail_record failData e], some (cached_fail_record failData e), 1) := by
  show (match env.exec stepIdx actionIdx with
    | none => _
    | some e => _) = _
  rw [herr]

/-- C4 (general form): when the first `pre.length` dispatches succeed and
the next raises, the recorded list is the successful records followed by
the failure record, exactly `pre.length + 1` dispatches are attempted, and
the result does not depend on the actions after the failing one. -/
theorem run_cached_abort (env : ReplayEnv) (stepIdx : Nat) (pre : List JVal)
    (failData : JVal) (post : List JVal) (e : String)
    (hok : ∀ j, j < pre.length → env.exec stepIdx j = none)
    (herr : env.exec stepIdx pre.length = some e) :
    run_cached_actions env stepIdx 0 (pre ++ failData :: post) =
      ((pre.map cached_ok_record) ++ [cached_fail_record failData e],
       some (cached_fail_record failData e), pre.length + 1) := by
  rw [run_cached_ok_segment env stepIdx pre 0 (failData :: post)
    (fun j hj => by simpa using hok j hj)]
  rw [run_cached_fail_head env stepIdx (0 + pre.length) failData post e
    (by simpa using herr)]
  simp [Nat.add_comm]

/-- Every action produced by `_extract_and_mark_ai_actions` carries the
AI-execution marks. -/
theorem extract_and_mark_spec (H : List HistoryItem) (failed : Action)
    (k : Nat) :
    ∀ a ∈ extract_and_mark_ai_actions H failed k,
      a.executed_by_ai = some true ∧
      a.fallback_reason = some ("Cached action '" ++ failed.name ++
        "' failed: " ++ pyStrOpt failed.error) ∧
      a.fallback_attempt = some (k : Int) := by
  induction H with
  | nil => simp [extract_and_mark_ai_actions]
  | cons hi rest ih =>
    intro a ha
    simp only [extract_and_mark_ai_actions] at ha
    rw [List.mem_append] at ha
    rcases ha with ha | ha
    · cases hacts : hi.actions with
      | none => rw [hacts] at ha; simp at ha
      | some acts =>
        rw [hacts] at ha
        obtain ⟨b, hb, rfl⟩ := List.mem_map.mp ha
        exact ⟨rfl, rfl, rfl⟩
    · exact ih a ha

/-- A successful replay's final result is the page text, or the address
when the text is empty. -/
theorem replay_steps_ok_final (env : ReplayEnv) :
    ∀ (steps : List JVal) (i : Nat) (hist : List HistoryItem)
      (shots : List String) (h : List HistoryItem) (s : List String)
      (r : String),
    replay_steps env i steps hist shots = .ok (h, s, r) →
    r = if env.pageText = "" then env.pageUrl else env.pageText := by
  intro steps
  induction steps with
  | nil =>
    intro i hist shots h s r heq
    simp only [replay_steps, Except.ok.injEq, Prod.mk.injEq] at heq
    exact heq.2.2.symm
  | cons step rest ih =>
    intro i hist shots h s r heq
    simp only [replay_steps] at heq
    split at heq
    · split at heq
      · exact ih _ _ _ h s r heq
      · exact absurd heq (by simp)
    · exact ih _ _ _ h s r heq

/-- **C4** — Abort on first action failure: if the first `i−1` dispatches
of a step succeed and the `i`-th raises, the recorded list at the moment
fallback triggers is exactly the `i−1` successful records followed by the
failure record (with its error text), exactly `i` dispatches are
attempted, and the actions after the `i`-th (quantified freely as `post`)
are never attempted. -/
theorem c4_abort_on_first_failure (env : ReplayEnv) (stepIdx : Nat)
    (pre : List JVal) (failData : JVal) (post : List JVal) (e : String)
    (hok : ∀ j, j < pre.length → env.exec stepIdx j = none)
    (herr : env.exec stepIdx pre.length = some e) :
    run_cached_actions env stepIdx 0 (pre ++ failData :: post) =
      ((pre.map cached_ok_record) ++ [cached_fail_record failData e],
       some (cached_fail_record failData e), pre.length + 1) ∧
    ((pre.map cached_ok_record) ++ [cached_fail_record failData e]).length =
      pre.length + 1 := by
  refine ⟨run_cached_abort env stepIdx pre failData post e hok herr, ?_⟩
  simp

/-- **C5** — Bounded fallback retries: with an agent that never succeeds
(each attempt raises or completes unsuccessfully), the orchestrator makes
exactly `MAX_AI_FALLBACK_RETRIES = 3` invocations — never more — and
returns an empty action list with `success = false`. -/
theorem c5_bounded_fallback_retries (engine : Nat → AttemptOutcome)
    (failed : Action)
    (h : ∀ k, 1 ≤ k → k ≤ MAX_AI_FALLBACK_RETRIES → notSuccessful (engine k)) :
    execute_step_with_ai_fallback engine failed =
      ([], false, MAX_AI_FALLBACK_RETRIES) := by
  unfold execute_step_with_ai_fallback
  exact fallback_loop_exhaust MAX_AI_FALLBACK_RETRIES 1
    (fun k h1 h2 => h k h1 (by unfold MAX_AI_FALLBACK_RETRIES at h2 ⊢; omega))

/-- **C7** — Provenance marking: when the cached actions of a step fail at
index `pre.length` and the agent succeeds at the (1-based) attempt `k`
(earlier attempts failing), the step's history entry is exactly the
flattened marked agent actions — the failed cached record is discarded —
and every marked action carries `executed_by_ai = true`, the fallback
reason naming the failed cached action and its error, and
`fallback_attempt = k`. -/
theorem c7_fallback_provenance (env : ReplayEnv) (i : Nat) (step : JVal)
    (rest : List JVal) (hist : List HistoryItem) (shots : List String)
    (pre : List JVal) (failData : JVal) (post : List JVal) (e : String)
    (k : Nat) (r : EngineResult)
    (hacts : step_actions_of step = pre ++ failData :: post)
    (hok : ∀ j, j < pre.length → env.exec i j = none)
    (herr : env.exec i pre.length = some e)
    (hk1 : 1 ≤ k) (hk3 : k ≤ MAX_AI_FALLBACK_RETRIES)
    (hfail : ∀ j, 1 ≤ j → j < k → notSuccessful (env.engine i j))
    (hsucc : env.engine i k = .result r) (hr : r.is_successful = true) :
    replay_steps env i (step :: rest) hist shots =
      replay_steps env (i + 1) rest
        (hist ++ [⟨some (step_description_of step),
          some (extract_and_mark_ai_actions r.history
            (cached_fail_record failData e) k)⟩])
        (shots ++ [env.shot shots.length]) ∧
    ∀ a ∈ extract_and_mark_ai_actions r.history
        (cached_fail_record failData e) k,
      a.executed_by_ai = some true ∧
      a.fallback_reason = some ("Cached action '" ++ action_name_of failData ++
        "' failed: " ++ e) ∧
      a.fallback_attempt = some (k : Int) := by
  have hrun := run_cached_abort env i pre failData post e hok herr
  have hfb : execute_step_with_ai_fallback (env.engine i)
      (cached_fail_record failData e) =
      (extract_and_mark_ai_actions r.history (cached_fail_record failData e) k,
       true, k - 1 + 1) := by
    unfold execute_step_with_ai_fallback
    exact fallback_loop_succeed MAX_AI_FALLBACK_RETRIES 1 k hk1
      (by unfold MAX_AI_FALLBACK_RETRIES at hk3 ⊢; omega) hfail hsucc hr
  constructor
  · simp only [replay_steps, hacts, hrun, hfb]
    simp
  · intro a ha
    have := extract_and_mark_spec r.history (cached_fail_record failData e) k a ha
    simpa [cached_fail_record, pyStrOpt] using this

/-- **C6** (amended) — Exhaustion recording: when all fallback attempts
for a failing step are exhausted, a failure screenshot is captured, the
step is appended to history recorded with the attempted cached actions
(the successful prefix followed by the failed one), and the fatal error
naming the step is raised; the remaining steps (`rest`, quantified freely)
are never executed. -/
theorem c6_exhaustion_records_and_aborts (env : ReplayEnv) (i : Nat)
    (step : JVal) (rest : List JVal) (hist : List HistoryItem)
    (shots : List String) (pre : List JVal) (failData : JVal)
    (post : List JVal) (e : String)
    (hacts : step_actions_of step = pre ++ failData :: post)
    (hok : ∀ j, j < pre.length → env.exec i j = none)
    (herr : env.exec i pre.length = some e)
    (hfb : ∀ k, 1 ≤ k → k ≤ MAX_AI_FALLBACK_RETRIES →
      notSuccessful (env.engine i k)) :
    replay_steps env i (step :: rest) hist shots =
      .error ("AI fallback failed for step '" ++ step_description_of step ++
          "' after all retries",
        hist ++ [⟨some (step_description_of step),
          some ((pre.map cached_ok_record) ++ [cached_fail_record failData e])⟩],
        shots ++ [env.shot shots.length]) := by
  have hrun := run_cached_abort env i pre failData post e hok herr
  have hexh : execute_step_with_ai_fallback (env.engine i)
      (cached_fail_record failData e) = ([], false, MAX_AI_FALLBACK_RETRIES) := by
    unfold execute_step_with_ai_fallback
    exact fallback_loop_exhaust MAX_AI_FALLBACK_RETRIES 1
      (fun k h1 h2 => hfb k h1 (by unfold MAX_AI_FALLBACK_RETRIES at h2 ⊢; omega))
  simp only [replay_steps, hacts, hrun, hexh]
  simp

/-- **C9** — Final result fallback: whenever the replay completes, the
final result is the page's text content, or the current page address when
the extracted text is empty. -/
theorem c9_final_result_fallback (env : ReplayEnv) (workflow : JVal)
    (h : List HistoryItem) (s : List String) (r : String)
    (hok : replay_workflow env workflow = .ok (h, s, r)) :
    r = if env.pageText = "" then env.pageUrl else env.pageText := by
  unfold replay_workflow at hok
  exact replay_steps_ok_final env _ 0 [] [] h s r hok

/-- After templating, no occurrence of the value remains in a string: the
scan replaces every match, and brace-free values cannot reconstitute
across the inserted placeholder delimiters. -/
theorem noOcc_value_after_repl {v n : List Char} (hv : v ≠ [])
    (hbv : BraceFree v) (hinf : ¬ v <:+: phOf n) :
    ∀ s, NoOcc v (repl v (phOf n) s) := by
  suffices main : ∀ N s, s.length ≤ N → NoOcc v (repl v (phOf n) s) by
    intro s
    exact main s.length s le_rfl
  intro N
  induction N with
  | zero =>
    intro s hlen
    have : s = [] := List.eq_nil_of_length_eq_zero (by omega)
    subst this
    rw [repl_nil]
    exact noOcc_nil hv
  | succ N ih =>
    intro s hlen
    rcases repl_decomp v (phOf n) hv s with ⟨hno, heq⟩ | ⟨pre, suf, hs, hpre, heq⟩
    · rw [heq]; exact hno
    · rw [heq, List.append_assoc]
      have hsuflen : suf.length ≤ N := by
        have := congrArg List.length hs
        simp only [List.length_append] at this
        have hvpos : 0 < v.length := List.length_pos.mpr hv
        omega
      refine noOcc_append ?_ (noOcc_append ?_ (ih suf hsuflen))
      · -- no match of `v` can start inside `pre`
        intro j hj hmatch
        by_cases hl : v.length ≤ pre.length - j
        · have h1 : v <+: List.drop j pre :=
            prefix_of_short hmatch (by simp [List.length_drop]; omega)
          apply hpre j (by omega)
          rw [hs, List.append_assoc,
            List.drop_append_of_le_length (le_of_lt hj)]
          exact h1.trans (List.prefix_append _ _)
        · obtain ⟨-, h2⟩ := prefix_append_split hmatch (by simp [List.length_drop]; omega)
          have hne2 : List.drop (List.drop j pre).length v ≠ [] := by
            intro hnil
            have := congrArg List.length hnil
            simp only [List.length_drop, List.length_nil] at this
            omega
          obtain ⟨c, cs, hcs⟩ := List.exists_cons_of_ne_nil hne2
          rw [hcs, phOf, List.cons_append, List.cons_prefix_cons] at h2
          have : c ∈ v := List.drop_subset _ _ (by rw [hcs]; simp)
          exact (hbv c this).1 h2.1
      · intro j hj hmatch
        exact bracefree_no_match_in_ph hbv hinf hj _ hmatch

/-! ## Canonical step/action shapes used in the builder theorems -/

def mkActionShape (nm : String) (p : JVal) (ec : String) : JVal :=
  .obj (.cons "name" (.str nm)
    (.cons "params" p
      (.cons "extracted_content" (.str ec) .nil)))

def mkStepShape (d : String) (acts : List JVal) : JVal :=
  .obj (.cons "description" (.str d)
    (.cons "actions" (.arr (listToJArr acts)) .nil))

theorem mapJArr_listToJArr (f : JVal → JVal) :
    ∀ (l : List JVal), mapJArr f (listToJArr l) = listToJArr (l.map f) := by
  intro l
  induction l with
  | nil => rfl
  | cons x t ih => simp [listToJArr, mapJArr, ih]

/-! ## Concrete instances for witnesses and counterexamples -/

def wAct0 : JVal :=
  .obj (.cons "name" (.str "navigate")
    (.cons "params" (.obj (.cons "url" (.str "https://a.example") .nil)) .nil))

def wAct1 : JVal :=
  .obj (.cons "name" (.str "click")
    (.cons "params" (.obj (.cons "xpath" (.str "//b") .nil)) .nil))

def wAct2 : JVal := .obj (.cons "name" (.str "input") .nil)

/-- A step with three actions. -/
def wStep3 : JVal :=
  .obj (.cons "description" (.str "d")
    (.cons "actions" (.arr (.cons wAct0 (.cons wAct1 (.cons wAct2 .nil)))) .nil))

/-- A step with two actions (the first succeeds, the second fails under
`wEnvFail`). -/
def wStep2 : JVal :=
  .obj (.cons "description" (.str "d")
    (.cons "actions" (.arr (.cons wAct0 (.cons wAct1 .nil))) .nil))

def wStepOther : JVal :=
  .obj (.cons "description" (.str "later step") .nil)

/-- Environment where the second action of every step raises and the
fallback engine never succeeds (attempt 2 completes unsuccessfully, the
other attempts raise). -/
def wEnvFail : ReplayEnv :=
  { exec := fun _ a => if a = 1 then some "boom" else none
    engine := fun _ k => if k = 2 then .result ⟨false, []⟩ else .raise "err"
    shot := fun _ => "shot0"
    pageText := ""
    pageUrl := "https://final.example" }

def wAgentAction : Action :=
  { name := "click"
    params := some (.obj (.cons "xpath" (.str "//c") .nil))
    is_done := some true
    success := some true }

def wAgentHistory : List HistoryItem :=
  [⟨some "ai recovers", some [wAgentAction]⟩,
   ⟨some "no actions", none⟩]

/-- Environment where the second action fails and the fallback engine
raises at attempt 1 and succeeds at attempt 2 with `wAgentHistory`. -/
def wEnvC7 : ReplayEnv :=
  { exec := fun _ a => if a = 1 then some "boom" else none
    engine := fun _ k =>
      if k = 2 then .result ⟨true, wAgentHistory⟩ else .raise "err"
    shot := fun _ => "shot0"
    pageText := "final text"
    pageUrl := "https://final.example" }

/-- A workflow document with an empty step list. -/
def wEmptyWorkflow : JVal := .obj (.cons "steps" (.arr .nil) .nil)

/-- Witness for C4: a 3-action step whose 2nd action fails records exactly
2 actions (the successful first record and the failure record) and makes
exactly 2 dispatch attempts; action 3 is never attempted. -/
theorem c4_witness :
    run_cached_actions wEnvFail 0 0 [wAct0, wAct1, wAct2] =
      (([wAct0].map cached_ok_record) ++ [cached_fail_record wAct1 "boom"],
       some (cached_fail_record wAct1 "boom"), 2) ∧
    (([wAct0].map cached_ok_record) ++ [cached_fail_record wAct1 "boom"]).length
      = 2 := by
  have h := c4_abort_on_first_failure wEnvFail 0 [wAct0] wAct1 [wAct2] "boom"
    (by decide) (by decide)
  simpa using h

/-- Witness for C5: a concrete always-failing engine makes exactly 3
attempts and the orchestrator returns `([], false)`. -/
theorem c5_witness :
    execute_step_with_ai_fallback
      (fun k => if k = 2 then .result ⟨false, []⟩ else .raise "err")
      { name := "click" } = ([], false, MAX_AI_FALLBACK_RETRIES) :=
  c5_bounded_fallback_retries _ _ (by
    intro k h1 h2
    unfold MAX_AI_FALLBACK_RETRIES at h2
    interval_cases k <;> decide)

/-- Witness for C7 at the concrete environment `wEnvC7`: the agent
succeeds at attempt 2 and the step's history entry holds exactly the
marked agent actions. -/
theorem c7_witness :
    (replay_steps wEnvC7 0 [wStep2] [] [] =
      replay_steps wEnvC7 1 []
        ([⟨some "d",
          some (extract_and_mark_ai_actions wAgentHistory
            (cached_fail_record wAct1 "boom") 2)⟩])
        (["shot0"]) ∧
    ∀ a ∈ extract_and_mark_ai_actions wAgentHistory
        (cached_fail_record wAct1 "boom") 2,
      a.executed_by_ai = some true ∧
      a.fallback_reason = some ("Cached action '" ++ action_name_of wAct1 ++
        "' failed: " ++ "boom") ∧
      a.fallback_attempt = some (2 : Int)) := by
  have h := c7_fallback_provenance wEnvC7 0 wStep2 [] [] [] [wAct0] wAct1 []
    "boom" 2 ⟨true, wAgentHistory⟩ (by decide) (by decide) (by decide)
    (by decide) (by decide)
    (by
      intro j h1 h2
      interval_cases j
      decide)
    (by decide) (by decide)
  simpa using h

/-- C6 counterexample: at exhaustion after a step whose first action had
succeeded, the recorded history entry holds the successful first record
*and* the failed record — not only the failed cached action. -/
theorem c6_counterexample :
    replay_steps wEnvFail 0 [wStep2] [] [] =
      .error ("AI fallback failed for step 'd' after all retries",
        [⟨some "d",
          some [cached_ok_record wAct0, cached_fail_record wAct1 "boom"]⟩],
        ["shot0"]) ∧
    some [cached_ok_record wAct0, cached_fail_record wAct1 "boom"] ≠
      some [cached_fail_record wAct1 "boom"] := by
  constructor
  · rfl
  · decide

/-- Witness for the amended C6 at the concrete environment `wEnvFail`,
with a pending later step that is never executed. -/
theorem c6_witness :
    replay_steps wEnvFail 0 [wStep2, wStepOther] [] [] =
      .error ("AI fallback failed for step '" ++ step_description_of wStep2 ++
          "' after all retries",
        [] ++ [⟨some (step_description_of wStep2),
          some (([wAct0].map cached_ok_record) ++
            [cached_fail_record wAct1 "boom"])⟩],
        [] ++ [wEnvFail.shot 0]) :=
  c6_exhaustion_records_and_aborts wEnvFail 0 wStep2 [wStepOther] [] []
    [wAct0] wAct1 [] "boom" (by decide) (by decide) (by decide)
    (by
      intro k h1 h2
      unfold MAX_AI_FALLBACK_RETRIES at h2
      interval_cases k <;> decide)

/-- Witness for C9: an empty-step replay under `wEnvFail` (whose page text
is empty) completes with the page address as final result. -/
theorem c9_witness :
    ("https://final.example" : String) =
      (if wEnvFail.pageText = "" then wEnvFail.pageUrl else wEnvFail.pageText) :=
  c9_final_result_fallback wEnvFail wEmptyWorkflow [] [] "https://final.example"
    (by rfl)

/-! ## C3: templater coverage -/

def c3Param : ParameterDefinition := ⟨"p", "a value", "string", "x"⟩

/-- A recorded step whose action *params* contain the example value `"x"`
strictly inside a longer string (`"axb"`). -/
def c3Step : JVal :=
  .obj (.cons "description" (.str "d")
    (.cons "actions" (.arr (.cons (.obj (.cons "name" (.str "input")
      (.cons "params" (.obj (.cons "text" (.str "axb") .nil)) .nil))) .nil))
      .nil))

/-- C3 counterexample: the templater leaves `"axb"` unchanged inside the
action's value mapping although `"x"` is an exact substring match there —
the claimed substring replacement would give `"a{{ p }}b"`. -/
theorem c3_counterexample :
    build_templated_steps [c3Param] (.cons c3Step .nil) =
      .cons (.obj (.cons "description" (.str "d")
        (.cons "actions" (.arr (.cons (.obj (.cons "name" (.str "input")
          (.cons "params" (.obj (.cons "text" (.str "axb") .nil)) .nil)))
          .nil)) .nil))) .nil ∧
    (JVal.str "axb") ≠
      .str (safe_replace "axb" c3Param.example_value
        (template_var_of c3Param.name)) := by
  constructor
  · rfl
  · decide

/-- **C3** (amended) — Templater coverage: each parameter pass (applied in
list order by `build_templated_steps`) replaces every exact substring
match of the example value with the placeholder in the step description,
the action name and the extracted content, while inside the action value
mapping a string is replaced only when it is *equal* to the example value
(nested mappings and sequences are traversed recursively).  Afterwards no
occurrence of the example value remains in the substring-templated fields
(third conjunct, for brace-free values that do not occur inside the
placeholder text). -/
theorem c3_templater_coverage (v n d nm ec : String) (p : JVal)
    (acts : List JVal) (hv : v ≠ "") (hd : d ≠ "") (hnm : nm ≠ "")
    (hec : ec ≠ "") (hp : truthy p = true) :
    template_step v (template_var_of n) (mkStepShape d acts) =
      mkStepShape (safe_replace d v (template_var_of n))
        (acts.map (template_action v (template_var_of n))) ∧
    template_action v (template_var_of n) (mkActionShape nm p ec) =
      mkActionShape (safe_replace nm v (template_var_of n))
        (replace_in_dict p v (template_var_of n))
        (safe_replace ec v (template_var_of n)) ∧
    (BraceFree v.data → ¬ v.data <:+: phOf n.data →
      ∀ s : String, NoOcc v.data (safe_replace s v (template_var_of n)).data) := by
  refine ⟨?_, ?_, ?_⟩
  · simp [template_step, mkStepShape, upd_str_field, JObj.find, JObj.set,
      hd, hv, mapJArr_listToJArr]
  · simp [template_action, mkActionShape, upd_str_field, upd_params_field,
      JObj.find, JObj.set, hnm, hec, hv, hp]
  · intro hbv hinf s
    have hphdata : (template_var_of n).data = phOf n.data := by
      simp [template_var_of, phOf, String.data]
    unfold safe_replace
    rw [if_neg hv]
    show NoOcc v.data (repl v.data (template_var_of n).data s.data)
    rw [hphdata]
    exact noOcc_value_after_repl (by simpa [String.ext_iff] using hv) hbv hinf
      s.data

/-- Witness for the amended C3 at concrete fields. -/
theorem c3_witness :
    template_step "x" (template_var_of "p") (mkStepShape "axb" []) =
      mkStepShape (safe_replace "axb" "x" (template_var_of "p")) [] ∧
    template_action "x" (template_var_of "p")
        (mkActionShape "x then x" (.obj (.cons "text" (.str "axb") .nil)) "x!") =
      mkActionShape (safe_replace "x then x" "x" (template_var_of "p"))
        (replace_in_dict (.obj (.cons "text" (.str "axb") .nil)) "x"
          (template_var_of "p"))
        (safe_replace "x!" "x" (template_var_of "p")) ∧
    (BraceFree ("x".data) → ¬ "x".data <:+: phOf ("p".data) →
      ∀ s : String, NoOcc "x".data (safe_replace s "x" (template_var_of "p")).data) := by
  have h := c3_templater_coverage "x" "p" "axb" "x then x" "x!"
    (.obj (.cons "text" (.str "axb") .nil)) [] (by decide) (by decide)
    (by decide) (by decide) (by decide)
  exact h

/-! ## Templated strings: braces occur only inside declared placeholders -/

/-- A string is templated over `names` when it is a concatenation of
brace-free characters and whole placeholders `\x7b\x7b n \x7d\x7d` with
`n ∈ names`. -/
inductive Tpl (names : List (List Char)) : List Char → Prop
  | nil : Tpl names []
  | chunk {c : Char} {s : List Char} : c ≠ '{' → c ≠ '}' → Tpl names s →
      Tpl names (c :: s)
  | ph {n : List Char} {s : List Char} : n ∈ names → Tpl names s →
      Tpl names (phOf n ++ s)

theorem tpl_chunk_append {names : List (List Char)} : ∀ (v : List Char),
    BraceFree v → ∀ {s : List Char}, Tpl names s → Tpl names (v ++ s)
  | [], _, _, h => h
  | c :: t, hv, s, h =>
    Tpl.chunk (hv c (by simp)).1 (hv c (by simp)).2
      (tpl_chunk_append t (fun x hx => hv x (by simp [hx])) h)

theorem tpl_braceFree {names : List (List Char)} {s : List Char}
    (h : Tpl names s) (hempty : ∀ m ∈ names, False) : BraceFree s := by
  induction h with
  | nil => exact fun c hc => absurd hc (by simp)
  | chunk h1 h2 _ ih =>
    intro x hx
    rcases List.mem_cons.mp hx with rfl | hx'
    · exact ⟨h1, h2⟩
    · exact ih x hx'
  | ph hmem _ _ => exact absurd (hempty _ hmem) id

/-- Substituting a brace-free value for one placeholder keeps a templated
string templated over the remaining names. -/
theorem repl_tpl {names : List (List Char)}
    (hnames : ∀ m ∈ names, ∀ c ∈ m, wordChar c = true)
    {n v : List Char} (hn : ∀ c ∈ n, wordChar c = true) (hv : BraceFree v) :
    ∀ s, Tpl names s →
    Tpl (names.filter (fun m => decide (m ≠ n))) (repl (phOf n) v s) := by
  suffices main : ∀ N s, s.length ≤ N → Tpl names s →
      Tpl (names.filter (fun m => decide (m ≠ n))) (repl (phOf n) v s) by
    intro s hs
    exact main s.length s le_rfl hs
  intro N
  induction N with
  | zero =>
    intro s hlen hs
    have hnil : s = [] := List.eq_nil_of_length_eq_zero (by omega)
    subst hnil
    rw [repl_nil]
    exact Tpl.nil
  | succ N ih =>
    intro s hlen hs
    cases hs with
    | nil =>
      rw [repl_nil]
      exact Tpl.nil
    | chunk hc1 hc2 ht =>
      next c s' =>
        have hpre : ¬ phOf n <+: c :: s' := by
          intro hp
          rw [phOf, List.cons_prefix_cons] at hp
          exact hc1 hp.1.symm
        rw [repl_cons_neg hpre]
        refine Tpl.chunk hc1 hc2 (ih s' ?_ ht)
        simp only [List.length_cons] at hlen
        omega
    | ph hmem ht =>
      next m s' =>
        have hlen' : s'.length ≤ N := by
          have := ph_length (n := m)
          simp only [List.length_append] at hlen
          omega
        by_cases hmn : m = n
        · subst hmn
          rw [repl_match ph_ne_nil]
          exact tpl_chunk_append v hv (ih s' hlen' ht)
        · rw [repl_pass (fun j hj =>
            no_ph_match_in_ph hn (hnames m hmem) (fun e => hmn e.symm) hj s')]
          exact Tpl.ph (List.mem_filter.mpr ⟨hmem, by simp [hmn]⟩)
            (ih s' hlen' ht)

/-- After substituting every covered placeholder with a brace-free value,
a templated string is brace-free. -/
theorem fold_tpl : ∀ (M : List (String × String)) (names : List (List Char)),
    (∀ m ∈ names, ∀ c ∈ m, wordChar c = true) →
    (∀ pv ∈ M, (∀ c ∈ pv.1.data, wordChar c = true) ∧ BraceFree pv.2.data) →
    (∀ m ∈ names, ∃ pv ∈ M, pv.1.data = m) →
    ∀ s, Tpl names s →
    BraceFree (M.foldl (fun x pv => repl (phOf pv.1.data) pv.2.data x) s)
  | [], names, _, _, hcov, s, hs => by
    refine tpl_braceFree hs ?_
    intro m hm
    obtain ⟨pv, hpv, -⟩ := hcov m hm
    simp at hpv
  | pv :: M, names, hw, hM, hcov, s, hs => by
    show BraceFree (M.foldl _ (repl (phOf pv.1.data) pv.2.data s))
    have h1 := (hM pv (by simp)).1
    have h2 := (hM pv (by simp)).2
    have hstep := repl_tpl hw h1 h2 s hs
    refine fold_tpl M (names.filter (fun m => decide (m ≠ pv.1.data)))
      ?_ ?_ ?_ _ hstep
    · intro m hm
      exact hw m (List.mem_filter.mp hm).1
    · intro q hq
      exact hM q (by simp [hq])
    · intro m hm
      obtain ⟨hm1, hm2⟩ := List.mem_filter.mp hm
      obtain ⟨qv, hq1, hq2⟩ := hcov m hm1
      rcases List.mem_cons.mp hq1 with rfl | hq1'
      · exact absurd hq2.symm (by simpa using hm2)
      · exact ⟨qv, hq1', hq2⟩

/-- A brace-free string has no placeholder occurrence. -/
theorem brace_noOcc {s : List Char} (h : BraceFree s) (n : List Char) :
    NoOcc (phOf n) s := by
  intro k hk
  have hinf : phOf n <:+: s := occ_sub hk
  have hmem : '{' ∈ s := hinf.subset (by simp [phOf])
  exact (h '{' hmem).1 rfl

mutual
/-- Every string field and key of the document is templated over
`names`. -/
def TplV (names : List (List Char)) : JVal → Prop
  | .str s => Tpl names s.data
  | .arr a => TplA names a
  | .obj o => TplO names o
  | _ => True

def TplA (names : List (List Char)) : JArr → Prop
  | .nil => True
  | .cons v t => TplV names v ∧ TplA names t

def TplO (names : List (List Char)) : JObj → Prop
  | .nil => True
  | .cons k v t => Tpl names k.data ∧ TplV names v ∧ TplO names t
end

mutual
/-- No occurrence of the pattern in any string field or key. -/
def noPhV (p : List Char) : JVal → Bool
  | .str s => noOccB p s.data
  | .arr a => noPhA p a
  | .obj o => noPhO p o
  | _ => true

def noPhA (p : List Char) : JArr → Bool
  | .nil => true
  | .cons v t => noPhV p v && noPhA p t

def noPhO (p : List Char) : JObj → Bool
  | .nil => true
  | .cons k v t => noOccB p k.data && noPhV p v && noPhO p t
end

mutual
theorem strMapV_comp (f g : String → String) : ∀ (x : JVal),
    strMapV f (strMapV g x) = strMapV (fun s => f (g s)) x
  | .str _ => rfl
  | .num _ => rfl
  | .bool _ => rfl
  | .null => rfl
  | .arr a => congrArg JVal.arr (strMapA_comp f g a)
  | .obj o => congrArg JVal.obj (strMapO_comp f g o)

theorem strMapA_comp (f g : String → String) : ∀ (a : JArr),
    strMapA f (strMapA g a) = strMapA (fun s => f (g s)) a
  | .nil => rfl
  | .cons v t => by
    show JArr.cons (strMapV f (strMapV g v)) (strMapA f (strMapA g t)) = _
    rw [strMapV_comp f g v, strMapA_comp f g t]
    rfl

theorem strMapO_comp (f g : String → String) : ∀ (o : JObj),
    strMapO f (strMapO g o) = strMapO (fun s => f (g s)) o
  | .nil => rfl
  | .cons k v t => by
    show JObj.cons (f (g k)) (strMapV f (strMapV g v)) (strMapO f (strMapO g t)) = _
    rw [strMapV_comp f g v, strMapO_comp f g t]
    rfl
end

mutual
theorem strMapV_id : ∀ (x : JVal), strMapV (fun s => s) x = x
  | .str _ => rfl
  | .num _ => rfl
  | .bool _ => rfl
  | .null => rfl
  | .arr a => congrArg JVal.arr (strMapA_id a)
  | .obj o => congrArg JVal.obj (strMapO_id o)

theorem strMapA_id : ∀ (a : JArr), strMapA (fun s => s) a = a
  | .nil => rfl
  | .cons v t => by
    show JArr.cons (strMapV (fun s => s) v) (strMapA (fun s => s) t) = _
    rw [strMapV_id v, strMapA_id t]

theorem strMapO_id : ∀ (o : JObj), strMapO (fun s => s) o = o
  | .nil => rfl
  | .cons k v t => by
    show JObj.cons k (strMapV (fun s => s) v) (strMapO (fun s => s) t) = _
    rw [strMapV_id v, strMapO_id t]
end

/-- The string function applied to every field by the whole parameter
fold. -/
def foldRepl (M : List (String × String)) (s : String) : String :=
  ⟨M.foldl (fun x pv => repl (phOf pv.1.data) pv.2.data x) s.data⟩

theorem apply_tree_foldRepl : ∀ (M : List (String × String)) (w : JVal),
    apply_parameters_tree w M = strMapV (foldRepl M) w
  | [], w => (strMapV_id w).symm
  | pv :: M, w => by
    show apply_parameters_tree
      (strMapV (replStr (phOf pv.1.data) pv.2.data) w) M = _
    rw [apply_tree_foldRepl M, strMapV_comp]
    rfl

mutual
/-- The instantiated document has no placeholder occurrence in any string
field or key when the declared names are covered by the mapping. -/
theorem tplV_fold_noPh {M : List (String × String)} {names : List (List Char)}
    (hw : ∀ m ∈ names, ∀ c ∈ m, wordChar c = true)
    (hM : ∀ pv ∈ M, (∀ c ∈ pv.1.data, wordChar c = true) ∧ BraceFree pv.2.data)
    (hcov : ∀ m ∈ names, ∃ pv ∈ M, pv.1.data = m) (n : List Char) :
    ∀ (x : JVal), TplV names x → noPhV (phOf n) (strMapV (foldRepl M) x) = true
  | .str s, hx => by
    show noOccB (phOf n) (foldRepl M s).data = true
    exact noOcc_iff.mp (brace_noOcc (fold_tpl M names hw hM hcov s.data hx) n)
  | .num _, _ => rfl
  | .bool _, _ => rfl
  | .null, _ => rfl
  | .arr a, hx => tplA_fold_noPh hw hM hcov n a hx
  | .obj o, hx => tplO_fold_noPh hw hM hcov n o hx

theorem tplA_fold_noPh {M : List (String × String)} {names : List (List Char)}
    (hw : ∀ m ∈ names, ∀ c ∈ m, wordChar c = true)
    (hM : ∀ pv ∈ M, (∀ c ∈ pv.1.data, wordChar c = true) ∧ BraceFree pv.2.data)
    (hcov : ∀ m ∈ names, ∃ pv ∈ M, pv.1.data = m) (n : List Char) :
    ∀ (a : JArr), TplA names a → noPhA (phOf n) (strMapA (foldRepl M) a) = true
  | .nil, _ => rfl
  | .cons v t, hx => by
    show (noPhV (phOf n) (strMapV (foldRepl M) v) &&
      noPhA (phOf n) (strMapA (foldRepl M) t)) = true
    simp only [Bool.and_eq_true]
    exact ⟨tplV_fold_noPh hw hM hcov n v hx.1, tplA_fold_noPh hw hM hcov n t hx.2⟩

theorem tplO_fold_noPh {M : List (String × String)} {names : List (List Char)}
    (hw : ∀ m ∈ names, ∀ c ∈ m, wordChar c = true)
    (hM : ∀ pv ∈ M, (∀ c ∈ pv.1.data, wordChar c = true) ∧ BraceFree pv.2.data)
    (hcov : ∀ m ∈ names, ∃ pv ∈ M, pv.1.data = m) (n : List Char) :
    ∀ (o : JObj), TplO names o → noPhO (phOf n) (strMapO (foldRepl M) o) = true
  | .nil, _ => rfl
  | .cons k v t, hx => by
    show (noOccB (phOf n) (foldRepl M k).data &&
      noPhV (phOf n) (strMapV (foldRepl M) v) &&
      noPhO (phOf n) (strMapO (foldRepl M) t)) = true
    simp only [Bool.and_eq_true]
    exact ⟨⟨noOcc_iff.mp (brace_noOcc (fold_tpl M names hw hM hcov k.data hx.1) n),
      tplV_fold_noPh hw hM hcov n v hx.2.1⟩,
      tplO_fold_noPh hw hM hcov n t hx.2.2⟩
end

/-! ## Helpers for the round-trip law (C1) -/

/-- The template variable's characters are the placeholder of the name. -/
theorem templateVar_data (n : String) :
    (template_var_of n).data = phOf n.data := by
  simp [template_var_of, phOf, String.data]

/-- Placeholders of wordy names are plain printable ASCII. -/
theorem ph_plain {n : List Char} (hn : ∀ c ∈ n, wordChar c) :
    PlainStr (phOf n) := by
  intro c hc
  rw [phOf] at hc
  rcases List.mem_cons.mp hc with rfl | hc
  · decide
  rcases List.mem_cons.mp hc with rfl | hc
  · decide
  rcases List.mem_cons.mp hc with rfl | hc
  · decide
  rcases List.mem_append.mp hc with hc | hc
  · exact wordChar_plain (hn c hc)
  rcases List.mem_cons.mp hc with rfl | hc
  · decide
  rcases List.mem_cons.mp hc with rfl | hc
  · decide
  rcases List.mem_cons.mp hc with rfl | hc
  · decide
  exact absurd hc (by simp)

/-- Placeholders of distinct wordy names do not occur in one another. -/
theorem noOcc_ph_ph {n m : List Char} (hn : ∀ c ∈ n, wordChar c)
    (hm : ∀ c ∈ m, wordChar c) (hne : n ≠ m) : NoOcc (phOf n) (phOf m) := by
  intro k hk
  by_cases hlt : k < (phOf m).length
  · have h := no_ph_match_in_ph hn hm hne hlt ([] : List Char)
    rw [List.append_nil] at h
    exact h hk
  · rw [List.drop_eq_nil_of_le (by omega)] at hk
    exact ph_ne_nil (List.prefix_nil.mp hk)

/-- Replacing a placeholder inside itself yields the value. -/
theorem repl_ph_self (n v : List Char) : repl (phOf n) v (phOf n) = v := by
  have h : repl (phOf n) v (phOf n ++ []) = v ++ repl (phOf n) v [] :=
    repl_match ph_ne_nil []
  rw [List.append_nil, repl_nil, List.append_nil] at h
  exact h

/-- Sequential placeholder substitution fixes a string without
occurrences. -/
theorem phase2_noOcc : ∀ (ps : List (List Char × List Char)) (s : List Char),
    (∀ p ∈ ps, NoOcc (phOf p.1) s) → phase2 ps s = s
  | [], _, _ => rfl
  | p :: ps, s, h => by
    show phase2 ps (repl (phOf p.1) p.2 s) = s
    rw [repl_noOcc (h p (by simp))]
    exact phase2_noOcc ps s (fun q hq => h q (by simp [hq]))

/-- Setting a key to its current value is the identity. -/
theorem JObj.set_self : ∀ (o : JObj) (k : String) (x : JVal),
    JObj.find o k = some x → JObj.set o k x = o
  | .nil, k, x, h => by simp [JObj.find] at h
  | .cons k0 v t, k, x, h => by
    have h' : (if k0 = k then some v else JObj.find t k) = some x := h
    show (if k0 = k then JObj.cons k0 x t
      else JObj.cons k0 v (JObj.set t k x)) = JObj.cons k0 v t
    by_cases hk : k0 = k
    · rw [if_pos hk] at h'
      rw [if_pos hk]
      injection h' with h2
      rw [h2]
    · rw [if_neg hk] at h'
      rw [if_neg hk, JObj.set_self t k x h']

/-! ## Structured recorded runs (schema-shaped steps) -/

/-- An action datum: name, params tree, extracted content. -/
def mkActionD (a : String × JVal × String) : JVal :=
  mkActionShape a.1 a.2.1 a.2.2

/-- A step datum: description and actions. -/
def mkStepD (s : String × List (String × JVal × String)) : JVal :=
  mkStepShape s.1 (s.2.map mkActionD)

def mkStepsD (S : List (String × List (String × JVal × String))) : JArr :=
  listToJArr (S.map mkStepD)

/-- The name/value string pairs of the parameter definitions. -/
def psOf (params : List ParameterDefinition) : List (List Char × List Char) :=
  params.map fun p => (p.name.data, p.example_value.data)

/-- `\x7bp["name"]: p["exampleValue"]\x7d` as the resolved mapping. -/
def valuesOf (params : List ParameterDefinition) : List (String × String) :=
  params.map fun p => (p.name, p.example_value)

def foldSafe (params : List ParameterDefinition) (s : String) : String :=
  params.foldl
    (fun s p => safe_replace s p.example_value (template_var_of p.name)) s

def foldRid (params : List ParameterDefinition) (x : JVal) : JVal :=
  params.foldl
    (fun x p => replace_in_dict x p.example_value (template_var_of p.name)) x

def tplActionD (v ph : String) (a : String × JVal × String) :
    String × JVal × String :=
  (safe_replace a.1 v ph, replace_in_dict a.2.1 v ph, safe_replace a.2.2 v ph)

def tplStepD (v ph : String) (s : String × List (String × JVal × String)) :
    String × List (String × JVal × String) :=
  (safe_replace s.1 v ph, s.2.map (tplActionD v ph))

def tplFold (params : List ParameterDefinition)
    (S : List (String × List (String × JVal × String))) :
    List (String × List (String × JVal × String)) :=
  params.foldl
    (fun S p => S.map (tplStepD p.example_value (template_var_of p.name))) S

/-! ## Shape commutation of the templater -/

theorem replace_in_dict_falsy {p : JVal} (hp : truthy p = false) {v : String}
    (hv : v ≠ "") (ph : String) : replace_in_dict p v ph = p := by
  cases p with
  | str s =>
    have hs : s = "" := by simpa [truthy] using hp
    subst hs
    show (if ("" : String) = v then JVal.str ph else .str "") = .str ""
    rw [if_neg (fun e => hv e.symm)]
  | num n => rfl
  | bool b => rfl
  | null => rfl
  | arr a =>
    cases a with
    | nil => rfl
    | cons x t => simp [truthy] at hp
  | obj o =>
    cases o with
    | nil => rfl
    | cons k x t => simp [truthy] at hp

theorem upd_str_field_set {o : JObj} {key : String} {s : String}
    (hfind : JObj.find o key = some (.str s)) {v : String} (hv : v ≠ "")
    (ph : String) :
    upd_str_field o key v ph = o.set key (.str (safe_replace s v ph)) := by
  unfold upd_str_field
  rw [hfind]
  show (if s ≠ "" ∧ v ≠ "" then o.set key (.str (safe_replace s v ph)) else o) = _
  by_cases hs : s = ""
  · rw [if_neg (fun h => h.1 hs)]
    subst hs
    have hsr : safe_replace "" v ph = "" := by
      unfold safe_replace
      rw [if_neg hv]
      show String.mk (repl v.data ph.data []) = ""
      rw [repl_nil]
    rw [hsr]
    exact (JObj.set_self o key (.str "") hfind).symm
  · rw [if_pos ⟨hs, hv⟩]

theorem upd_params_field_set {o : JObj} {p : JVal}
    (hfind : JObj.find o "params" = some p) {v : String} (hv : v ≠ "")
    (ph : String) :
    upd_params_field o v ph = o.set "params" (replace_in_dict p v ph) := by
  unfold upd_params_field
  rw [hfind]
  show (if truthy p then o.set "params" (replace_in_dict p v ph) else o) = _
  by_cases ht : truthy p
  · rw [if_pos ht]
  · have hf : truthy p = false := by simpa using ht
    rw [if_neg ht, replace_in_dict_falsy hf hv]
    exact (JObj.set_self o "params" p hfind).symm

theorem template_action_shape {v : String} (hv : v ≠ "") (ph nm ec : String)
    (p : JVal) :
    template_action v ph (mkActionShape nm p ec) =
      mkActionShape (safe_replace nm v ph) (replace_in_dict p v ph)
        (safe_replace ec v ph) := by
  have e1 : upd_str_field (.cons "name" (.str nm) (.cons "params" p
      (.cons "extracted_content" (.str ec) .nil))) "name" v ph =
      .cons "name" (.str (safe_replace nm v ph)) (.cons "params" p
        (.cons "extracted_content" (.str ec) .nil)) := by
    rw [@upd_str_field_set (.cons "name" (.str nm) (.cons "params" p
      (.cons "extracted_content" (.str ec) .nil))) "name" nm rfl v hv ph]
    rfl
  have e2 : upd_params_field (.cons "name" (.str (safe_replace nm v ph))
      (.cons "params" p (.cons "extracted_content" (.str ec) .nil))) v ph =
      .cons "name" (.str (safe_replace nm v ph))
        (.cons "params" (replace_in_dict p v ph)
          (.cons "extracted_content" (.str ec) .nil)) := by
    rw [@upd_params_field_set (.cons "name" (.str (safe_replace nm v ph))
      (.cons "params" p (.cons "extracted_content" (.str ec) .nil))) p rfl
      v hv ph]
    rfl
  have e3 : upd_str_field (.cons "name" (.str (safe_replace nm v ph))
      (.cons "params" (replace_in_dict p v ph)
        (.cons "extracted_content" (.str ec) .nil)))
      "extracted_content" v ph =
      .cons "name" (.str (safe_replace nm v ph))
        (.cons "params" (replace_in_dict p v ph)
          (.cons "extracted_content" (.str (safe_replace ec v ph)) .nil)) := by
    rw [@upd_str_field_set (.cons "name" (.str (safe_replace nm v ph))
      (.cons "params" (replace_in_dict p v ph)
        (.cons "extracted_content" (.str ec) .nil))) "extracted_content" ec
      rfl v hv ph]
    rfl
  show JVal.obj (upd_str_field (upd_params_field (upd_str_field
    (.cons "name" (.str nm) (.cons "params" p
      (.cons "extracted_content" (.str ec) .nil))) "name" v ph) v ph)
    "extracted_content" v ph) = _
  rw [e1, e2, e3]
  rfl

theorem template_step_shape {v : String} (hv : v ≠ "") (ph d : String)
    (acts : List JVal) :
    template_step v ph (mkStepShape d acts) =
      mkStepShape (safe_replace d v ph) (acts.map (template_action v ph)) := by
  have e1 : upd_str_field (.cons "description" (.str d)
      (.cons "actions" (.arr (listToJArr acts)) .nil)) "description" v ph =
      .cons "description" (.str (safe_replace d v ph))
        (.cons "actions" (.arr (listToJArr acts)) .nil) := by
    rw [@upd_str_field_set (.cons "description" (.str d)
      (.cons "actions" (.arr (listToJArr acts)) .nil)) "description" d
      rfl v hv ph]
    rfl
  show (match upd_str_field (.cons "description" (.str d)
      (.cons "actions" (.arr (listToJArr acts)) .nil)) "description" v ph
      |>.find "actions" with
    | some (.arr a) =>
      JVal.obj ((upd_str_field (.cons "description" (.str d)
        (.cons "actions" (.arr (listToJArr acts)) .nil)) "description" v ph).set
        "actions" (.arr (mapJArr (template_action v ph) a)))
    | _ => JVal.obj (upd_str_field (.cons "description" (.str d)
        (.cons "actions" (.arr (listToJArr acts)) .nil)) "description" v ph)) = _
  rw [e1]
  show JVal.obj ((JObj.cons "description" (.str (safe_replace d v ph))
    (.cons "actions" (.arr (listToJArr acts)) .nil)).set "actions"
    (.arr (mapJArr (template_action v ph) (listToJArr acts)))) = _
  rw [mapJArr_listToJArr]
  rfl

theorem clean_action_shape (nm : String) (p : JVal) (ec : String) :
    clean_action (mkActionShape nm p ec) = mkActionShape nm p ec := by
  simp [clean_action, mkActionShape, JObj.erase]

theorem clean_step_shape (d : String) (acts : List JVal) :
    clean_step (mkStepShape d acts) = mkStepShape d (acts.map clean_action) := by
  simp [clean_step, mkStepShape, JObj.erase, JObj.find, JObj.set,
    mapJArr_listToJArr]

theorem clean_stepsD (S : List (String × List (String × JVal × String))) :
    mapJArr clean_step (mkStepsD S) = mkStepsD S := by
  unfold mkStepsD
  rw [mapJArr_listToJArr, List.map_map]
  refine congrArg listToJArr (List.map_congr_left ?_)
  intro st _
  show clean_step (mkStepD st) = mkStepD st
  unfold mkStepD
  rw [clean_step_shape, List.map_map]
  refine congrArg (mkStepShape st.1) (List.map_congr_left ?_)
  intro a _
  show clean_action (mkActionD a) = mkActionD a
  exact clean_action_shape a.1 a.2.1 a.2.2

theorem template_step_D {v : String} (hv : v ≠ "") (ph : String)
    (st : String × List (String × JVal × String)) :
    template_step v ph (mkStepD st) = mkStepD (tplStepD v ph st) := by
  unfold mkStepD tplStepD
  rw [template_step_shape hv, List.map_map]
  show mkStepShape (safe_replace st.1 v ph)
    (st.2.map (fun a => template_action v ph (mkActionD a))) = _
  rw [List.map_map]
  refine congrArg (mkStepShape (safe_replace st.1 v ph))
    (List.map_congr_left ?_)
  intro a _
  show template_action v ph (mkActionD a) = mkActionD (tplActionD v ph a)
  exact template_action_shape hv ph a.1 a.2.2 a.2.1

theorem build_steps_D (params : List ParameterDefinition)
    (hv : ∀ p ∈ params, p.example_value ≠ "")
    (S : List (String × List (String × JVal × String))) :
    build_templated_steps params (mkStepsD S) = mkStepsD (tplFold params S) := by
  unfold build_templated_steps tplFold
  rw [clean_stepsD]
  induction params generalizing S with
  | nil => rfl
  | cons p params ih =>
    show List.foldl _ (mapJArr (template_step p.example_value
      (template_var_of p.name)) (mkStepsD S)) params = _
    have hmap : mapJArr (template_step p.example_value
        (template_var_of p.name)) (mkStepsD S) =
        mkStepsD (S.map (tplStepD p.example_value (template_var_of p.name))) := by
      unfold mkStepsD
      rw [mapJArr_listToJArr, List.map_map, List.map_map]
      refine congrArg listToJArr (List.map_congr_left ?_)
      intro st _
      exact template_step_D (hv p (by simp)) (template_var_of p.name) st
    rw [hmap]
    exact ih (fun q hq => hv q (by simp [hq])) _

theorem map_eta3 : ∀ (l : List (String × JVal × String)),
    l.map (fun a => ((a.1 : String), (a.2.1 : JVal), (a.2.2 : String))) = l
  | [] => rfl
  | a :: t => by rw [List.map_cons, map_eta3 t]

/-- The parameter fold acts on each datum componentwise. -/
theorem tplFold_pointwise (params : List ParameterDefinition) :
    ∀ S, tplFold params S =
      S.map (fun st => (foldSafe params st.1,
        st.2.map (fun a => (foldSafe params a.1, foldRid params a.2.1,
          foldSafe params a.2.2)))) := by
  induction params with
  | nil =>
    intro S
    have key : ∀ st ∈ S, (foldSafe [] st.1, st.2.map (fun a =>
        (foldSafe [] a.1, foldRid [] a.2.1, foldSafe [] a.2.2))) = st := by
      intro st _
      show ((st.1 : String), st.2.map (fun a => ((a.1 : String),
        (a.2.1 : JVal), (a.2.2 : String)))) = st
      rw [map_eta3]
    symm
    rw [List.map_congr_left key]
    exact List.map_id S
  | cons p params ih =>
    intro S
    show tplFold params (S.map (tplStepD p.example_value
      (template_var_of p.name))) = _
    rw [ih, List.map_map]
    refine List.map_congr_left ?_
    intro st _
    show (foldSafe params (safe_replace st.1 p.example_value
        (template_var_of p.name)),
      (st.2.map (tplActionD p.example_value (template_var_of p.name))).map
        (fun a => (foldSafe params a.1, foldRid params a.2.1,
          foldSafe params a.2.2))) = _
    rw [List.map_map]
    rfl

/-! ## Instantiation-side folds -/

theorem foldRepl_phase2 (params : List ParameterDefinition) (s : String) :
    foldRepl (valuesOf params) s = ⟨phase2 (psOf params) s.data⟩ := by
  unfold foldRepl phase2 valuesOf psOf
  rw [List.foldl_map, List.foldl_map]

theorem foldSafe_phase1 (params : List ParameterDefinition)
    (hv : ∀ p ∈ params, p.example_value ≠ "") :
    ∀ s : String, foldSafe params s = ⟨phase1 (psOf params) s.data⟩ := by
  induction params with
  | nil => intro s; rfl
  | cons p params ih =>
    intro s
    show foldSafe params (safe_replace s p.example_value
      (template_var_of p.name)) = _
    have hsr : safe_replace s p.example_value (template_var_of p.name) =
        ⟨repl p.example_value.data (phOf p.name.data) s.data⟩ := by
      unfold safe_replace
      rw [if_neg (hv p (by simp)), templateVar_data]
    rw [hsr, ih (fun q hq => hv q (by simp [hq]))]
    rfl

theorem foldRepl_id {params : List ParameterDefinition} {s : String}
    (h : ∀ p ∈ params, NoOcc (phOf p.name.data) s.data) :
    foldRepl (valuesOf params) s = s := by
  rw [foldRepl_phase2]
  rw [phase2_noOcc (psOf params) s.data (by
    intro q hq
    obtain ⟨p, hp, rfl⟩ := List.mem_map.mp hq
    exact h p hp)]

theorem foldRepl_braceFree (params : List ParameterDefinition) {s : String}
    (h : BraceFree s.data) : foldRepl (valuesOf params) s = s :=
  foldRepl_id (fun _ _ => brace_noOcc h _)

/-- Substituting the example values by placeholders and then every
placeholder back by its value restores the string. -/
theorem foldRepl_roundtrip {params : List ParameterDefinition}
    (hg : GoodParams (psOf params))
    (hv : ∀ p ∈ params, p.example_value ≠ "") {s : String}
    (h : ∀ p ∈ params, NoOcc (phOf p.name.data) s.data) :
    foldRepl (valuesOf params) (foldSafe params s) = s := by
  rw [foldSafe_phase1 params hv, foldRepl_phase2]
  show String.mk (phase2 (psOf params) (phase1 (psOf params) s.data)) = s
  rw [phase_roundtrip hg s.data (by
    intro q hq
    obtain ⟨p, hp, rfl⟩ := List.mem_map.mp hq
    exact h p hp)]

/-! ## Exact-match replacement chains (the `params` mapping) -/

/-- The whole-string replacement chain on one string value. -/
def eChain (params : List ParameterDefinition) (s : String) : String :=
  params.foldl
    (fun s p => if s = p.example_value then template_var_of p.name else s) s

theorem rid_str (s v ph : String) :
    replace_in_dict (.str s) v ph = .str (if s = v then ph else s) := by
  by_cases h : s = v <;> simp [replace_in_dict, h]

def foldRidA (params : List ParameterDefinition) (a : JArr) : JArr :=
  params.foldl
    (fun a p => replace_in_dict_arr a p.example_value (template_var_of p.name)) a

def foldRidO (params : List ParameterDefinition) (o : JObj) : JObj :=
  params.foldl
    (fun o p => replace_in_dict_obj o p.example_value (template_var_of p.name)) o

theorem foldRid_str (params : List ParameterDefinition) :
    ∀ s : String, foldRid params (.str s) = .str (eChain params s) := by
  induction params with
  | nil => intro s; rfl
  | cons p params ih =>
    intro s
    show foldRid params (replace_in_dict (.str s) p.example_value
      (template_var_of p.name)) = _
    rw [rid_str]
    exact ih _

theorem foldRid_num (params : List ParameterDefinition) (i : Int) :
    foldRid params (.num i) = .num i := by
  induction params with
  | nil => rfl
  | cons p params ih => exact ih

theorem foldRid_bool (params : List ParameterDefinition) (b : Bool) :
    foldRid params (.bool b) = .bool b := by
  induction params with
  | nil => rfl
  | cons p params ih => exact ih

theorem foldRid_null (params : List ParameterDefinition) :
    foldRid params .null = .null := by
  induction params with
  | nil => rfl
  | cons p params ih => exact ih

theorem foldRid_arr (params : List ParameterDefinition) :
    ∀ a : JArr, foldRid params (.arr a) = .arr (foldRidA params a) := by
  induction params with
  | nil => intro a; rfl
  | cons p params ih => intro a; exact ih _

theorem foldRid_obj (params : List ParameterDefinition) :
    ∀ o : JObj, foldRid params (.obj o) = .obj (foldRidO params o) := by
  induction params with
  | nil => intro o; rfl
  | cons p params ih => intro o; exact ih _

theorem foldRidA_nil (params : List ParameterDefinition) :
    foldRidA params .nil = .nil := by
  induction params with
  | nil => rfl
  | cons p params ih => exact ih

theorem foldRidA_cons (params : List ParameterDefinition) :
    ∀ (v : JVal) (t : JArr), foldRidA params (.cons v t) =
      .cons (foldRid params v) (foldRidA params t) := by
  induction params with
  | nil => intro v t; rfl
  | cons p params ih => intro v t; exact ih _ _

theorem foldRidO_nil (params : List ParameterDefinition) :
    foldRidO params .nil = .nil := by
  induction params with
  | nil => rfl
  | cons p params ih => exact ih

theorem foldRidO_cons (params : List ParameterDefinition) :
    ∀ (k : String) (v : JVal) (t : JObj), foldRidO params (.cons k v t) =
      .cons k (foldRid params v) (foldRidO params t) := by
  induction params with
  | nil => intro k v t; rfl
  | cons p params ih => intro k v t; exact ih _ _ _

/-- A string different from every example value passes through the chain. -/
theorem eChain_fixed : ∀ (params : List ParameterDefinition) (x : String),
    (∀ p ∈ params, x ≠ p.example_value) → eChain params x = x
  | [], _, _ => rfl
  | p :: params, x, h => by
    show eChain params (if x = p.example_value then _ else x) = x
    rw [if_neg (h p (by simp))]
    exact eChain_fixed params x (fun q hq => h q (by simp [hq]))

/-- The chain result is the original string or one template variable. -/
theorem eChain_cases : ∀ (params : List ParameterDefinition) (s : String),
    eChain params s = s ∨
      ∃ p ∈ params, eChain params s = template_var_of p.name
  | [], _ => Or.inl rfl
  | p :: params, s => by
    have hunf : eChain (p :: params) s =
        eChain params (if s = p.example_value then template_var_of p.name
          else s) := rfl
    by_cases hs : s = p.example_value
    · rw [if_pos hs] at hunf
      rcases eChain_cases params (template_var_of p.name) with h | ⟨q, hq, h⟩
      · exact Or.inr ⟨p, by simp, hunf.trans h⟩
      · exact Or.inr ⟨q, by simp [hq], hunf.trans h⟩
    · rw [if_neg hs] at hunf
      rcases eChain_cases params s with h | ⟨q, hq, h⟩
      · exact Or.inl (hunf.trans h)
      · exact Or.inr ⟨q, by simp [hq], hunf.trans h⟩

/-- A template variable is never an example value (values are
brace-free). -/
theorem templateVar_ne_value {q : ParameterDefinition}
    (hbf : BraceFree q.example_value.data) (n : String) :
    template_var_of n ≠ q.example_value := by
  intro h
  have hd : (template_var_of n).data = q.example_value.data := by rw [h]
  rw [templateVar_data] at hd
  have : '{' ∈ q.example_value.data := by
    rw [← hd]
    simp [phOf]
  exact (hbf '{' this).1 rfl

/-- Undoing the whole-string replacement chain by sequential placeholder
substitution. -/
theorem eChain_roundtrip : ∀ (params : List ParameterDefinition),
    (∀ p ∈ params, ∀ c ∈ p.name.data, wordChar c) →
    (∀ p ∈ params, BraceFree p.example_value.data) →
    List.Pairwise (fun p q => p.name.data ≠ q.name.data) params →
    ∀ s : String, (∀ p ∈ params, NoOcc (phOf p.name.data) s.data) →
    foldRepl (valuesOf params) (eChain params s) = s
  | [], _, _, _, s, _ => rfl
  | p :: params, hw, hbf, hdist, s, hno => by
    have hstep : ∀ x : String, foldRepl (valuesOf (p :: params)) x =
        foldRepl (valuesOf params)
          ⟨repl (phOf p.name.data) p.example_value.data x.data⟩ :=
      fun x => rfl
    by_cases hs : s = p.example_value
    · have hE : eChain (p :: params) s = template_var_of p.name := by
        show eChain params (if s = p.example_value then _ else s) = _
        rw [if_pos hs]
        exact eChain_fixed params _ (fun q hq =>
          templateVar_ne_value (hbf q (by simp [hq])) p.name)
      rw [hE, hstep, templateVar_data, repl_ph_self]
      have hplain : foldRepl (valuesOf params)
          ⟨p.example_value.data⟩ = ⟨p.example_value.data⟩ :=
        foldRepl_braceFree params (hbf p (by simp))
      rw [hplain, hs]
    · have hE : eChain (p :: params) s = eChain params s := by
        show eChain params (if s = p.example_value then _ else s) = _
        rw [if_neg hs]
      rw [hE, hstep]
      have hno1 : NoOcc (phOf p.name.data) (eChain params s).data := by
        rcases eChain_cases params s with h | ⟨q, hq, h⟩
        · rw [h]
          exact hno p (by simp)
        · rw [h, templateVar_data]
          exact noOcc_ph_ph (hw p (by simp)) (hw q (by simp [hq]))
            ((List.pairwise_cons.mp hdist).1 q hq)
      rw [repl_noOcc hno1]
      have he : (⟨(eChain params s).data⟩ : String) = eChain params s := rfl
      rw [he]
      exact eChain_roundtrip params (fun q hq => hw q (by simp [hq]))
        (fun q hq => hbf q (by simp [hq])) (List.pairwise_cons.mp hdist).2
        s (fun q hq => hno q (by simp [hq]))

/-! ## GoodParams projections onto parameter definitions -/

theorem good_names {params : List ParameterDefinition}
    (hg : GoodParams (psOf params)) :
    ∀ p ∈ params, ∀ c ∈ p.name.data, wordChar c :=
  fun p hp =>
    (hg.1 (p.name.data, p.example_value.data)
      (List.mem_map.mpr ⟨p, hp, rfl⟩)).2

theorem good_values_ne {params : List ParameterDefinition}
    (hg : GoodParams (psOf params)) : ∀ p ∈ params, p.example_value ≠ "" := by
  intro p hp h
  exact hg.2.1 (p.name.data, p.example_value.data)
    (List.mem_map.mpr ⟨p, hp, rfl⟩) (congrArg String.data h)

theorem good_values_bf {params : List ParameterDefinition}
    (hg : GoodParams (psOf params)) :
    ∀ p ∈ params, BraceFree p.example_value.data :=
  fun p hp => hg.2.2.1 (p.name.data, p.example_value.data)
    (List.mem_map.mpr ⟨p, hp, rfl⟩)

theorem good_names_dist {params : List ParameterDefinition}
    (hg : GoodParams (psOf params)) :
    List.Pairwise (fun p q : ParameterDefinition =>
      p.name.data ≠ q.name.data) params := by
  have h := hg.2.2.2.1
  unfold psOf at h
  rw [List.pairwise_map] at h
  exact h

/-! ## Round trip of the `params` mapping chain -/

mutual
/-- Instantiation undoes the whole-string value→placeholder chain on every
string field of a `params` tree. -/
theorem rid_roundtrip_V {params : List ParameterDefinition}
    (hw : ∀ p ∈ params, ∀ c ∈ p.name.data, wordChar c)
    (hbf : ∀ p ∈ params, BraceFree p.example_value.data)
    (hdist : List.Pairwise (fun p q : ParameterDefinition =>
      p.name.data ≠ q.name.data) params) :
    ∀ x : JVal, (∀ p ∈ params, noPhV (phOf p.name.data) x = true) →
    strMapV (foldRepl (valuesOf params)) (foldRid params x) = x
  | .str s, hno => by
    rw [foldRid_str]
    show JVal.str (foldRepl (valuesOf params) (eChain params s)) = .str s
    rw [eChain_roundtrip params hw hbf hdist s (fun p hp =>
      noOcc_iff.mpr (hno p hp))]
  | .num i, _ => by rw [foldRid_num]; rfl
  | .bool b, _ => by rw [foldRid_bool]; rfl
  | .null, _ => by rw [foldRid_null]; rfl
  | .arr a, hno => by
    rw [foldRid_arr]
    show JVal.arr (strMapA (foldRepl (valuesOf params)) (foldRidA params a)) =
      .arr a
    rw [rid_roundtrip_A hw hbf hdist a hno]
  | .obj o, hno => by
    rw [foldRid_obj]
    show JVal.obj (strMapO (foldRepl (valuesOf params)) (foldRidO params o)) =
      .obj o
    rw [rid_roundtrip_O hw hbf hdist o hno]

theorem rid_roundtrip_A {params : List ParameterDefinition}
    (hw : ∀ p ∈ params, ∀ c ∈ p.name.data, wordChar c)
    (hbf : ∀ p ∈ params, BraceFree p.example_value.data)
    (hdist : List.Pairwise (fun p q : ParameterDefinition =>
      p.name.data ≠ q.name.data) params) :
    ∀ a : JArr, (∀ p ∈ params, noPhA (phOf p.name.data) a = true) →
    strMapA (foldRepl (valuesOf params)) (foldRidA params a) = a
  | .nil, _ => by rw [foldRidA_nil]; rfl
  | .cons v t, hno => by
    rw [foldRidA_cons]
    show JArr.cons (strMapV (foldRepl (valuesOf params)) (foldRid params v))
      (strMapA (foldRepl (valuesOf params)) (foldRidA params t)) = .cons v t
    have h1 : ∀ p ∈ params, noPhV (phOf p.name.data) v = true := by
      intro p hp
      have h' : (noPhV (phOf p.name.data) v &&
        noPhA (phOf p.name.data) t) = true := hno p hp
      simp only [Bool.and_eq_true] at h'
      exact h'.1
    have h2 : ∀ p ∈ params, noPhA (phOf p.name.data) t = true := by
      intro p hp
      have h' : (noPhV (phOf p.name.data) v &&
        noPhA (phOf p.name.data) t) = true := hno p hp
      simp only [Bool.and_eq_true] at h'
      exact h'.2
    rw [rid_roundtrip_V hw hbf hdist v h1, rid_roundtrip_A hw hbf hdist t h2]

theorem rid_roundtrip_O {params : List ParameterDefinition}
    (hw : ∀ p ∈ params, ∀ c ∈ p.name.data, wordChar c)
    (hbf : ∀ p ∈ params, BraceFree p.example_value.data)
    (hdist : List.Pairwise (fun p q : ParameterDefinition =>
      p.name.data ≠ q.name.data) params) :
    ∀ o : JObj, (∀ p ∈ params, noPhO (phOf p.name.data) o = true) →
    strMapO (foldRepl (valuesOf params)) (foldRidO params o) = o
  | .nil, _ => by rw [foldRidO_nil]; rfl
  | .cons k v t, hno => by
    rw [foldRidO_cons]
    show JObj.cons (foldRepl (valuesOf params) k)
      (strMapV (foldRepl (valuesOf params)) (foldRid params v))
      (strMapO (foldRepl (valuesOf params)) (foldRidO params t)) = .cons k v t
    have hx : ∀ p ∈ params, noOccB (phOf p.name.data) k.data = true ∧
        noPhV (phOf p.name.data) v = true ∧
        noPhO (phOf p.name.data) t = true := by
      intro p hp
      have h' : (noOccB (phOf p.name.data) k.data &&
        noPhV (phOf p.name.data) v && noPhO (phOf p.name.data) t) = true :=
        hno p hp
      simp only [Bool.and_eq_true] at h'
      exact ⟨h'.1.1, h'.1.2, h'.2⟩
    have hk : ∀ p ∈ params, NoOcc (phOf p.name.data) k.data := fun p hp =>
      noOcc_iff.mpr (hx p hp).1
    rw [foldRepl_id hk,
      rid_roundtrip_V hw hbf hdist v (fun p hp => (hx p hp).2.1),
      rid_roundtrip_O hw hbf hdist t (fun p hp => (hx p hp).2.2)]
end

/-! ## Shape invariants of the `params` chain -/

theorem hasKey_foldRidO (params : List ParameterDefinition) :
    ∀ (o : JObj) (key : String),
    JObj.hasKey (foldRidO params o) key = JObj.hasKey o key
  | .nil, key => by rw [foldRidO_nil]
  | .cons k v t, key => by
    rw [foldRidO_cons]
    show (decide (k = key) || JObj.hasKey (foldRidO params t) key) = _
    rw [hasKey_foldRidO params t key]
    rfl

mutual
theorem plain_foldRid_V {params : List ParameterDefinition}
    (hw : ∀ p ∈ params, ∀ c ∈ p.name.data, wordChar c) :
    ∀ x : JVal, plainV x = true → plainV (foldRid params x) = true
  | .str s, hx => by
    rw [foldRid_str]
    show (eChain params s).data.all plainChar = true
    rcases eChain_cases params s with h | ⟨q, hq, h⟩
    · rw [h]
      exact hx
    · rw [h, templateVar_data]
      exact List.all_eq_true.mpr (fun c hc => ph_plain (hw q hq) c hc)
  | .num i, _ => by rw [foldRid_num]; rfl
  | .bool b, _ => by rw [foldRid_bool]; rfl
  | .null, _ => by rw [foldRid_null]; rfl
  | .arr a, hx => by
    rw [foldRid_arr]
    exact plain_foldRid_A hw a hx
  | .obj o, hx => by
    rw [foldRid_obj]
    exact plain_foldRid_O hw o hx

theorem plain_foldRid_A {params : List ParameterDefinition}
    (hw : ∀ p ∈ params, ∀ c ∈ p.name.data, wordChar c) :
    ∀ a : JArr, plainA a = true → plainA (foldRidA params a) = true
  | .nil, _ => by rw [foldRidA_nil]; rfl
  | .cons v t, hx => by
    rw [foldRidA_cons]
    have hx' : (plainV v && plainA t) = true := hx
    simp only [Bool.and_eq_true] at hx'
    show (plainV (foldRid params v) && plainA (foldRidA params t)) = true
    simp only [Bool.and_eq_true]
    exact ⟨plain_foldRid_V hw v hx'.1, plain_foldRid_A hw t hx'.2⟩

theorem plain_foldRid_O {params : List ParameterDefinition}
    (hw : ∀ p ∈ params, ∀ c ∈ p.name.data, wordChar c) :
    ∀ o : JObj, plainO o = true → plainO (foldRidO params o) = true
  | .nil, _ => by rw [foldRidO_nil]; rfl
  | .cons k v t, hx => by
    rw [foldRidO_cons]
    have hx' : (k.data.all plainChar && plainV v && plainO t) = true := hx
    simp only [Bool.and_eq_true] at hx'
    show (k.data.all plainChar && plainV (foldRid params v) &&
      plainO (foldRidO params t)) = true
    simp only [Bool.and_eq_true]
    exact ⟨⟨hx'.1.1, plain_foldRid_V hw v hx'.1.2⟩,
      plain_foldRid_O hw t hx'.2⟩
end

mutual
theorem nodup_foldRid_V (params : List ParameterDefinition) :
    ∀ x : JVal, nodupV (foldRid params x) = nodupV x
  | .str s => by rw [foldRid_str]; rfl
  | .num i => by rw [foldRid_num]
  | .bool b => by rw [foldRid_bool]
  | .null => by rw [foldRid_null]
  | .arr a => by
    rw [foldRid_arr]
    exact nodup_foldRid_A params a
  | .obj o => by
    rw [foldRid_obj]
    exact nodup_foldRid_O params o

theorem nodup_foldRid_A (params : List ParameterDefinition) :
    ∀ a : JArr, nodupA (foldRidA params a) = nodupA a
  | .nil => by rw [foldRidA_nil]
  | .cons v t => by
    rw [foldRidA_cons]
    show (nodupV (foldRid params v) && nodupA (foldRidA params t)) = _
    rw [nodup_foldRid_V params v, nodup_foldRid_A params t]
    rfl

theorem nodup_foldRid_O (params : List ParameterDefinition) :
    ∀ o : JObj, nodupO (foldRidO params o) = nodupO o
  | .nil => by rw [foldRidO_nil]
  | .cons k v t => by
    rw [foldRidO_cons]
    show (!(JObj.hasKey (foldRidO params t) k) && nodupV (foldRid params v) &&
      nodupO (foldRidO params t)) = _
    rw [hasKey_foldRidO params t k, nodup_foldRid_V params v,
      nodup_foldRid_O params t]
    rfl
end

mutual
theorem keysFree_foldRid_V (params : List ParameterDefinition)
    (P : List Char) :
    ∀ x : JVal, keysFreeV P (foldRid params x) = keysFreeV P x
  | .str s => by rw [foldRid_str]; rfl
  | .num i => by rw [foldRid_num]
  | .bool b => by rw [foldRid_bool]
  | .null => by rw [foldRid_null]
  | .arr a => by
    rw [foldRid_arr]
    exact keysFree_foldRid_A params P a
  | .obj o => by
    rw [foldRid_obj]
    exact keysFree_foldRid_O params P o

theorem keysFree_foldRid_A (params : List ParameterDefinition)
    (P : List Char) :
    ∀ a : JArr, keysFreeA P (foldRidA params a) = keysFreeA P a
  | .nil => by rw [foldRidA_nil]
  | .cons v t => by
    rw [foldRidA_cons]
    show (keysFreeV P (foldRid params v) &&
      keysFreeA P (foldRidA params t)) = _
    rw [keysFree_foldRid_V params P v, keysFree_foldRid_A params P t]
    rfl

theorem keysFree_foldRid_O (params : List ParameterDefinition)
    (P : List Char) :
    ∀ o : JObj, keysFreeO P (foldRidO params o) = keysFreeO P o
  | .nil => by rw [foldRidO_nil]
  | .cons k v t => by
    rw [foldRidO_cons]
    show (noOccB P k.data && keysFreeV P (foldRid params v) &&
      keysFreeO P (foldRidO params t)) = _
    rw [keysFree_foldRid_V params P v, keysFree_foldRid_O params P t]
    rfl
end

mutual
theorem noPh_keysFree_V (P : List Char) :
    ∀ x : JVal, noPhV P x = true → keysFreeV P x = true
  | .str _, _ => rfl
  | .num _, _ => rfl
  | .bool _, _ => rfl
  | .null, _ => rfl
  | .arr a, h => noPh_keysFree_A P a h
  | .obj o, h => noPh_keysFree_O P o h

theorem noPh_keysFree_A (P : List Char) :
    ∀ a : JArr, noPhA P a = true → keysFreeA P a = true
  | .nil, _ => rfl
  | .cons v t, h => by
    have h' : (noPhV P v && noPhA P t) = true := h
    simp only [Bool.and_eq_true] at h'
    show (keysFreeV P v && keysFreeA P t) = true
    simp only [Bool.and_eq_true]
    exact ⟨noPh_keysFree_V P v h'.1, noPh_keysFree_A P t h'.2⟩

theorem noPh_keysFree_O (P : List Char) :
    ∀ o : JObj, noPhO P o = true → keysFreeO P o = true
  | .nil, _ => rfl
  | .cons k v t, h => by
    have h' : (noOccB P k.data && noPhV P v && noPhO P t) = true := h
    simp only [Bool.and_eq_true] at h'
    show (noOccB P k.data && keysFreeV P v && keysFreeO P t) = true
    simp only [Bool.and_eq_true]
    exact ⟨⟨h'.1.1, noPh_keysFree_V P v h'.1.2⟩, noPh_keysFree_O P t h'.2⟩
end

/-! ## Invariants of the built template document -/

theorem wordChar_braceFree {s : List Char} (h : ∀ c ∈ s, wordChar c) :
    BraceFree s := by
  intro c hc
  have hb := wordChar_toNat (h c hc)
  constructor
  · rintro rfl
    rcases hb with h | h | h | h <;> revert h <;> decide
  · rintro rfl
    rcases hb with h | h | h | h <;> revert h <;> decide

theorem foldSafe_plain {params : List ParameterDefinition}
    (hw : ∀ p ∈ params, ∀ c ∈ p.name.data, wordChar c) :
    ∀ s : String, PlainStr s.data → PlainStr (foldSafe params s).data := by
  induction params with
  | nil => intro s h; exact h
  | cons p params ih =>
    intro s h
    show PlainStr (foldSafe params (safe_replace s p.example_value
      (template_var_of p.name))).data
    refine ih (fun q hq => hw q (by simp [hq])) _ ?_
    unfold safe_replace
    by_cases hv : p.example_value = ""
    · rw [if_pos hv]
      exact h
    · rw [if_neg hv]
      show PlainStr (repl p.example_value.data (template_var_of p.name).data
        s.data)
      rw [templateVar_data]
      exact repl_plainStr h (ph_plain (hw p (by simp)))

theorem plainA_listToJArr : ∀ l : List JVal,
    plainA (listToJArr l) = l.all (fun v => plainV v)
  | [] => rfl
  | v :: t => by
    show (plainV v && plainA (listToJArr t)) = _
    rw [plainA_listToJArr t]
    rfl

theorem nodupA_listToJArr : ∀ l : List JVal,
    nodupA (listToJArr l) = l.all (fun v => nodupV v)
  | [] => rfl
  | v :: t => by
    show (nodupV v && nodupA (listToJArr t)) = _
    rw [nodupA_listToJArr t]
    rfl

theorem keysFreeA_listToJArr (P : List Char) : ∀ l : List JVal,
    keysFreeA P (listToJArr l) = l.all (fun v => keysFreeV P v)
  | [] => rfl
  | v :: t => by
    show (keysFreeV P v && keysFreeA P (listToJArr t)) = _
    rw [keysFreeA_listToJArr P t]
    rfl

theorem strMapA_listToJArr (f : String → String) : ∀ l : List JVal,
    strMapA f (listToJArr l) = listToJArr (l.map (strMapV f))
  | [] => rfl
  | v :: t => by
    show JArr.cons (strMapV f v) (strMapA f (listToJArr t)) = _
    rw [strMapA_listToJArr f t]
    rfl

theorem plain_mkActionShape {nm ec : String} {p : JVal} (h1 : PlainStr nm.data)
    (h2 : plainV p = true) (h3 : PlainStr ec.data) :
    plainV (mkActionShape nm p ec) = true := by
  simp only [mkActionShape, plainV, plainO]
  rw [List.all_eq_true.mpr h1, h2, List.all_eq_true.mpr h3]
  decide

theorem nodup_mkActionShape {nm ec : String} {p : JVal}
    (hp : nodupV p = true) : nodupV (mkActionShape nm p ec) = true := by
  simp only [mkActionShape, nodupV, nodupO, JObj.hasKey]
  rw [hp]
  decide

theorem keysFree_mkActionShape {nm ec : String} {p : JVal} (n : List Char)
    (hp : keysFreeV (phOf n) p = true) :
    keysFreeV (phOf n) (mkActionShape nm p ec) = true := by
  simp only [mkActionShape, keysFreeV, keysFreeO]
  rw [hp, noOcc_iff.mp (brace_noOcc (by decide : BraceFree ("name" : String).data) n),
    noOcc_iff.mp (brace_noOcc (by decide : BraceFree ("params" : String).data) n),
    noOcc_iff.mp (brace_noOcc
      (by decide : BraceFree ("extracted_content" : String).data) n)]
  decide

theorem plain_mkStepShape {d : String} {acts : List JVal}
    (h1 : PlainStr d.data) (h2 : ∀ a ∈ acts, plainV a = true) :
    plainV (mkStepShape d acts) = true := by
  simp only [mkStepShape, plainV, plainO]
  rw [List.all_eq_true.mpr h1, plainA_listToJArr, List.all_eq_true.mpr h2]
  decide

theorem nodup_mkStepShape {d : String} {acts : List JVal}
    (h2 : ∀ a ∈ acts, nodupV a = true) :
    nodupV (mkStepShape d acts) = true := by
  simp only [mkStepShape, nodupV, nodupO, JObj.hasKey]
  rw [nodupA_listToJArr, List.all_eq_true.mpr h2]
  decide

theorem keysFree_mkStepShape {d : String} {acts : List JVal} (n : List Char)
    (h2 : ∀ a ∈ acts, keysFreeV (phOf n) a = true) :
    keysFreeV (phOf n) (mkStepShape d acts) = true := by
  simp only [mkStepShape, keysFreeV, keysFreeO]
  rw [keysFreeA_listToJArr, List.all_eq_true.mpr h2,
    noOcc_iff.mp (brace_noOcc
      (by decide : BraceFree ("description" : String).data) n),
    noOcc_iff.mp (brace_noOcc
      (by decide : BraceFree ("actions" : String).data) n)]
  decide

theorem plain_param_dict {q : ParameterDefinition}
    (hn : ∀ c ∈ q.name.data, wordChar c) (h1 : PlainStr q.description.data)
    (h2 : PlainStr q.type.data) (h3 : PlainStr q.example_value.data) :
    plainV (ParameterDefinition.to_dict q) = true := by
  simp only [ParameterDefinition.to_dict, plainV, plainO]
  rw [List.all_eq_true.mpr (fun c hc => wordChar_plain (hn c hc)),
    List.all_eq_true.mpr h1, List.all_eq_true.mpr h2, List.all_eq_true.mpr h3]
  decide

theorem nodup_param_dict (q : ParameterDefinition) :
    nodupV (ParameterDefinition.to_dict q) = true := by
  simp only [ParameterDefinition.to_dict, nodupV, nodupO, JObj.hasKey]
  decide

theorem keysFree_param_dict (q : ParameterDefinition) (n : List Char) :
    keysFreeV (phOf n) (ParameterDefinition.to_dict q) = true := by
  simp only [ParameterDefinition.to_dict, keysFreeV, keysFreeO]
  rw [noOcc_iff.mp (brace_noOcc (by decide : BraceFree ("name" : String).data) n),
    noOcc_iff.mp (brace_noOcc
      (by decide : BraceFree ("description" : String).data) n),
    noOcc_iff.mp (brace_noOcc (by decide : BraceFree ("type" : String).data) n),
    noOcc_iff.mp (brace_noOcc
      (by decide : BraceFree ("exampleValue" : String).data) n)]
  decide

/-! ## Hypotheses of the round-trip law -/

/-- Plainness/brace-freedom of one parameter's metadata strings. -/
def paramMetaOk (p : ParameterDefinition) : Prop :=
  PlainStr p.description.data ∧ BraceFree p.description.data ∧
  PlainStr p.type.data ∧ BraceFree p.type.data ∧
  PlainStr p.example_value.data

instance : DecidablePred paramMetaOk := fun p => by
  unfold paramMetaOk
  infer_instance

/-- A recorded action is plain and contains no pre-existing placeholder of
a declared name (in its name, params tree and extracted content). -/
def actionOkD (params : List ParameterDefinition)
    (a : String × JVal × String) : Prop :=
  PlainStr a.1.data ∧ PlainStr a.2.2.data ∧ plainV a.2.1 = true ∧
  nodupV a.2.1 = true ∧
  ∀ p ∈ params, NoOcc (phOf p.name.data) a.1.data ∧
    noPhV (phOf p.name.data) a.2.1 = true ∧
    NoOcc (phOf p.name.data) a.2.2.data

instance (params : List ParameterDefinition) :
    DecidablePred (actionOkD params) := fun a => by
  unfold actionOkD
  infer_instance

/-- A recorded step is plain and contains no pre-existing placeholder of a
declared name. -/
def stepOkD (params : List ParameterDefinition)
    (st : String × List (String × JVal × String)) : Prop :=
  PlainStr st.1.data ∧ (∀ p ∈ params, NoOcc (phOf p.name.data) st.1.data) ∧
  ∀ a ∈ st.2, actionOkD params a

instance (params : List ParameterDefinition) :
    DecidablePred (stepOkD params) := fun st => by
  unfold stepOkD
  infer_instance

/-! ## Instantiation computes the original data back -/

theorem inst_actionD {params : List ParameterDefinition}
    (hg : GoodParams (psOf params)) {a : String × JVal × String}
    (ha : actionOkD params a) :
    strMapV (foldRepl (valuesOf params))
      (mkActionD (foldSafe params a.1, foldRid params a.2.1,
        foldSafe params a.2.2)) = mkActionD a := by
  show JVal.obj (.cons (foldRepl (valuesOf params) "name")
    (.str (foldRepl (valuesOf params) (foldSafe params a.1)))
    (.cons (foldRepl (valuesOf params) "params")
      (strMapV (foldRepl (valuesOf params)) (foldRid params a.2.1))
      (.cons (foldRepl (valuesOf params) "extracted_content")
        (.str (foldRepl (valuesOf params) (foldSafe params a.2.2)))
        .nil))) = _
  rw [foldRepl_braceFree params (by decide : BraceFree ("name" : String).data),
    foldRepl_braceFree params (by decide : BraceFree ("params" : String).data),
    foldRepl_braceFree params
      (by decide : BraceFree ("extracted_content" : String).data),
    foldRepl_roundtrip hg (good_values_ne hg)
      (fun p hp => (ha.2.2.2.2 p hp).1),
    foldRepl_roundtrip hg (good_values_ne hg)
      (fun p hp => (ha.2.2.2.2 p hp).2.2),
    rid_roundtrip_V (good_names hg) (good_values_bf hg) (good_names_dist hg)
      a.2.1 (fun p hp => (ha.2.2.2.2 p hp).2.1)]
  rfl

theorem inst_stepD {params : List ParameterDefinition}
    (hg : GoodParams (psOf params))
    {st : String × List (String × JVal × String)} (hst : stepOkD params st) :
    strMapV (foldRepl (valuesOf params))
      (mkStepD (foldSafe params st.1,
        st.2.map (fun a => (foldSafe params a.1, foldRid params a.2.1,
          foldSafe params a.2.2)))) = mkStepD st := by
  show JVal.obj (.cons (foldRepl (valuesOf params) "description")
    (.str (foldRepl (valuesOf params) (foldSafe params st.1)))
    (.cons (foldRepl (valuesOf params) "actions")
      (.arr (strMapA (foldRepl (valuesOf params))
        (listToJArr ((st.2.map (fun a => (foldSafe params a.1,
          foldRid params a.2.1, foldSafe params a.2.2))).map mkActionD))))
      .nil)) = _
  rw [foldRepl_braceFree params
      (by decide : BraceFree ("description" : String).data),
    foldRepl_braceFree params (by decide : BraceFree ("actions" : String).data),
    foldRepl_roundtrip hg (good_values_ne hg) hst.2.1,
    strMapA_listToJArr, List.map_map, List.map_map]
  simp only [Function.comp_def]
  rw [List.map_congr_left (fun a haa => inst_actionD hg (hst.2.2 a haa))]
  rfl

theorem inst_param_dict {params : List ParameterDefinition}
    (hg : GoodParams (psOf params))
    (hmeta : ∀ p ∈ params, paramMetaOk p) {q : ParameterDefinition}
    (hq : q ∈ params) :
    strMapV (foldRepl (valuesOf params)) (ParameterDefinition.to_dict q) =
      ParameterDefinition.to_dict q := by
  show JVal.obj (.cons (foldRepl (valuesOf params) "name")
    (.str (foldRepl (valuesOf params) q.name))
    (.cons (foldRepl (valuesOf params) "description")
      (.str (foldRepl (valuesOf params) q.description))
      (.cons (foldRepl (valuesOf params) "type")
        (.str (foldRepl (valuesOf params) q.type))
        (.cons (foldRepl (valuesOf params) "exampleValue")
          (.str (foldRepl (valuesOf params) q.example_value)) .nil)))) = _
  rw [foldRepl_braceFree params (by decide : BraceFree ("name" : String).data),
    foldRepl_braceFree params
      (by decide : BraceFree ("description" : String).data),
    foldRepl_braceFree params (by decide : BraceFree ("type" : String).data),
    foldRepl_braceFree params
      (by decide : BraceFree ("exampleValue" : String).data),
    foldRepl_braceFree params (wordChar_braceFree (good_names hg q hq)),
    foldRepl_braceFree params (hmeta q hq).2.1,
    foldRepl_braceFree params (hmeta q hq).2.2.2.1,
    foldRepl_braceFree params (good_values_bf hg q hq)]
  rfl

/-! ## Invariants of the built template document -/

theorem built_plain {params : List ParameterDefinition}
    {S : List (String × List (String × JVal × String))}
    (hg : GoodParams (psOf params)) (hmeta : ∀ p ∈ params, paramMetaOk p)
    (hS : ∀ st ∈ S, stepOkD params st) :
    plainV (WorkflowTemplate.to_dict
      ⟨params, mkStepsD (tplFold params S)⟩) = true := by
  have hP : plainA (listToJArr (params.map ParameterDefinition.to_dict)) =
      true := by
    rw [plainA_listToJArr]
    refine List.all_eq_true.mpr ?_
    intro x hx
    obtain ⟨q, hq, rfl⟩ := List.mem_map.mp hx
    exact plain_param_dict (good_names hg q hq) (hmeta q hq).1
      (hmeta q hq).2.2.1 (hmeta q hq).2.2.2.2
  have hTS : plainA (mkStepsD (tplFold params S)) = true := by
    unfold mkStepsD
    rw [tplFold_pointwise, plainA_listToJArr, List.map_map]
    refine List.all_eq_true.mpr ?_
    intro x hx
    obtain ⟨st, hst, rfl⟩ := List.mem_map.mp hx
    show plainV (mkStepShape (foldSafe params st.1) _) = true
    refine plain_mkStepShape (foldSafe_plain (good_names hg) _ (hS st hst).1) ?_
    intro a haa
    obtain ⟨a0, ha0, rfl⟩ := List.mem_map.mp haa
    obtain ⟨a1, ha1, rfl⟩ := List.mem_map.mp ha0
    have hok := (hS st hst).2.2 a1 ha1
    exact plain_mkActionShape (foldSafe_plain (good_names hg) _ hok.1)
      (plain_foldRid_V (good_names hg) a1.2.1 hok.2.2.1)
      (foldSafe_plain (good_names hg) _ hok.2.1)
  simp only [WorkflowTemplate.to_dict, plainV, plainO, hP, hTS]
  decide

theorem built_nodup {params : List ParameterDefinition}
    {S : List (String × List (String × JVal × String))}
    (hS : ∀ st ∈ S, stepOkD params st) :
    nodupV (WorkflowTemplate.to_dict
      ⟨params, mkStepsD (tplFold params S)⟩) = true := by
  have hP : nodupA (listToJArr (params.map ParameterDefinition.to_dict)) =
      true := by
    rw [nodupA_listToJArr]
    refine List.all_eq_true.mpr ?_
    intro x hx
    obtain ⟨q, hq, rfl⟩ := List.mem_map.mp hx
    exact nodup_param_dict q
  have hTS : nodupA (mkStepsD (tplFold params S)) = true := by
    unfold mkStepsD
    rw [tplFold_pointwise, nodupA_listToJArr, List.map_map]
    refine List.all_eq_true.mpr ?_
    intro x hx
    obtain ⟨st, hst, rfl⟩ := List.mem_map.mp hx
    show nodupV (mkStepShape (foldSafe params st.1) _) = true
    refine nodup_mkStepShape ?_
    intro a haa
    obtain ⟨a0, ha0, rfl⟩ := List.mem_map.mp haa
    obtain ⟨a1, ha1, rfl⟩ := List.mem_map.mp ha0
    have hok := (hS st hst).2.2 a1 ha1
    refine nodup_mkActionShape ?_
    show nodupV (foldRid params a1.2.1) = true
    rw [nodup_foldRid_V params a1.2.1]
    exact hok.2.2.2.1
  simp only [WorkflowTemplate.to_dict, nodupV, nodupO, JObj.hasKey, hP, hTS]
  decide

theorem built_keysFree {params : List ParameterDefinition}
    {S : List (String × List (String × JVal × String))}
    (hS : ∀ st ∈ S, stepOkD params st) {q : ParameterDefinition}
    (hq : q ∈ params) :
    keysFreeV (phOf q.name.data) (WorkflowTemplate.to_dict
      ⟨params, mkStepsD (tplFold params S)⟩) = true := by
  have hk1 : noOccB (phOf q.name.data) ("parameters" : String).data = true :=
    noOcc_iff.mp (brace_noOcc (by decide) q.name.data)
  have hk2 : noOccB (phOf q.name.data) ("steps" : String).data = true :=
    noOcc_iff.mp (brace_noOcc (by decide) q.name.data)
  have hP : keysFreeA (phOf q.name.data)
      (listToJArr (params.map ParameterDefinition.to_dict)) = true := by
    rw [keysFreeA_listToJArr]
    refine List.all_eq_true.mpr ?_
    intro x hx
    obtain ⟨r, hr, rfl⟩ := List.mem_map.mp hx
    exact keysFree_param_dict r q.name.data
  have hTS : keysFreeA (phOf q.name.data) (mkStepsD (tplFold params S)) =
      true := by
    unfold mkStepsD
    rw [tplFold_pointwise, keysFreeA_listToJArr, List.map_map]
    refine List.all_eq_true.mpr ?_
    intro x hx
    obtain ⟨st, hst, rfl⟩ := List.mem_map.mp hx
    show keysFreeV (phOf q.name.data)
      (mkStepShape (foldSafe params st.1) _) = true
    refine keysFree_mkStepShape q.name.data ?_
    intro a haa
    obtain ⟨a0, ha0, rfl⟩ := List.mem_map.mp haa
    obtain ⟨a1, ha1, rfl⟩ := List.mem_map.mp ha0
    have hok := (hS st hst).2.2 a1 ha1
    refine keysFree_mkActionShape q.name.data ?_
    show keysFreeV (phOf q.name.data) (foldRid params a1.2.1) = true
    rw [keysFree_foldRid_V params (phOf q.name.data) a1.2.1]
    exact noPh_keysFree_V (phOf q.name.data) a1.2.1 ((hok.2.2.2.2 q hq).2.1)
  simp only [WorkflowTemplate.to_dict, keysFreeV, keysFreeO, hk1, hk2, hP, hTS]
  decide

/-! ## The round-trip law -/

/-- Templating a schema-shaped run and instantiating the template with the
original example values returns the original document exactly. -/
theorem c1_core (params : List ParameterDefinition)
    (S : List (String × List (String × JVal × String)))
    (hg : GoodParams (psOf params)) (hmeta : ∀ p ∈ params, paramMetaOk p)
    (hS : ∀ st ∈ S, stepOkD params st) :
    apply_parameters_to_workflow
      (WorkflowTemplate.to_dict (build_workflow_from_run params (mkStepsD S)))
      (valuesOf params) =
    some (WorkflowTemplate.to_dict ⟨params, mkStepsD S⟩) := by
  have hbuild : build_workflow_from_run params (mkStepsD S) =
      ⟨params, mkStepsD (tplFold params S)⟩ := by
    unfold build_workflow_from_run
    rw [build_steps_D params (good_values_ne hg) S]
  rw [hbuild]
  have hMcond : ∀ pv ∈ valuesOf params,
      (∀ c ∈ pv.1.data, wordChar c = true) ∧ PlainStr pv.2.data := by
    intro pv hpv
    obtain ⟨q, hq, rfl⟩ := List.mem_map.mp hpv
    exact ⟨good_names hg q hq, (hmeta q hq).2.2.2.2⟩
  have hKcond : ∀ pv ∈ valuesOf params, keysFreeV (phOf pv.1.data)
      (WorkflowTemplate.to_dict ⟨params, mkStepsD (tplFold params S)⟩) =
        true := by
    intro pv hpv
    obtain ⟨q, hq, rfl⟩ := List.mem_map.mp hpv
    exact built_keysFree hS hq
  rw [applyParams_eq_tree (built_plain hg hmeta hS) (built_nodup hS)
    hMcond hKcond]
  rw [apply_tree_foldRepl]
  show some (JVal.obj (.cons (foldRepl (valuesOf params) "parameters")
    (.arr (strMapA (foldRepl (valuesOf params))
      (listToJArr (params.map ParameterDefinition.to_dict))))
    (.cons (foldRepl (valuesOf params) "steps")
      (.arr (strMapA (foldRepl (valuesOf params))
        (mkStepsD (tplFold params S)))) .nil))) = _
  rw [foldRepl_braceFree params
      (by decide : BraceFree ("parameters" : String).data),
    foldRepl_braceFree params (by decide : BraceFree ("steps" : String).data),
    strMapA_listToJArr, List.map_map]
  simp only [Function.comp_def]
  rw [List.map_congr_left (fun q hq => inst_param_dict hg hmeta hq)]
  have hsteps : strMapA (foldRepl (valuesOf params))
      (mkStepsD (tplFold params S)) = mkStepsD S := by
    unfold mkStepsD
    rw [tplFold_pointwise, strMapA_listToJArr, List.map_map, List.map_map]
    simp only [Function.comp_def]
    rw [List.map_congr_left (fun st hst => inst_stepD hg (hS st hst))]
  rw [hsteps]
  rfl

/-! ## C8: instantiation method equivalence -/

/-- Concrete workflow and mapping exhibiting the C8 failure: the resolved
value contains a double quote. -/
def c8W : JVal := .obj (.cons "steps" (.arr (.cons (.obj (.cons "description"
  (.str "Open {{ a }} page") .nil)) .nil)) .nil)

def c8M : List (String × String) := [("a", "x\"y")]

/-- C8, counterexample: with the resolved value `x"y` (containing a JSON
double quote), serialize→replace→deserialize corrupts the JSON text and
`json.loads` fails (the instantiator raises), while the structural tree
walk produces the substituted document — the two methods are not
behaviorally equivalent for every template and mapping. -/
theorem c8_counterexample : apply_parameters_to_workflow c8W c8M ≠
    some (apply_parameters_tree c8W c8M) := by decide

/-- C8, amended: when the template is plain printable-ASCII JSON with
duplicate-free keys, the parameter names consist of word characters, the
resolved values are plain (no quotes, backslashes, control or non-ASCII
characters), and no object key contains a placeholder occurrence, the
serialize→replace→deserialize instantiator returns exactly the structural
tree walk's result. -/
theorem c8_tree_walk_equiv {w : JVal} {M : List (String × String)}
    (hw : plainV w = true) (hn : nodupV w = true)
    (hM : ∀ pv ∈ M, (∀ c ∈ pv.1.data, wordChar c = true) ∧ PlainStr pv.2.data)
    (hK : ∀ pv ∈ M, keysFreeV (phOf pv.1.data) w = true) :
    apply_parameters_to_workflow w M = some (apply_parameters_tree w M) :=
  applyParams_eq_tree hw hn hM hK

/-- Witness for the amended C8 at a concrete workflow and mapping. -/
theorem c8_witness : apply_parameters_to_workflow c8W [("a", "hello")] =
    some (apply_parameters_tree c8W [("a", "hello")]) :=
  c8_tree_walk_equiv (by decide) (by decide) (by decide) (by decide)

/-! ## C2: instantiation completeness -/

/-- A brace-free string is trivially templated. -/
theorem tpl_of_braceFree {names : List (List Char)} {s : List Char}
    (h : BraceFree s) : Tpl names s := by
  have h2 : Tpl names (s ++ []) := tpl_chunk_append s h Tpl.nil
  rwa [List.append_nil] at h2

/-- A single whole placeholder of a declared name is templated. -/
theorem tpl_ph_single {names : List (List Char)} {n : List Char}
    (h : n ∈ names) : Tpl names (phOf n) := by
  have h2 : Tpl names (phOf n ++ []) := Tpl.ph h Tpl.nil
  rwa [List.append_nil] at h2

/-- Workflow and mapping exhibiting the C2 failure: the resolved value is
itself placeholder syntax. -/
def c2W : JVal := .obj (.cons "steps" (.arr (.cons (.obj (.cons "description"
  (.str "\x7b\x7b a \x7d\x7d") .nil)) .nil)) .nil)

def c2M : List (String × String) := [("a", "\x7b\x7b a \x7d\x7d")]

/-- C2, counterexample: the template's only placeholder name `a` is covered
by the mapping, yet the instantiated workflow still contains the
placeholder syntax `\x7b\x7b a \x7d\x7d` (the resolved value is the
placeholder text itself, and `re.sub` substitutes it verbatim), so
instantiation completeness fails for arbitrary mappings. -/
theorem c2_counterexample :
    TplV ["a".data] c2W ∧
    (∀ m ∈ ["a".data], ∃ pv ∈ c2M, pv.1.data = m) ∧
    apply_parameters_to_workflow c2W c2M = some c2W ∧
    noPhV (phOf "a".data) c2W = false := by
  refine ⟨?_, by decide, by decide, by decide⟩
  refine ⟨tpl_of_braceFree (by decide),
    ⟨⟨tpl_of_braceFree (by decide), ?_, trivial⟩, trivial⟩, trivial⟩
  show Tpl ["a".data] (("\x7b\x7b a \x7d\x7d" : String).data)
  rw [(by decide : ("\x7b\x7b a \x7d\x7d" : String).data = phOf "a".data)]
  exact @tpl_ph_single ["a".data] "a".data (by decide)

/-- C2, amended: if the template is plain JSON with duplicate-free keys
whose braces occur only inside declared placeholders (`TplV names T`), the
mapping covers every declared name, parameter names are word characters,
resolved values are plain and brace-free, and no key contains a
placeholder occurrence, then the instantiated workflow contains no
remaining placeholder syntax in any string field or key. -/
theorem c2_instantiation_complete {T : JVal} {M : List (String × String)}
    {names : List (List Char)}
    (hT : plainV T = true) (hnd : nodupV T = true)
    (hM : ∀ pv ∈ M, (∀ c ∈ pv.1.data, wordChar c = true) ∧
      PlainStr pv.2.data ∧ BraceFree pv.2.data)
    (hK : ∀ pv ∈ M, keysFreeV (phOf pv.1.data) T = true)
    (hw : ∀ m ∈ names, ∀ c ∈ m, wordChar c = true)
    (hcov : ∀ m ∈ names, ∃ pv ∈ M, pv.1.data = m)
    (hTpl : TplV names T)
    {W : JVal} (hW : apply_parameters_to_workflow T M = some W)
    (n : List Char) (hwn : Wordy n) :
    noPhV (phOf n) W = true := by
  have heq := applyParams_eq_tree hT hnd
    (fun pv hpv => ⟨(hM pv hpv).1, (hM pv hpv).2.1⟩) hK
  have hWeq : W = apply_parameters_tree T M :=
    Option.some.inj (hW.symm.trans heq)
  rw [hWeq, apply_tree_foldRepl]
  exact tplV_fold_noPh hw
    (fun pv hpv => ⟨(hM pv hpv).1, (hM pv hpv).2.2⟩) hcov n T hTpl

/-- The instantiation of `c2W` with a brace-free value. -/
def c2ResW : JVal := .obj (.cons "steps" (.arr (.cons (.obj
  (.cons "description" (.str "hello") .nil)) .nil)) .nil)

/-- Witness for the amended C2 at a concrete template and mapping. -/
theorem c2_witness : noPhV (phOf "q".data) c2ResW = true := by
  refine @c2_instantiation_complete c2W [("a", "hello")] ["a".data]
    (by decide) (by decide) (by decide) (by decide) (by decide) (by decide)
    ?_ c2ResW (by decide) "q".data (by decide)
  refine ⟨tpl_of_braceFree (by decide),
    ⟨⟨tpl_of_braceFree (by decide), ?_, trivial⟩, trivial⟩, trivial⟩
  show Tpl ["a".data] (("\x7b\x7b a \x7d\x7d" : String).data)
  rw [(by decide : ("\x7b\x7b a \x7d\x7d" : String).data = phOf "a".data)]
  exact @tpl_ph_single ["a".data] "a".data (by decide)

/-! ## C10: resolution skipped on an empty parameter list -/

/-- `workflow.get("parameters", [])` of the template document. -/
def declared_parameters (workflow : JVal) : JVal :=
  match workflow with
  | .obj o =>
    match o.find "parameters" with
    | some p => p
    | none => .arr .nil
  | _ => .arr .nil

/-- Workflow with an empty declared parameter list but a placeholder
still present in a step description. -/
def c10W : JVal := .obj (.cons "parameters" (.arr .nil)
  (.cons "steps" (.arr (.cons (.obj (.cons "description"
    (.str "Open \x7b\x7b a \x7d\x7d page") .nil)) .nil)) .nil))

/-- C10: with an empty declared parameter list the resolver returns the
empty mapping without invoking the LLM (for every oracle), and
instantiation with the resulting empty mapping returns the workflow
unchanged, so remaining placeholder occurrences pass through unresolved. -/
theorem c10_empty_params_no_llm (llm : String → String) (task : String)
    (w : JVal) (hp : declared_parameters w = .arr .nil)
    (hw : plainV w = true) (hn : nodupV w = true) :
    extract_parameters_from_task llm task w = (.ok [], false) ∧
    apply_parameters_to_workflow w [] = some w := by
  constructor
  · cases w with
    | obj o =>
      cases hf : JObj.find o "parameters" with
      | some p =>
        have hpn : p = JVal.arr .nil := by
          simpa [declared_parameters, hf] using hp
        subst hpn
        simp [extract_parameters_from_task, hf, truthy]
      | none =>
        simp [extract_parameters_from_task, hf, truthy]
    | str s => simp [extract_parameters_from_task, truthy]
    | num i => simp [extract_parameters_from_task, truthy]
    | bool b => simp [extract_parameters_from_task, truthy]
    | null => simp [extract_parameters_from_task, truthy]
    | arr a => simp [extract_parameters_from_task, truthy]
  · show jparse (jser w) = some w
    exact jparse_jser hw hn

/-- Witness for C10 at a concrete workflow still containing a
placeholder. -/
theorem c10_witness :
    extract_parameters_from_task (fun _ => "ignored") "task" c10W =
      (.ok [], false) ∧
    apply_parameters_to_workflow c10W [] = some c10W :=
  c10_empty_params_no_llm (fun _ => "ignored") "task" c10W
    (by decide) (by decide) (by decide)

/-! ## C1: the round-trip law -/

/-- Parameter and steps exhibiting the C1 failure: the recorded
description already contains placeholder-shaped text. -/
def c1P : List ParameterDefinition := [⟨"p", "desc", "string", "zzz"⟩]

def c1S : List (String × List (String × JVal × String)) :=
  [("\x7b\x7b p \x7d\x7d", [])]

set_option maxRecDepth 40000 in
/-- C1, counterexample: with a single parameter of example value `zzz`
(no value collisions: values are pairwise non-overlapping and occur in no
other string), a recorded step whose description is the literal text
`\x7b\x7b p \x7d\x7d` does not survive the round trip: templating leaves
the description unchanged, and instantiation then substitutes `zzz` into
it, so the reproduced step sequence differs from the original. -/
theorem c1_counterexample :
    GoodParams (psOf c1P) ∧ (∀ p ∈ c1P, paramMetaOk p) ∧
    (∀ st ∈ c1S, PlainStr st.1.data ∧ ∀ a ∈ st.2, actionOkD c1P a) ∧
    apply_parameters_to_workflow
      (WorkflowTemplate.to_dict (build_workflow_from_run c1P (mkStepsD c1S)))
      (valuesOf c1P) ≠
    some (WorkflowTemplate.to_dict ⟨c1P, mkStepsD c1S⟩) := by
  exact ⟨by decide, by decide, by decide, by decide⟩

/-- C1, amended: for schema-shaped recorded steps (description, actions
with name, params and extracted content) that are printable-ASCII plain,
if the parameters are collision-free (`GoodParams`: word-character
distinct names, nonempty brace-free pairwise non-overlapping values not
hiding inside other placeholders), the parameter metadata is plain and
brace-free, and no string or params entry of the recorded run contains a
pre-existing placeholder of a declared name, then templating the run with
`build_workflow_from_run` and instantiating the result with
`apply_parameters_to_workflow` under the original example values
reproduces the original document exactly. -/
theorem c1_roundtrip_law (params : List ParameterDefinition)
    (S : List (String × List (String × JVal × String)))
    (hg : GoodParams (psOf params)) (hmeta : ∀ p ∈ params, paramMetaOk p)
    (hS : ∀ st ∈ S, stepOkD params st) :
    apply_parameters_to_workflow
      (WorkflowTemplate.to_dict (build_workflow_from_run params (mkStepsD S)))
      (valuesOf params) =
    some (WorkflowTemplate.to_dict ⟨params, mkStepsD S⟩) :=
  c1_core params S hg hmeta hS

def c1Pw : List ParameterDefinition :=
  [⟨"city", "City name", "string", "Paris"⟩]

def c1Sw : List (String × List (String × JVal × String)) :=
  [("Search for Paris", [("input_text",
    .obj (.cons "text" (.str "Paris") .nil), "Paris weather")])]

set_option maxRecDepth 40000 in
/-- Witness for the amended C1 at a concrete recorded run. -/
theorem c1_witness :
    apply_parameters_to_workflow
      (WorkflowTemplate.to_dict (build_workflow_from_run c1Pw (mkStepsD c1Sw)))
      (valuesOf c1Pw) =
    some (WorkflowTemplate.to_dict ⟨c1Pw, mkStepsD c1Sw⟩) :=
  c1_roundtrip_law c1Pw c1Sw (by decide) (by decide) (by decide)

end WebAgent
